import Mathlib

/-!
# toolchest: dynamic list, worker entity and worker manager

A shallow embedding of `linkedListDynamic.c`, `worker.c` and `workerManager.c`.

* Pointers are natural numbers, `NULL` is `0`.
* A `Node_t *` that heads a finite acyclic chain is a value of `NodePtr`: either `null`
  or a node with its `item` and its `next` pointer.
* A call of `malloc` takes its outcome as a Boolean argument of the embedding function.
* Every effect the code has on the outside (handler calls, mutex operations, stores into a
  bucket's list, thread operations, diagnostics) is recorded as an `Event`, in program order.
* Dereferencing a null pointer is a fault: the run stops there and has no result.
-/

namespace Toolchest

/-! ## Dynamic list (`linkedListDynamic.c`) -/

/-- A machine address. -/
abbrev Ptr := Nat

/-- The null pointer. -/
def NULL : Ptr := 0

/-- A `Node_t *`: null, or the address of a node holding `item` and `next`. -/
inductive NodePtr where
  | null : NodePtr
  | node (item : Ptr) (next : NodePtr) : NodePtr
  deriving DecidableEq, Repr

/-- The items of a chain, head first. -/
def NodePtr.items : NodePtr → List Ptr
  | .null => []
  | .node item next => item :: next.items

/-- The function `linkedListDynamic_createNode(item)`: `alloc` is whether `malloc` returned a
node; the result is `null` when it did not. -/
def linkedListDynamic_createNode (alloc : Bool) (item : Ptr) : NodePtr :=
  if alloc then .node item .null else .null

/-- The tail walk of `linkedListDynamic_addNode`, applied to `current->next`:
`while (current->next != NULL) current = current->next; current->next = newNode;`. -/
def linkedListDynamic_addNode.walk (newNode : NodePtr) : NodePtr → NodePtr
  | .null => newNode
  | .node item next => .node item (linkedListDynamic_addNode.walk newNode next)

/-- The function `linkedListDynamic_addNode(&head, item)`: the new value of `head`; nothing
changes when the node could not be allocated. -/
def linkedListDynamic_addNode (alloc : Bool) (head : NodePtr) (item : Ptr) : NodePtr :=
  match linkedListDynamic_createNode alloc item with
  | .null => head
  | .node i n =>
    match head with
    | .null => .node i n
    | .node hitem hnext => .node hitem (linkedListDynamic_addNode.walk (.node i n) hnext)

/-- The loop of `linkedListDynamic_getNode`, from `count` and `current`. The `int` values are
mathematical integers: `count` never exceeds the number of nodes walked, which stays in the
range of `int` on every chain of fewer than `2^31` nodes. -/
def linkedListDynamic_getNode.loop (index : Int) : Int → NodePtr → NodePtr
  | _, .null => .null
  | count, .node item next =>
    if count = index then .node item next
    else linkedListDynamic_getNode.loop index (count + 1) next

/-- The function `linkedListDynamic_getNode(head, index)`: the node found, `null` when there
is none. -/
def linkedListDynamic_getNode (head : NodePtr) (index : Int) : NodePtr :=
  linkedListDynamic_getNode.loop index 0 head

/-- Appending the items of a sequence one by one to an empty list, every allocation succeeding. -/
def appendAll (xs : List Ptr) : NodePtr :=
  xs.foldl (fun head item => linkedListDynamic_addNode true head item) .null

/-- The chain whose items are the given ones. -/
def NodePtr.ofItems : List Ptr → NodePtr
  | [] => .null
  | x :: xs => .node x (NodePtr.ofItems xs)

/-- The walk of `linkedListDynamic_removeNode` from loop counter `i` and `temp`, and the
unlinking that follows it; the result is the chain from `temp` on, as it is afterwards.
`for (i = 0; temp != NULL && i < index - 1; i++) temp = temp->next;` moves on while
`i < index - 1`; when the loop stops at a node, the node after it, if there is one, is
unlinked and freed. -/
def linkedListDynamic_removeNode.walk (index : Int) : Int → NodePtr → NodePtr
  | _, .null => .null
  | i, .node item next =>
    if i < index - 1 then .node item (linkedListDynamic_removeNode.walk index (i + 1) next)
    else
      match next with
      | .null => .node item .null
      | .node _ nextnext => .node item nextnext

/-- The function `linkedListDynamic_removeNode(&head, index)`: the new value of `head`. -/
def linkedListDynamic_removeNode (head : NodePtr) (index : Int) : NodePtr :=
  match head with
  | .null => .null
  | .node item next =>
    if index < 0 then .node item next
    else if index = 0 then next
    else linkedListDynamic_removeNode.walk index 0 (.node item next)

/-- The function `linkedListDynamic_destroyList(head)`: the number of nodes it frees. -/
def linkedListDynamic_destroyList : NodePtr → Nat
  | .null => 0
  | .node _ next => linkedListDynamic_destroyList next + 1

/-! ## Effects and runs -/

/-- The three lifecycle phases of a worker. -/
inductive Phase where
  | init
  | run
  | end_
  deriving DecidableEq, Repr

/-- What the code does to the outside, one event per executed statement of that kind. -/
inductive Event where
  /-- The call `handler(args)` made through the slot of `phase`. -/
  | call (phase : Phase) (handler : Ptr) (args : Ptr)
  /-- The call `pthread_mutex_lock(&_mutexList[mutex])`. -/
  | lock (mutex : Nat)
  /-- The call `pthread_mutex_unlock(&_mutexList[mutex])`. -/
  | unlock (mutex : Nat)
  /-- The call `pthread_mutex_init(&_mutexList[mutex], NULL)`. -/
  | mutexInit (mutex : Nat)
  /-- The call `pthread_mutex_destroy(&_mutexList[mutex])`. -/
  | mutexDestroy (mutex : Nat)
  /-- A store into `_workersList[bucket]` or into a node of that bucket's chain. -/
  | listWrite (bucket : Nat)
  /-- The release of a node of the chain of `_workersList[bucket]`. -/
  | listFree (bucket : Nat)
  /-- The call `pthread_create` for the thread of `bucket`. -/
  | threadCreate (bucket : Nat)
  /-- The call `pthread_join` for the thread of `bucket`. -/
  | threadJoin (bucket : Nat)
  /-- The call `usleep(usec)`. -/
  | usleep (usec : Nat)
  /-- A diagnostic line written with `printf`. -/
  | printf
  deriving DecidableEq, Repr

/-- A run of a function: the events it produced, and its result, `none` when the run
stopped at a null dereference. -/
structure Run (α : Type) where
  events : List Event
  result : Option α

/-- The run that produces `evs` and returns `a`. -/
def Run.ok {α : Type} (evs : List Event) (a : α) : Run α := { events := evs, result := some a }

/-- The run that produces `evs` and then faults. -/
def Run.fault {α : Type} (evs : List Event) : Run α := { events := evs, result := none }

/-- Sequencing: `k` runs on the result of `r`, unless `r` faulted. -/
def Run.andThen {α β : Type} (r : Run α) (k : α → Run β) : Run β :=
  match r.result with
  | none => { events := r.events, result := none }
  | some a => { events := r.events ++ (k a).events, result := (k a).result }

/-! ## Worker entity (`worker.h`, `worker.c`) -/

/-- One lifecycle slot of `worker_t`: the handler (a function pointer, `NULL` when absent)
and its argument. -/
structure HandlerSlot where
  handler : Ptr
  args : Ptr
  deriving DecidableEq, Repr

/-- The length of the array `metadata.name`, terminator included. -/
def WORKER_NAME_MAX_LEN : Nat := 64

/-- The null character. -/
def NUL : Char := Char.ofNat 0

/-- The record `worker_t`; `name` holds the characters of the array `metadata.name`. -/
structure worker_t where
  name : List Char
  status : Nat
  init : HandlerSlot
  run : HandlerSlot
  end_ : HandlerSlot
  deriving DecidableEq, Repr

/-- The record written by `memset(*worker, 0x00, sizeof(worker_t))`. -/
def worker_t.zero : worker_t :=
  { name := List.replicate WORKER_NAME_MAX_LEN NUL, status := 0,
    init := ⟨NULL, NULL⟩, run := ⟨NULL, NULL⟩, end_ := ⟨NULL, NULL⟩ }

/-- The C string that starts the characters `bytes`: those before the first null character. -/
def cstring (bytes : List Char) : List Char := bytes.takeWhile fun c => c != NUL

/-- The `n` characters that `strncpy(dst, src, n)` writes into `dst`: the characters of the
string `src`, `n` of them at most, followed by null characters up to `n`. -/
def strncpy (src : List Char) (n : Nat) : List Char :=
  (cstring src).take n ++ List.replicate (n - (cstring src).length) NUL

/-- What `worker_makeWorker` leaves behind: the output slot (`none` when the caller gave no
slot) and the worker object it built, if any. -/
structure Made where
  slot : Option Ptr
  made : Option worker_t
  deriving DecidableEq, Repr

/-- The function `worker_makeWorker(name, worker)`. `name` is `none` for a null pointer and
otherwise the characters at `name`; `worker` is `none` for a null pointer and otherwise the
value held by the slot it points to; `malloc` is the address `malloc` returns, `NULL` when
it fails. -/
def worker_makeWorker (malloc : Ptr) (name : Option (List Char)) (worker : Option Ptr) : Made :=
  match name, worker with
  | none, _ => { slot := worker, made := none }
  | some _, none => { slot := none, made := none }
  | some src, some _ =>
    if malloc = NULL then { slot := some NULL, made := none }
    else
      { slot := some malloc,
        made := some
          { worker_t.zero with
            name :=
              (strncpy src (WORKER_NAME_MAX_LEN - 1)
                ++ worker_t.zero.name.drop (WORKER_NAME_MAX_LEN - 1)).set
                  (WORKER_NAME_MAX_LEN - 1) NUL } }

/-- The worker objects in memory: the contents at each non-null address. -/
abbrev WorkerMem := Ptr → worker_t

/-- The function `worker_handleInit(worker)`: the call it makes, if any. The handler is read
only when `worker` is not null. -/
def worker_handleInit (mem : WorkerMem) (worker : Ptr) : List Event :=
  if worker = NULL then []
  else if (mem worker).init.handler = NULL then []
  else [.call .init (mem worker).init.handler (mem worker).init.args]

/-- The function `worker_handleRun(worker)`: the call it makes, if any. -/
def worker_handleRun (mem : WorkerMem) (worker : Ptr) : List Event :=
  if worker = NULL then []
  else if (mem worker).run.handler = NULL then []
  else [.call .run (mem worker).run.handler (mem worker).run.args]

/-- The function `worker_handleEnd(worker)`: the call it makes, if any. -/
def worker_handleEnd (mem : WorkerMem) (worker : Ptr) : List Event :=
  if worker = NULL then []
  else if (mem worker).end_.handler = NULL then []
  else [.call .end_ (mem worker).end_.handler (mem worker).end_.args]

/-! ## Worker manager (`workerManager.c`) -/

/-- The number of priority buckets. -/
def WORKERMANAGER_PRIORITY_NUM : Nat := 10

/-- The record `threadArgs_t`; `workerList` and `mutex` are the indices `i` of
`&_workersList[i]` and `&_mutexList[i]`. -/
structure threadArgs_t where
  workerList : Nat
  sleepTime : Nat
  mutex : Nat
  deriving DecidableEq, Repr

/-- The static state of the manager. `_pthreadList i` is `none` while `_pthreadList[i]` is
`NULL`, and otherwise holds the thread arguments of the `threadNode_t` it leads to. -/
structure Manager where
  workerManagerRunning : Nat
  _workersList : Nat → NodePtr
  _pthreadList : Nat → Option threadArgs_t

/-- The init loop of `_workManagerHandler` over a bucket's chain. -/
def _workManagerHandler.initLoop (mem : WorkerMem) : NodePtr → List Event
  | .null => []
  | .node item next => worker_handleInit mem item ++ _workManagerHandler.initLoop mem next

/-- The run loop body's walk of `_workManagerHandler` over a bucket's chain. -/
def _workManagerHandler.runLoop (mem : WorkerMem) : NodePtr → List Event
  | .null => []
  | .node item next => worker_handleRun mem item ++ _workManagerHandler.runLoop mem next

/-- The end loop of `_workManagerHandler` over a bucket's chain. -/
def _workManagerHandler.endLoop (mem : WorkerMem) : NodePtr → List Event
  | .null => []
  | .node item next => worker_handleEnd mem item ++ _workManagerHandler.endLoop mem next

/-- The bootstrap pass of a bucket thread: lock, init every worker, unlock. -/
def _workManagerHandler.initPass (mem : WorkerMem) (threadArgs : threadArgs_t) (m : Manager) :
    List Event :=
  [.lock threadArgs.mutex]
    ++ _workManagerHandler.initLoop mem (m._workersList threadArgs.workerList)
    ++ [.unlock threadArgs.mutex]

/-- One iteration of the run loop of a bucket thread: lock, run every worker, unlock, sleep. -/
def _workManagerHandler.runPass (mem : WorkerMem) (threadArgs : threadArgs_t) (m : Manager) :
    List Event :=
  [.lock threadArgs.mutex]
    ++ _workManagerHandler.runLoop mem (m._workersList threadArgs.workerList)
    ++ [.unlock threadArgs.mutex, .usleep threadArgs.sleepTime]

/-- The drain pass of a bucket thread: lock, end every worker, unlock. -/
def _workManagerHandler.endPass (mem : WorkerMem) (threadArgs : threadArgs_t) (m : Manager) :
    List Event :=
  [.lock threadArgs.mutex]
    ++ _workManagerHandler.endLoop mem (m._workersList threadArgs.workerList)
    ++ [.unlock threadArgs.mutex]

/-- Where a bucket thread stands in `_workManagerHandler`. -/
inductive ThreadPc where
  /-- Before `if (workerManagerRunning)`. -/
  | bootstrap
  /-- Before a test of `while (workerManagerRunning)`. -/
  | runLoop
  /-- After the run loop, before the final lock. -/
  | drain
  /-- After `return NULL`. -/
  | done
  deriving DecidableEq, Repr

/-- One step of `_workManagerHandler` from a program point: the flag is read once, and a pass
over the list is a single step, since it is made with the bucket's mutex held. -/
def _workManagerHandler.step (mem : WorkerMem) (threadArgs : threadArgs_t) (m : Manager) :
    ThreadPc → ThreadPc × List Event
  | .bootstrap =>
    (.runLoop,
      if m.workerManagerRunning ≠ 0 then _workManagerHandler.initPass mem threadArgs m else [])
  | .runLoop =>
    if m.workerManagerRunning ≠ 0 then (.runLoop, _workManagerHandler.runPass mem threadArgs m)
    else (.drain, [])
  | .drain => (.done, _workManagerHandler.endPass mem threadArgs m)
  | .done => (.done, [])

/-- The loop of `workerManager_init` over the buckets still to set up. `alloc i` is whether the
allocations made for bucket `i` succeed; none of their results is checked by the code. -/
def workerManager_init.buckets (alloc : Nat → Bool) : List Nat → Manager → Run Manager
  | [], m => Run.ok [] m
  | i :: rest, m =>
    let m1 : Manager := { m with _workersList := Function.update m._workersList i .null }
    if alloc i then
      let m2 : Manager :=
        { m1 with
          _pthreadList :=
            Function.update m1._pthreadList i
              (some { workerList := i, sleepTime := 100000, mutex := i }) }
      Run.andThen (Run.ok [.listWrite i, .mutexInit i, .threadCreate i] ())
        (fun _ => workerManager_init.buckets alloc rest m2)
    else Run.fault [.listWrite i, .mutexInit i]

/-- The function `workerManager_init()`: the flag is set, then every bucket is set up. -/
def workerManager_init (alloc : Nat → Bool) (m : Manager) : Run Manager :=
  workerManager_init.buckets alloc (List.range WORKERMANAGER_PRIORITY_NUM)
    { m with workerManagerRunning := 1 }

/-- The walk of `workerManager_addWorker` to the end of the chain, where the new node is
stored: `while ((*workerList) != NULL) workerList = &((*workerList)->next);`. -/
def workerManager_addWorker.walk (worker : Ptr) : NodePtr → NodePtr
  | .null => .node worker .null
  | .node item next => .node item (workerManager_addWorker.walk worker next)

/-- The function `workerManager_addWorker(worker, prio)`; `alloc` is whether `malloc` returned
a node (its result is not checked before the stores into it). -/
def workerManager_addWorker (alloc : Bool) (worker : Ptr) (prio : Nat) (m : Manager) :
    Run Manager :=
  if prio ≥ WORKERMANAGER_PRIORITY_NUM then Run.ok [.printf] m
  else if alloc then
    Run.ok [.lock prio, .listWrite prio, .listWrite prio, .listWrite prio, .unlock prio]
      { m with
        _workersList :=
          Function.update m._workersList prio
            (workerManager_addWorker.walk worker (m._workersList prio)) }
  else Run.fault [.lock prio, .listWrite prio]

/-- The inner loop of `workerManager_removeWorker` over one chain: the chain with the first
node whose item is `worker` unlinked, `none` when no node holds `worker`. -/
def workerManager_removeWorker.scan (worker : Ptr) : NodePtr → Option NodePtr
  | .null => none
  | .node item next =>
    if item = worker then some next
    else
      match workerManager_removeWorker.scan worker next with
      | none => none
      | some next1 => some (.node item next1)

/-- The outer loop of `workerManager_removeWorker` over the buckets still to visit. -/
def workerManager_removeWorker.buckets (worker : Ptr) : List Nat → Manager → Run Manager
  | [], m => Run.ok [] m
  | prio :: rest, m =>
    match workerManager_removeWorker.scan worker (m._workersList prio) with
    | some l =>
      Run.ok [.lock prio, .listWrite prio, .listFree prio, .unlock prio]
        { m with _workersList := Function.update m._workersList prio l }
    | none =>
      Run.andThen (Run.ok [.lock prio, .unlock prio] ())
        (fun _ => workerManager_removeWorker.buckets worker rest m)

/-- The function `workerManager_removeWorker(worker)`: the buckets are visited in ascending
order and the call returns at the first node found. -/
def workerManager_removeWorker (worker : Ptr) (m : Manager) : Run Manager :=
  workerManager_removeWorker.buckets worker (List.range WORKERMANAGER_PRIORITY_NUM) m

/-- The end-handler walk of `workerManager_end` over one chain; `worker->end.handler` is read
without a test of `worker`. -/
def workerManager_end.walk (mem : WorkerMem) : NodePtr → Run Unit
  | .null => Run.ok [] ()
  | .node item next =>
    if item = NULL then Run.fault []
    else
      Run.andThen
        (Run.ok (if (mem item).end_.handler = NULL then []
                 else [.call .end_ (mem item).end_.handler (mem item).end_.args]) ())
        (fun _ => workerManager_end.walk mem next)

/-- The loop of `workerManager_end` over the buckets still to tear down. -/
def workerManager_end.buckets (mem : WorkerMem) (m : Manager) : List Nat → Run Unit
  | [] => Run.ok [] ()
  | i :: rest =>
    match m._pthreadList i with
    | none => Run.fault []
    | some _ =>
      Run.andThen (Run.ok [.threadJoin i, .mutexDestroy i] ()) fun _ =>
      Run.andThen (workerManager_end.walk mem (m._workersList i)) fun _ =>
      Run.andThen
        (Run.ok (List.replicate (linkedListDynamic_destroyList (m._workersList i))
          (.listFree i)) ()) fun _ =>
      workerManager_end.buckets mem m rest

/-- The function `workerManager_end()`: the flag is cleared, then every bucket is torn down. -/
def workerManager_end (mem : WorkerMem) (m : Manager) : Run Unit :=
  workerManager_end.buckets mem { m with workerManagerRunning := 0 }
    (List.range WORKERMANAGER_PRIORITY_NUM)

/-- The function `workerManager_setPriorityListSleepTime(prio, sleepTime)`. -/
def workerManager_setPriorityListSleepTime (prio sleepTime : Nat) (m : Manager) : Run Manager :=
  if prio ≥ WORKERMANAGER_PRIORITY_NUM then Run.ok [.printf] m
  else
    match m._pthreadList prio with
    | none => Run.fault []
    | some threadArgs =>
      Run.ok []
        { m with
          _pthreadList :=
            Function.update m._pthreadList prio
              (some { threadArgs with sleepTime := sleepTime }) }

/-! ## Observations on manager states -/

/-- The statics of `workerManager.c` at program start: all zero. -/
def emptyManager : Manager :=
  { workerManagerRunning := 0, _workersList := fun _ => .null, _pthreadList := fun _ => none }

/-- The worker references held by bucket `b`, in list order. -/
def Manager.bucket (m : Manager) (b : Nat) : List Ptr := (m._workersList b).items

/-- The number of nodes over all buckets. -/
def Manager.totalNodes (m : Manager) : Nat :=
  ((List.range WORKERMANAGER_PRIORITY_NUM).map fun b => (m.bucket b).length).sum

/-- The number of nodes over all buckets whose item is `w`. -/
def Manager.occurrences (m : Manager) (w : Ptr) : Nat :=
  ((List.range WORKERMANAGER_PRIORITY_NUM).map fun b => (m.bucket b).count w).sum

/-- Worker `w` is registered in bucket `b`: some node of that bucket holds `w`. -/
def Manager.registeredIn (m : Manager) (w : Ptr) (b : Nat) : Prop :=
  b < WORKERMANAGER_PRIORITY_NUM ∧ w ∈ m.bucket b

/-- A scan of all buckets finds no node whose item is `w`. -/
def Manager.scanFindsNone (m : Manager) (w : Ptr) : Prop :=
  ∀ b, b < WORKERMANAGER_PRIORITY_NUM → w ∉ m.bucket b

/-- The manager at program start after `workerManager_addWorker(7, 0)` was called twice:
worker 7 is registered in bucket 0 only, by two nodes. -/
def twiceRegistered : Manager :=
  { emptyManager with
    _workersList :=
      Function.update emptyManager._workersList 0 (.node 7 (.node 7 .null)) }

/-- The manager at program start after `workerManager_addWorker(7, 3)`. -/
def onceRegistered : Manager :=
  { emptyManager with
    _workersList := Function.update emptyManager._workersList 3 (.node 7 .null) }

/-- A manager in which bucket 2 holds workers 5, 7, 7 and bucket 4 holds worker 7. -/
def severalRegistered : Manager :=
  { emptyManager with
    _workersList :=
      Function.update
        (Function.update emptyManager._workersList 2 (.node 5 (.node 7 (.node 7 .null))))
        4 (.node 7 .null) }

/-! ## Shutdown -/

/-- The drain passes of the bucket threads (the last pass of `_workManagerHandler`), one per
bucket whose thread record exists, in bucket order. -/
def drainPasses (mem : WorkerMem) (m : Manager) : List Event :=
  ((List.range WORKERMANAGER_PRIORITY_NUM).map fun i =>
    match m._pthreadList i with
    | none => []
    | some threadArgs => _workManagerHandler.endPass mem threadArgs m).flatten

/-- Shutdown: every bucket thread's drain pass, followed by the walk of `workerManager_end`. -/
def shutdown (mem : WorkerMem) (m : Manager) : Run Unit :=
  Run.andThen (Run.ok (drainPasses mem m) ()) fun _ => workerManager_end mem m

/-- The end-handler calls the nodes of all buckets stand for, in bucket and list order: one
call for each node whose worker is present and has an end handler. -/
def Manager.endCalls (mem : WorkerMem) (m : Manager) : List Event :=
  ((List.range WORKERMANAGER_PRIORITY_NUM).map fun b =>
    ((m.bucket b).map fun item => worker_handleEnd mem item).flatten).flatten

/-- Whether an event is a handler call. -/
def Event.isCall : Event → Bool
  | .call _ _ _ => true
  | _ => false

/-- Whether an event is a call made through an init slot. -/
def Event.isInitCall : Event → Bool
  | .call .init _ _ => true
  | _ => false

/-- Whether an event is a mutex acquisition. -/
def Event.isLock : Event → Bool
  | .lock _ => true
  | _ => false

/-- Every bucket has the thread record that `workerManager_init` gives it. -/
def Manager.started (m : Manager) : Prop :=
  ∀ i, i < WORKERMANAGER_PRIORITY_NUM →
    ∃ sleepTime, m._pthreadList i = some { workerList := i, sleepTime := sleepTime, mutex := i }

/-- No node of any bucket holds a null worker reference. -/
def Manager.noNullWorker (m : Manager) : Prop :=
  ∀ b, b < WORKERMANAGER_PRIORITY_NUM → NULL ∉ m.bucket b

/-- A memory with one worker, at address 7, whose three handlers are the functions at 101,
102 and 103 with arguments 201, 202 and 203. -/
def oneWorkerMem : WorkerMem := fun p =>
  if p = 7 then
    { worker_t.zero with init := ⟨101, 201⟩, run := ⟨102, 202⟩, end_ := ⟨103, 203⟩ }
  else worker_t.zero

/-- The program `workerManager_init(); workerManager_addWorker(NULL, 0);
workerManager_addWorker(w, 0);` with `w` at address 7, every allocation succeeding. -/
def nullThenWorker : Run Manager :=
  Run.andThen (workerManager_init (fun _ => true) emptyManager) fun m0 =>
  Run.andThen (workerManager_addWorker true NULL 0 m0) fun m1 =>
  workerManager_addWorker true 7 0 m1

/-- The program `workerManager_init(); workerManager_addWorker(NULL, 0);`, every allocation
succeeding. -/
def nullRegistered : Run Manager :=
  Run.andThen (workerManager_init (fun _ => true) emptyManager) fun m0 =>
  workerManager_addWorker true NULL 0 m0

/-- The program `workerManager_init(); workerManager_addWorker(w, 0);` with `w` at address 7,
every allocation succeeding. -/
def workerRegistered : Run Manager :=
  Run.andThen (workerManager_init (fun _ => true) emptyManager) fun m0 =>
  workerManager_addWorker true 7 0 m0

/-! ## The bucket thread with the manager operations, as a transition system -/

/-- The manager state together with the program point of the thread of one bucket. -/
structure Sys where
  m : Manager
  pc : ThreadPc

/-- The steps of the system. -/
inductive Step where
  /-- The bucket thread makes its next step in `_workManagerHandler`. -/
  | thread
  /-- A caller runs `workerManager_addWorker(worker, prio)`. -/
  | addWorker (alloc : Bool) (worker : Ptr) (prio : Nat)
  /-- A caller runs `workerManager_removeWorker(worker)`. -/
  | removeWorker (worker : Ptr)
  /-- A caller runs `workerManager_setPriorityListSleepTime(prio, sleepTime)`. -/
  | setSleepTime (prio sleepTime : Nat)
  /-- The store `workerManagerRunning = 0` of `workerManager_end`. -/
  | stop
  deriving DecidableEq, Repr

/-- One step of the system for the thread of `bucket`. The thread reads its arguments through
the pointer it was given, which leads to the record of `_pthreadList[bucket]`. -/
def Sys.step (mem : WorkerMem) (bucket : Nat) (s : Sys) : Step → Run Sys
  | .thread =>
    match s.m._pthreadList bucket with
    | none => Run.fault []
    | some threadArgs =>
      Run.ok (_workManagerHandler.step mem threadArgs s.m s.pc).2
        { s with pc := (_workManagerHandler.step mem threadArgs s.m s.pc).1 }
  | .addWorker alloc worker prio =>
    Run.andThen (workerManager_addWorker alloc worker prio s.m) fun m1 =>
      Run.ok [] { s with m := m1 }
  | .removeWorker worker =>
    Run.andThen (workerManager_removeWorker worker s.m) fun m1 => Run.ok [] { s with m := m1 }
  | .setSleepTime prio sleepTime =>
    Run.andThen (workerManager_setPriorityListSleepTime prio sleepTime s.m) fun m1 =>
      Run.ok [] { s with m := m1 }
  | .stop => Run.ok [] { s with m := { s.m with workerManagerRunning := 0 } }

/-- A sequence of steps, stopping at a fault. -/
def Sys.run (mem : WorkerMem) (bucket : Nat) : Sys → List Step → Run Sys
  | s, [] => Run.ok [] s
  | s, st :: rest =>
    Run.andThen (Sys.step mem bucket s st) fun s1 => Sys.run mem bucket s1 rest

/-- A state after bootstrap: the manager is running, every bucket has its thread record,
bucket 0 is empty and its thread is in the run loop. -/
def afterBootstrap : Sys :=
  { m := { workerManagerRunning := 1, _workersList := fun _ => .null,
           _pthreadList := fun i => some { workerList := i, sleepTime := 100000, mutex := i } },
    pc := .runLoop }

/-- Worker 7 is added to bucket 0 late, the thread makes a run pass, the manager is stopped,
the thread leaves the run loop and drains. -/
def lateRegistration : List Step :=
  [.addWorker true 7 0, .thread, .stop, .thread, .thread]

/-- Worker 7 is added to bucket 0, the manager is stopped, and only then does the thread of
bucket 0 make its steps, three of them, to its end. -/
def stoppedEarly : List Step :=
  [.addWorker true 7 0, .stop, .thread, .thread, .thread]

/-! ## Lock discipline -/

/-- The lock state in which no mutex is held. -/
def noneHeld : Nat → Bool := fun _ => false

/-- Replaying the events of an operation over the per-bucket lock state `held` (the mutexes
the operation holds): every store into a bucket's list, and every release of one of its
nodes, is made while the operation holds that bucket's mutex. -/
def mutationsUnderLock : (Nat → Bool) → List Event → Bool
  | _, [] => true
  | held, .lock i :: es => mutationsUnderLock (Function.update held i true) es
  | held, .unlock i :: es => mutationsUnderLock (Function.update held i false) es
  | held, .listWrite i :: es => held i && mutationsUnderLock held es
  | held, .listFree i :: es => held i && mutationsUnderLock held es
  | held, _ :: es => mutationsUnderLock held es

/-! ## Registering several workers -/

/-- The calls `workerManager_addWorker(w, prio)` for the workers `ws`, in that order, every
allocation succeeding. -/
def addWorkers (ws : List Ptr) (prio : Nat) (m : Manager) : Run Manager :=
  match ws with
  | [] => Run.ok [] m
  | w :: rest =>
    Run.andThen (workerManager_addWorker true w prio m) fun m1 => addWorkers rest prio m1

/-- The manager at program start after `workerManager_init()`, every allocation succeeding:
running, every bucket empty, every thread record with the default interval. -/
def startedManager : Manager :=
  { workerManagerRunning := 1, _workersList := fun _ => .null,
    _pthreadList := fun i =>
      if i < WORKERMANAGER_PRIORITY_NUM then
        some { workerList := i, sleepTime := 100000, mutex := i }
      else none }

/-! ## One bucket under concurrent threads

The list of one bucket lies in a heap of nodes and is worked on by any number of threads:
callers inside `workerManager_addWorker` for that bucket, callers inside the visit that
`workerManager_removeWorker` pays to that bucket, and the bucket's own thread inside
`_workManagerHandler`. A step is one statement of the source, made by one thread; the
schedule picks the thread. `pthread_mutex_lock` succeeds only while the mutex is free,
otherwise the thread stays where it is. -/

/-- The record `Node_t` as it lies in memory. -/
structure Node_t where
  item : Ptr
  next : Ptr
  deriving DecidableEq, Repr

/-- The memory of list nodes: the node at each allocated address. -/
abbrev Heap := Ptr → Option Node_t

/-- A `Node_t **`: the address of the bucket's head `_workersList[prio]`, or the address of
the `next` field of the node at `node`. -/
inductive Slot where
  | head
  | next (node : Ptr)
  deriving DecidableEq, Repr

/-- How the process fares. -/
inductive Health where
  /-- The process runs. -/
  | ok
  /-- The process died on the null pointer that a failed `malloc` returned. -/
  | crashed
  /-- A thread accessed a node that is not allocated. -/
  | corrupted
  deriving DecidableEq, Repr

/-- What the threads share: the heap, the head of the bucket's list, the allocator (which
hands out the address `brk` next, and no address twice), the holder of the bucket's mutex,
and the flag `workerManagerRunning`. -/
structure Shared where
  heap : Heap
  head : Ptr
  brk : Ptr
  owner : Option Nat
  workerManagerRunning : Nat
  health : Health

/-- The state after an access to a node that is not allocated. -/
def Shared.corrupt (sh : Shared) : Shared := { sh with health := .corrupted }

/-- The value `*slot` in a heap with the list head `head`, `none` when the slot lies in a node
that is not allocated. -/
def readSlot (h : Heap) (head : Ptr) : Slot → Option Ptr
  | .head => some head
  | .next a => (h a).map fun n => n.next

/-- The value `*slot`, `none` when the slot lies in a node that is not allocated. -/
def Shared.read (sh : Shared) (slot : Slot) : Option Ptr := readSlot sh.heap sh.head slot

/-- The store `*slot = v`, `none` when the slot lies in a node that is not allocated. -/
def Shared.write (sh : Shared) (v : Ptr) : Slot → Option Shared
  | .head => some { sh with head := v }
  | .next a =>
    match sh.heap a with
    | none => none
    | some n => some { sh with heap := Function.update sh.heap a (some { n with next := v }) }

/-- Where a caller stands in `workerManager_addWorker` (priority in range). -/
inductive AddPc where
  /-- Before `pthread_mutex_lock`. -/
  | lock
  /-- Before the test `(*workerList) != NULL` of the walk. -/
  | test (workerList : Slot)
  /-- Before `*workerList = malloc(sizeof(Node_t))`. -/
  | alloc (workerList : Slot)
  /-- Before `(*workerList)->item = worker`. -/
  | setItem (workerList : Slot)
  /-- Before `(*workerList)->next = NULL`. -/
  | setNext (workerList : Slot)
  /-- Before `pthread_mutex_unlock`. -/
  | unlock
  /-- After the return. -/
  | done
  deriving DecidableEq, Repr

/-- Where a caller stands in the visit of `workerManager_removeWorker` to the bucket. -/
inductive RemovePc where
  /-- Before `pthread_mutex_lock`. -/
  | lock
  /-- Before the test `*workerList != NULL`. -/
  | test (workerList : Slot) (prev : Ptr)
  /-- Before the test `(*workerList)->item == worker`. -/
  | cmp (workerList : Slot) (prev : Ptr)
  /-- Before `toDelete = *workerList` and the store into `prev->next` or into the head. -/
  | unlink (workerList : Slot) (prev : Ptr)
  /-- Before `free(toDelete)`. -/
  | free (toDelete : Ptr)
  /-- Before `pthread_mutex_unlock`; `found` is whether a node was unlinked. -/
  | unlock (found : Bool)
  /-- After the visit. -/
  | done (found : Bool)
  deriving DecidableEq, Repr

/-- Where the bucket's thread stands in `_workManagerHandler`. -/
inductive PassPc where
  /-- Before a test of `workerManagerRunning`: the `if` for init, the `while` for run. -/
  | check (phase : Phase)
  /-- Before the `pthread_mutex_lock` of a pass. -/
  | lock (phase : Phase)
  /-- Before the test `(*workerList) != NULL` of a pass. -/
  | walk (phase : Phase) (workerList : Slot)
  /-- Before the `pthread_mutex_unlock` of a pass. -/
  | unlock (phase : Phase)
  /-- Before `usleep`. -/
  | sleep
  /-- After `return NULL`. -/
  | done
  deriving DecidableEq, Repr

/-- A thread: what it runs and where it stands. -/
inductive Prog where
  | adder (worker : Ptr) (pc : AddPc)
  | remover (worker : Ptr) (pc : RemovePc)
  | bucketThread (pc : PassPc)
  deriving DecidableEq, Repr

/-- One statement of `workerManager_addWorker` by thread `tid`. `malloc` is `none` when the
allocation fails and otherwise the contents the fresh block happens to have. When the
allocation fails, null is stored where null was and the next statement dereferences it. -/
def AddPc.step (tid : Nat) (worker : Ptr) (malloc : Option Node_t) (sh : Shared) :
    AddPc → Shared × AddPc
  | .lock =>
    match sh.owner with
    | none => ({ sh with owner := some tid }, .test .head)
    | some _ => (sh, .lock)
  | .test workerList =>
    match sh.read workerList with
    | none => (sh.corrupt, .test workerList)
    | some v => if v ≠ NULL then (sh, .test (.next v)) else (sh, .alloc workerList)
  | .alloc workerList =>
    match malloc with
    | none => ({ sh with health := .crashed }, .alloc workerList)
    | some block =>
      match Shared.write
          { sh with heap := Function.update sh.heap sh.brk (some block), brk := sh.brk + 1 }
          sh.brk workerList with
      | none => (sh.corrupt, .alloc workerList)
      | some sh1 => (sh1, .setItem workerList)
  | .setItem workerList =>
    match sh.read workerList with
    | none => (sh.corrupt, .setItem workerList)
    | some v =>
      match sh.heap v with
      | none => (sh.corrupt, .setItem workerList)
      | some n =>
        ({ sh with heap := Function.update sh.heap v (some { n with item := worker }) },
          .setNext workerList)
  | .setNext workerList =>
    match sh.read workerList with
    | none => (sh.corrupt, .setNext workerList)
    | some v =>
      match sh.heap v with
      | none => (sh.corrupt, .setNext workerList)
      | some n =>
        ({ sh with heap := Function.update sh.heap v (some { n with next := NULL }) }, .unlock)
  | .unlock => ({ sh with owner := none }, .done)
  | .done => (sh, .done)

/-- One statement of the visit of `workerManager_removeWorker` by thread `tid`. -/
def RemovePc.step (tid : Nat) (worker : Ptr) (sh : Shared) : RemovePc → Shared × RemovePc
  | .lock =>
    match sh.owner with
    | none => ({ sh with owner := some tid }, .test .head NULL)
    | some _ => (sh, .lock)
  | .test workerList prev =>
    match sh.read workerList with
    | none => (sh.corrupt, .test workerList prev)
    | some v => if v ≠ NULL then (sh, .cmp workerList prev) else (sh, .unlock false)
  | .cmp workerList prev =>
    match sh.read workerList with
    | none => (sh.corrupt, .cmp workerList prev)
    | some v =>
      match sh.heap v with
      | none => (sh.corrupt, .cmp workerList prev)
      | some n =>
        if n.item = worker then (sh, .unlink workerList prev)
        else (sh, .test (.next v) v)
  | .unlink workerList prev =>
    match sh.read workerList with
    | none => (sh.corrupt, .unlink workerList prev)
    | some toDelete =>
      match sh.heap toDelete with
      | none => (sh.corrupt, .unlink workerList prev)
      | some n =>
        match sh.write n.next (if prev ≠ NULL then .next prev else .head) with
        | none => (sh.corrupt, .unlink workerList prev)
        | some sh1 => (sh1, .free toDelete)
  | .free toDelete =>
    match sh.heap toDelete with
    | none => (sh.corrupt, .free toDelete)
    | some _ => ({ sh with heap := Function.update sh.heap toDelete none }, .unlock true)
  | .unlock found => ({ sh with owner := none }, .done found)
  | .done found => (sh, .done found)

/-- One statement of `_workManagerHandler` by thread `tid`. A step of a walk reads
`*workerList` and, on a node, its `item`, for the handler call. -/
def PassPc.step (tid : Nat) (sh : Shared) : PassPc → Shared × PassPc
  | .check .init => if sh.workerManagerRunning ≠ 0 then (sh, .lock .init) else (sh, .check .run)
  | .check .run => if sh.workerManagerRunning ≠ 0 then (sh, .lock .run) else (sh, .lock .end_)
  | .check .end_ => (sh, .lock .end_)
  | .lock phase =>
    match sh.owner with
    | none => ({ sh with owner := some tid }, .walk phase .head)
    | some _ => (sh, .lock phase)
  | .walk phase workerList =>
    match sh.read workerList with
    | none => (sh.corrupt, .walk phase workerList)
    | some v =>
      if v ≠ NULL then
        match sh.heap v with
        | none => (sh.corrupt, .walk phase workerList)
        | some _ => (sh, .walk phase (.next v))
      else (sh, .unlock phase)
  | .unlock .init => ({ sh with owner := none }, .check .run)
  | .unlock .run => ({ sh with owner := none }, .sleep)
  | .unlock .end_ => ({ sh with owner := none }, .done)
  | .sleep => (sh, .check .run)
  | .done => (sh, .done)

/-- One statement of a thread. -/
def Prog.step (tid : Nat) (malloc : Option Node_t) (sh : Shared) : Prog → Shared × Prog
  | .adder worker pc => ((pc.step tid worker malloc sh).1, .adder worker (pc.step tid worker malloc sh).2)
  | .remover worker pc => ((pc.step tid worker sh).1, .remover worker (pc.step tid worker sh).2)
  | .bucketThread pc => ((pc.step tid sh).1, .bucketThread (pc.step tid sh).2)

/-- The shared state and the threads. -/
structure Conc where
  sh : Shared
  threads : List Prog

/-- What the schedule picks next. -/
inductive Pick where
  /-- Thread `tid` makes its next statement; `malloc` is what an allocation gives it. -/
  | thread (tid : Nat) (malloc : Option Node_t)
  /-- The store `workerManagerRunning = 0` of `workerManager_end`. -/
  | stop
  deriving DecidableEq, Repr

/-- One step of the system. Nothing moves once the process has died. -/
def Conc.step (c : Conc) : Pick → Conc
  | .stop =>
    if c.sh.health = .ok then { c with sh := { c.sh with workerManagerRunning := 0 } } else c
  | .thread tid malloc =>
    if c.sh.health = .ok then
      match c.threads[tid]? with
      | none => c
      | some prog =>
        { sh := (prog.step tid malloc c.sh).1,
          threads := c.threads.set tid (prog.step tid malloc c.sh).2 }
    else c

/-- The state after a schedule. -/
def Conc.run (c : Conc) : List Pick → Conc
  | [] => c
  | pick :: rest => (c.step pick).run rest

/-- The nodes `addrs` lead from the pointer `start` to the pointer `stop`: each is allocated,
not null, and its `next` is the following one, `stop` after the last. -/
def Seg (h : Heap) : Ptr → List Ptr → Ptr → Prop
  | start, [], stop => start = stop
  | start, a :: rest, stop => start = a ∧ a ≠ NULL ∧ ∃ n, h a = some n ∧ Seg h n.next rest stop

/-- The list that starts at `head` is made of the nodes `addrs` and ends with null: its
links are neither dangling nor cyclic. -/
def Chain (h : Heap) (head : Ptr) (addrs : List Ptr) : Prop := Seg h head addrs NULL

/-- The slot is the head or lies in a node of `addrs`. -/
def Slot.valid (addrs : List Ptr) : Slot → Prop
  | .head => True
  | .next a => a ∈ addrs

/-- The slot and `prev` go together as in `workerManager_removeWorker`: the head with a null
`prev`, or the `next` field of the node `prev` of the list. -/
def Slot.follows (addrs : List Ptr) (slot : Slot) (prev : Ptr) : Prop :=
  (slot = .head ∧ prev = NULL) ∨ (slot = .next prev ∧ prev ∈ addrs)

/-- The list while a new node is linked but not yet filled in: the nodes of `addrs` but the
last lead from the head to the last, which is allocated and which the slot holds. -/
def Pending (h : Heap) (head : Ptr) (addrs : List Ptr) (slot : Slot) : Prop :=
  ∃ pre a, addrs = pre ++ [a] ∧ Seg h head pre a ∧ a ∉ pre ∧ a ≠ NULL ∧ h a ≠ none
    ∧ slot.valid pre ∧ readSlot h head slot = some a

/-- The slot comes right after the nodes `pre`, which lead from the head to it without
repetition, and holds `v`: it is the head and `pre` is empty, or it is the `next` field of
the last node of `pre`. -/
def SlotAt (h : Heap) (head : Ptr) (slot : Slot) (pre : List Ptr) (v : Ptr) : Prop :=
  (slot = .head ∧ pre = [] ∧ head = v)
    ∨ ∃ pre0 p n, slot = .next p ∧ pre = pre0 ++ [p] ∧ p ≠ NULL ∧ h p = some n ∧ n.next = v
        ∧ Seg h head pre0 p ∧ p ∉ pre0

/-- What holds of the heap while a thread stands at a statement between its lock and its
unlock, `addrs` being the nodes of the list in order. -/
def Prog.sound (h : Heap) (head : Ptr) (addrs : List Ptr) : Prog → Prop
  | .adder _ (.test slot) => Chain h head addrs ∧ slot.valid addrs
  | .adder _ (.alloc slot) =>
    Chain h head addrs ∧ slot.valid addrs ∧ readSlot h head slot = some NULL
  | .adder _ (.setItem slot) => Pending h head addrs slot
  | .adder _ (.setNext slot) => Pending h head addrs slot
  | .adder _ .unlock => Chain h head addrs
  | .remover _ (.test slot prev) => Chain h head addrs ∧ slot.follows addrs prev
  | .remover _ (.cmp slot prev) =>
    Chain h head addrs ∧ slot.follows addrs prev
      ∧ ∃ v, readSlot h head slot = some v ∧ v ≠ NULL
  | .remover _ (.unlink slot prev) =>
    Chain h head addrs ∧ slot.follows addrs prev
      ∧ ∃ v, readSlot h head slot = some v ∧ v ≠ NULL
  | .remover _ (.free toDelete) => Chain h head addrs ∧ toDelete ∉ addrs ∧ h toDelete ≠ none
  | .remover _ (.unlock _) => Chain h head addrs
  | .bucketThread (.walk _ slot) => Chain h head addrs ∧ slot.valid addrs
  | .bucketThread (.unlock _) => Chain h head addrs
  | _ => True

/-- Whether a thread is between its `pthread_mutex_lock` and its `pthread_mutex_unlock`. -/
def Prog.inCS : Prog → Bool
  | .adder _ (.test _) => true
  | .adder _ (.alloc _) => true
  | .adder _ (.setItem _) => true
  | .adder _ (.setNext _) => true
  | .adder _ .unlock => true
  | .remover _ (.test _ _) => true
  | .remover _ (.cmp _ _) => true
  | .remover _ (.unlink _ _) => true
  | .remover _ (.free _) => true
  | .remover _ (.unlock _) => true
  | .bucketThread (.walk _ _) => true
  | .bucketThread (.unlock _) => true
  | _ => false

/-- Counts a caller of add-worker whose node is linked into the list. -/
def Prog.added : Prog → Nat
  | .adder _ (.setItem _) => 1
  | .adder _ (.setNext _) => 1
  | .adder _ .unlock => 1
  | .adder _ .done => 1
  | _ => 0

/-- Counts a caller of remove-worker that has unlinked a node of the list. -/
def Prog.removed : Prog → Nat
  | .remover _ (.free _) => 1
  | .remover _ (.unlock true) => 1
  | .remover _ (.done true) => 1
  | _ => 0

/-- The number of adds that have linked their node. -/
def Conc.adds (c : Conc) : Nat := (c.threads.map Prog.added).sum

/-- The number of removals that have unlinked a node. -/
def Conc.removals (c : Conc) : Nat := (c.threads.map Prog.removed).sum

/-- Whether a thread has not yet taken the mutex for the first time. -/
def Prog.atStart : Prog → Bool
  | .adder _ .lock => true
  | .remover _ .lock => true
  | .bucketThread (.check .init) => true
  | _ => false

/-- A start of the system: a list of `n` nodes with sound links, the mutex free, no thread
yet past its first `pthread_mutex_lock`, and an allocator that has handed out every
allocated address. -/
def Conc.initial (c : Conc) (n : Nat) : Prop :=
  c.sh.health = .ok
    ∧ c.sh.owner = none
    ∧ c.sh.brk ≠ NULL
    ∧ (∀ a, c.sh.heap a ≠ none → a < c.sh.brk)
    ∧ (∃ addrs, Chain c.sh.heap c.sh.head addrs ∧ addrs.length = n)
    ∧ ∀ prog ∈ c.threads, prog.atStart = true

/-- What a step of thread `t` from inside its critical section leaves: no access has gone
astray, the allocator is still ahead, and for the nodes `addrs1` either the thread still
holds the mutex and finds the heap as its next statement needs it, or it has released the
mutex and the list is sound; the length has moved with the add or the removal the step
completed. -/
def Inside (t : Nat) (addrs : List Ptr) (prog : Prog) (sh1 : Shared) (prog1 : Prog) : Prop :=
  sh1.health ≠ .corrupted ∧ sh1.brk ≠ NULL ∧ (∀ a, sh1.heap a ≠ none → a < sh1.brk)
    ∧ ∃ addrs1,
        ((sh1.owner = some t ∧ prog1.inCS = true ∧ prog1.sound sh1.heap sh1.head addrs1)
          ∨ (sh1.owner = none ∧ prog1.inCS = false ∧ Chain sh1.heap sh1.head addrs1))
        ∧ addrs1.length + prog1.removed + prog.added
            = addrs.length + prog.removed + prog1.added

/-- The invariant of the system started with a list of `n` nodes: no access has gone
astray, the allocator is ahead of every allocated address, and there are nodes `addrs` such
that the list is sound whenever the mutex is free, the holder of the mutex is a thread
between its lock and its unlock, every such thread holds the mutex and finds the heap as
its statement needs it, and the length is `n` plus the adds less the removals. -/
def Conc.Inv (c : Conc) (n : Nat) : Prop :=
  c.sh.health ≠ .corrupted
    ∧ c.sh.brk ≠ NULL
    ∧ (∀ a, c.sh.heap a ≠ none → a < c.sh.brk)
    ∧ ∃ addrs,
        (c.sh.owner = none → Chain c.sh.heap c.sh.head addrs)
        ∧ (∀ t, c.sh.owner = some t → ∃ prog, c.threads[t]? = some prog ∧ prog.inCS = true)
        ∧ (∀ t prog, c.threads[t]? = some prog →
            (prog.inCS = true → c.sh.owner = some t) ∧ prog.sound c.sh.heap c.sh.head addrs)
        ∧ addrs.length + c.removals = n + c.adds

/-- Whether a thread is a caller of `workerManager_addWorker`. -/
def Prog.isAdder : Prog → Bool
  | .adder _ _ => true
  | _ => false

/-- A start with a list of one node (address 1, worker 5) and four threads: the bucket's
thread, two callers of add-worker (workers 7 and 8) and a caller of remove-worker
(worker 5). -/
def fourThreads : Conc :=
  { sh :=
      { heap := fun a => if a = 1 then some { item := 5, next := NULL } else none,
        head := 1, brk := 2, owner := none, workerManagerRunning := 1, health := .ok },
    threads := [.bucketThread (.check .init), .adder 7 .lock, .adder 8 .lock, .remover 5 .lock] }

/-- A schedule for `fourThreads`: the two adders, the remover and the bucket's thread take
turns for thirty rounds, each blocked while another holds the mutex; every allocation
succeeds and gives a block whose `next` field happens to point into the list; then
`workerManager_end` clears the flag and the bucket's thread makes its last statements. -/
def takingTurns : List Pick :=
  ((List.replicate 30 [1, 2, 3, 0]).flatten.map
      fun t => Pick.thread t (some { item := 77, next := 1 }))
    ++ [Pick.stop] ++ List.replicate 8 (Pick.thread 0 none)

/-- The list is sound and as long as it must be: some nodes lead from the head to null, each
allocated and none twice, and their number is `n` plus the adds less the removals. -/
def Conc.listSound (c : Conc) (n : Nat) : Prop :=
  ∃ addrs, Chain c.sh.heap c.sh.head addrs ∧ addrs.length + c.removals = n + c.adds

/-! ## The mutexes an operation holds -/

/-- The mutexes an operation holds after an event when it held `held` before it: one entry
for each acquisition not yet released, the latest first. -/
def heldAfterEvent (held : List Nat) : Event → List Nat
  | .lock i => i :: held
  | .unlock i => held.erase i
  | _ => held

/-- The mutexes an operation holds after the events `es` when it held `held` before them. -/
def heldAfter : List Nat → List Event → List Nat
  | held, [] => held
  | held, e :: es => heldAfter (heldAfterEvent held e) es

/-- The operation on the manager that a step of a caller runs; a step of the thread runs
none. -/
def callerOp : Step → Manager → Run Manager
  | .thread, m => Run.ok [] m
  | .addWorker alloc worker prio, m => workerManager_addWorker alloc worker prio m
  | .removeWorker worker, m => workerManager_removeWorker worker m
  | .setSleepTime prio sleepTime, m => workerManager_setPriorityListSleepTime prio sleepTime m
  | .stop, m => Run.ok [] { m with workerManagerRunning := 0 }

/-! ### Facts about the dynamic list -/

theorem NodePtr.items_ofItems (xs : List Ptr) : (NodePtr.ofItems xs).items = xs := by
  induction xs with
  | nil => rfl
  | cons x xs ih => simp [NodePtr.ofItems, NodePtr.items, ih]

theorem NodePtr.ofItems_items (l : NodePtr) : NodePtr.ofItems l.items = l := by
  induction l with
  | null => rfl
  | node item next ih => simp [NodePtr.ofItems, NodePtr.items, ih]

theorem addNode_walk_items (newNode l : NodePtr) :
    (linkedListDynamic_addNode.walk newNode l).items = l.items ++ newNode.items := by
  induction l with
  | null => simp [linkedListDynamic_addNode.walk, NodePtr.items]
  | node item next ih => simp [linkedListDynamic_addNode.walk, NodePtr.items, ih]

theorem addNode_items (head : NodePtr) (item : Ptr) :
    (linkedListDynamic_addNode true head item).items = head.items ++ [item] := by
  cases head with
  | null => simp [linkedListDynamic_addNode, linkedListDynamic_createNode, NodePtr.items]
  | node hitem hnext =>
    simp [linkedListDynamic_addNode, linkedListDynamic_createNode, NodePtr.items,
      addNode_walk_items]

theorem appendAll_items_aux (xs : List Ptr) (head : NodePtr) :
    (xs.foldl (fun head item => linkedListDynamic_addNode true head item) head).items
      = head.items ++ xs := by
  induction xs generalizing head with
  | nil => simp
  | cons x xs ih => simp [List.foldl, ih, addNode_items]

theorem appendAll_items (xs : List Ptr) : (appendAll xs).items = xs := by
  simp [appendAll, appendAll_items_aux, NodePtr.items]

theorem appendAll_eq_ofItems (xs : List Ptr) : appendAll xs = NodePtr.ofItems xs := by
  rw [← NodePtr.ofItems_items (appendAll xs), appendAll_items]

theorem getNode_loop_ofItems_hit (index : Int) (xs : List Ptr) (i : Nat) (count : Int)
    (h : count + i = index) (hi : i < xs.length) :
    linkedListDynamic_getNode.loop index count (NodePtr.ofItems xs)
      = NodePtr.ofItems (xs.drop i) := by
  induction xs generalizing i count with
  | nil => simp at hi
  | cons x xs ih =>
    cases i with
    | zero =>
      have : count = index := by simpa using h
      simp [NodePtr.ofItems, linkedListDynamic_getNode.loop, this]
    | succ j =>
      have hne : count ≠ index := by omega
      simp only [NodePtr.ofItems, linkedListDynamic_getNode.loop, hne, if_false, List.drop_succ_cons]
      exact ih j (count + 1) (by push_cast at h; omega) (by simpa using hi)

theorem getNode_loop_ofItems_miss (index : Int) (xs : List Ptr) (count : Int)
    (h : index < count ∨ count + xs.length ≤ index) :
    linkedListDynamic_getNode.loop index count (NodePtr.ofItems xs) = .null := by
  induction xs generalizing count with
  | nil => simp [NodePtr.ofItems, linkedListDynamic_getNode.loop]
  | cons x xs ih =>
    have hne : count ≠ index := by
      rcases h with h | h
      · omega
      · simp at h; omega
    simp only [NodePtr.ofItems, linkedListDynamic_getNode.loop, hne, if_false]
    apply ih
    rcases h with h | h
    · left; omega
    · right; simp at h; omega

/-- C1: after appending the items `xs` one by one to an empty list with
`linkedListDynamic_addNode` (every allocation succeeding), `linkedListDynamic_getNode` at
index `i < n` returns the node that holds the `i`-th appended item (followed by the nodes of
the later items), and returns `NULL` at index `n` and at index `-1`. -/
theorem C1_append_then_get (xs : List Ptr) :
    (∀ i : Fin xs.length,
        linkedListDynamic_getNode (appendAll xs) (i.val : Int)
          = .node (xs.get i) (NodePtr.ofItems (xs.drop (i.val + 1))))
      ∧ linkedListDynamic_getNode (appendAll xs) (xs.length : Int) = .null
      ∧ linkedListDynamic_getNode (appendAll xs) (-1) = .null := by
  refine ⟨?_, ?_, ?_⟩
  · intro i
    rw [appendAll_eq_ofItems, linkedListDynamic_getNode,
      getNode_loop_ofItems_hit (i.val : Int) xs i.val 0 (by simp) i.isLt]
    rw [List.drop_eq_getElem_cons i.isLt]
    rfl
  · rw [appendAll_eq_ofItems, linkedListDynamic_getNode]
    exact getNode_loop_ofItems_miss _ xs 0 (Or.inr (by simp))
  · rw [appendAll_eq_ofItems, linkedListDynamic_getNode]
    exact getNode_loop_ofItems_miss _ xs 0 (Or.inl (by decide))

/-! ### Facts about `workerManager_addWorker` -/

theorem addWorker_walk_items (w : Ptr) (l : NodePtr) :
    (workerManager_addWorker.walk w l).items = l.items ++ [w] := by
  induction l with
  | null => simp [workerManager_addWorker.walk, NodePtr.items]
  | node item next ih => simp [workerManager_addWorker.walk, NodePtr.items, ih]

/-- C2: with a valid priority `p`, what `workerManager_addWorker(w, p)` does depends on the
allocation of the node, whose result the code does not test. When `malloc` returns null the
call takes the mutex of bucket `p`, stores the null pointer at the end of the list and stops
at the dereference `(*workerList)->item`: it does not return, `w` is not appended and the
mutex stays held; its sibling `linkedListDynamic_addNode` tests the allocation and returns
with the list unchanged. When the node is allocated the call returns, bucket `p` is its
previous contents followed by `w` (so `w` is its last element) and every other bucket is
unchanged. -/
theorem C2_addWorker_appends_unless_malloc_fails (m : Manager) (w : Ptr) (p : Nat)
    (hp : p < WORKERMANAGER_PRIORITY_NUM) :
    (workerManager_addWorker false w p m).result = none
      ∧ (workerManager_addWorker false w p m).events = [.lock p, .listWrite p]
      ∧ heldAfter [] (workerManager_addWorker false w p m).events = [p]
      ∧ (∀ head item, linkedListDynamic_addNode false head item = head)
      ∧ ∃ m1, (workerManager_addWorker true w p m).result = some m1
          ∧ m1.bucket p = m.bucket p ++ [w]
          ∧ (m1.bucket p).getLast? = some w
          ∧ ∀ q, q ≠ p → m1._workersList q = m._workersList q := by
  have hp1 : ¬ p ≥ WORKERMANAGER_PRIORITY_NUM := Nat.not_le.mpr hp
  have h : (workerManager_addWorker true w p m).result
      = some { m with
          _workersList :=
            Function.update m._workersList p
              (workerManager_addWorker.walk w (m._workersList p)) } := by
    simp only [workerManager_addWorker, hp1, if_false, if_true, Run.ok]
  refine ⟨?_, ?_, ?_, ?_, _, h, ?_, ?_, ?_⟩
  · simp [workerManager_addWorker, hp1, Run.fault]
  · simp [workerManager_addWorker, hp1, Run.fault]
  · simp [workerManager_addWorker, hp1, Run.fault, heldAfter, heldAfterEvent]
  · intro head item
    simp [linkedListDynamic_addNode, linkedListDynamic_createNode]
  · simp [Manager.bucket, addWorker_walk_items]
  · simp [Manager.bucket, addWorker_walk_items]
  · intro q hq
    simp [Function.update, hq]

/-- C2, at a concrete input: adding worker 7 at priority 3 to the manager at program start,
with the allocation failing and with the node allocated. -/
theorem C2_addWorker_appends_unless_malloc_fails_witness :
    3 < WORKERMANAGER_PRIORITY_NUM
      ∧ (workerManager_addWorker false 7 3 emptyManager).result = none
      ∧ (workerManager_addWorker false 7 3 emptyManager).events = [.lock 3, .listWrite 3]
      ∧ heldAfter [] (workerManager_addWorker false 7 3 emptyManager).events = [3]
      ∧ (∀ head item, linkedListDynamic_addNode false head item = head)
      ∧ ∃ m1, (workerManager_addWorker true 7 3 emptyManager).result = some m1
          ∧ m1.bucket 3 = emptyManager.bucket 3 ++ [7]
          ∧ (m1.bucket 3).getLast? = some 7
          ∧ ∀ q, q ≠ 3 → m1._workersList q = emptyManager._workersList q :=
  ⟨by decide, C2_addWorker_appends_unless_malloc_fails emptyManager 7 3 (by decide)⟩

/-- C3: with a priority `p` at or above the bucket count, `workerManager_addWorker(w, p)`
returns with the manager state (every bucket's list included) unchanged; it takes no mutex
and only prints a diagnostic, whatever the allocator would have answered. -/
theorem C3_addWorker_out_of_range_noop (alloc : Bool) (m : Manager) (w : Ptr) (p : Nat)
    (hp : WORKERMANAGER_PRIORITY_NUM ≤ p) :
    (workerManager_addWorker alloc w p m).result = some m
      ∧ (workerManager_addWorker alloc w p m).events = [Event.printf]
      ∧ ∀ m1, (workerManager_addWorker alloc w p m).result = some m1 →
          ∀ b, m1._workersList b = m._workersList b := by
  have h : (workerManager_addWorker alloc w p m) = Run.ok [Event.printf] m := by
    simp only [workerManager_addWorker, ge_iff_le, hp, if_true]
  rw [h]
  refine ⟨rfl, rfl, ?_⟩
  intro m1 hm1 b
  simp only [Run.ok, Option.some.injEq] at hm1
  rw [← hm1]

/-- C3, at concrete inputs: priorities 10 and 255 on the manager at program start. -/
theorem C3_addWorker_out_of_range_noop_witness :
    WORKERMANAGER_PRIORITY_NUM ≤ 255
      ∧ (workerManager_addWorker true 7 255 emptyManager).result = some emptyManager
      ∧ (workerManager_addWorker true 7 255 emptyManager).events = [Event.printf]
      ∧ ∀ m1, (workerManager_addWorker true 7 255 emptyManager).result = some m1 →
          ∀ b, m1._workersList b = emptyManager._workersList b :=
  ⟨by decide, C3_addWorker_out_of_range_noop true emptyManager 7 255 (by decide)⟩

theorem onceRegistered_reached :
    (workerManager_addWorker true 7 3 emptyManager).result = some onceRegistered := by
  simp [workerManager_addWorker, WORKERMANAGER_PRIORITY_NUM, Run.ok, onceRegistered,
    emptyManager, workerManager_addWorker.walk]

theorem twiceRegistered_reached :
    (Run.andThen (workerManager_addWorker true 7 0 emptyManager)
      (workerManager_addWorker true 7 0)).result = some twiceRegistered := by
  simp [workerManager_addWorker, WORKERMANAGER_PRIORITY_NUM, Run.ok, Run.andThen,
    twiceRegistered, emptyManager, workerManager_addWorker.walk]

/-! ### Facts about `workerManager_removeWorker` -/

theorem removeWorker_scan_eq_none (w : Ptr) (l : NodePtr) :
    workerManager_removeWorker.scan w l = none ↔ w ∉ l.items := by
  induction l with
  | null => simp [workerManager_removeWorker.scan, NodePtr.items]
  | node item next ih =>
    by_cases h : item = w
    · simp [workerManager_removeWorker.scan, NodePtr.items, h]
    · have h1 : ¬ w = item := fun e => h e.symm
      cases hs : workerManager_removeWorker.scan w next with
      | none => simp [workerManager_removeWorker.scan, NodePtr.items, h, h1, hs, ih.mp hs]
      | some l1 =>
        have : w ∈ next.items := by
          by_contra hc
          rw [ih.mpr hc] at hs
          exact Option.noConfusion hs
        simp [workerManager_removeWorker.scan, NodePtr.items, h, hs, this]

theorem removeWorker_scan_eq_some (w : Ptr) (l l1 : NodePtr)
    (h : workerManager_removeWorker.scan w l = some l1) :
    ∃ pre post, l.items = pre ++ w :: post ∧ w ∉ pre ∧ l1.items = pre ++ post := by
  induction l generalizing l1 with
  | null => simp [workerManager_removeWorker.scan] at h
  | node item next ih =>
    by_cases hi : item = w
    · simp only [workerManager_removeWorker.scan, hi, if_true, Option.some.injEq] at h
      exact ⟨[], next.items, by simp [NodePtr.items, hi], by simp, by simp [h]⟩
    · cases hs : workerManager_removeWorker.scan w next with
      | none => simp [workerManager_removeWorker.scan, hi, hs] at h
      | some l2 =>
        simp only [workerManager_removeWorker.scan, hi, if_false, hs, Option.some.injEq] at h
        obtain ⟨pre, post, h1, h2, h3⟩ := ih l2 hs
        refine ⟨item :: pre, post, by simp [NodePtr.items, h1], ?_, ?_⟩
        · simp only [List.mem_cons, not_or]
          exact ⟨fun e => hi e.symm, h2⟩
        · rw [← h]
          simp [NodePtr.items, h3]

theorem removeWorker_buckets_found (w : Ptr) (m : Manager) (l : NodePtr) (b n s : Nat)
    (hs : s ≤ b) (hb : b < s + n)
    (hlow : ∀ q, s ≤ q → q < b → workerManager_removeWorker.scan w (m._workersList q) = none)
    (hscan : workerManager_removeWorker.scan w (m._workersList b) = some l) :
    workerManager_removeWorker.buckets w (List.range' s n) m
      = { events := (((List.range' s (b - s)).map fun q => [Event.lock q, Event.unlock q]).flatten)
            ++ [.lock b, .listWrite b, .listFree b, .unlock b],
          result := some { m with _workersList := Function.update m._workersList b l } } := by
  induction n generalizing s with
  | zero => omega
  | succ n ih =>
    rw [List.range'_succ]
    by_cases hsb : s = b
    · subst hsb
      simp [workerManager_removeWorker.buckets, hscan, Run.ok]
    · have hlt : s < b := by omega
      have h1 := ih (s + 1) (by omega) (by omega) (fun q hq1 hq2 => hlow q (by omega) hq2)
      have h2 : b - s = (b - (s + 1)) + 1 := by omega
      simp [workerManager_removeWorker.buckets, hlow s (le_refl s) hlt, Run.andThen, Run.ok, h1,
        h2, List.range'_succ]

theorem exists_lowest_bucket (m : Manager) (w : Ptr) (h : ∃ b, m.registeredIn w b) :
    ∃ b, m.registeredIn w b ∧ ∀ q, q < b → w ∉ m.bucket q := by
  classical
  refine ⟨Nat.find h, Nat.find_spec h, ?_⟩
  intro q hq hmem
  have hlt : q < WORKERMANAGER_PRIORITY_NUM := lt_trans hq (Nat.find_spec h).1
  exact Nat.find_min h hq ⟨hlt, hmem⟩

theorem removeWorker_at_lowest (m : Manager) (w : Ptr) (b : Nat) (hb : m.registeredIn w b)
    (hmin : ∀ q, q < b → w ∉ m.bucket q) :
    ∃ m1 pre post, (workerManager_removeWorker w m).result = some m1
      ∧ m.bucket b = pre ++ w :: post ∧ w ∉ pre ∧ m1.bucket b = pre ++ post
      ∧ ∀ q, q ≠ b → m1._workersList q = m._workersList q := by
  obtain ⟨hb1, hb2⟩ := hb
  cases hs : workerManager_removeWorker.scan w (m._workersList b) with
  | none => exact absurd hb2 ((removeWorker_scan_eq_none w _).mp hs)
  | some l =>
    obtain ⟨pre, post, h1, h2, h3⟩ := removeWorker_scan_eq_some w _ l hs
    have hrun := removeWorker_buckets_found w m l b WORKERMANAGER_PRIORITY_NUM 0 (Nat.zero_le b)
      (by simpa using hb1)
      (fun q _ hq => (removeWorker_scan_eq_none w _).mpr (hmin q hq)) hs
    rw [← List.range_eq_range'] at hrun
    refine ⟨{ m with _workersList := Function.update m._workersList b l }, pre, post,
      ?_, h1, h2, ?_, ?_⟩
    · rw [workerManager_removeWorker, hrun]
    · simp [Manager.bucket, h3]
    · intro q hq
      simp [Function.update, hq]

theorem sum_map_range_congr (f g : Nat → Nat) (n : Nat) (h : ∀ q, q < n → g q = f q) :
    ((List.range n).map f).sum = ((List.range n).map g).sum := by
  induction n with
  | zero => simp
  | succ n ih =>
    simp only [List.range_succ, List.map_append, List.sum_append, List.map_cons, List.map_nil,
      List.sum_cons, List.sum_nil]
    rw [ih (fun q hq => h q (Nat.lt_succ_of_lt hq)), h n (Nat.lt_succ_self n)]

theorem sum_map_range_one_less (f g : Nat → Nat) (n b : Nat) (hb : b < n)
    (hfg : f b = g b + 1) (hq : ∀ q, q ≠ b → g q = f q) :
    ((List.range n).map f).sum = ((List.range n).map g).sum + 1 := by
  induction n with
  | zero => omega
  | succ n ih =>
    simp only [List.range_succ, List.map_append, List.sum_append, List.map_cons, List.map_nil,
      List.sum_cons, List.sum_nil]
    by_cases hbn : b = n
    · subst hbn
      rw [sum_map_range_congr f g b (fun q hlt => hq q (Nat.ne_of_lt hlt)), hfg]
      omega
    · have hlt : b < n := by omega
      rw [ih hlt, hq n (fun e => hbn e.symm)]
      omega

theorem sum_map_range_eq_zero (f : Nat → Nat) (n : Nat)
    (h : ((List.range n).map f).sum = 0) : ∀ q, q < n → f q = 0 := by
  induction n with
  | zero => intro q hq; omega
  | succ n ih =>
    simp only [List.range_succ, List.map_append, List.sum_append, List.map_cons, List.map_nil,
      List.sum_cons, List.sum_nil] at h
    intro q hq
    by_cases hqn : q = n
    · subst hqn; omega
    · exact ih (by omega) q (by omega)

theorem exists_registeredIn_of_occurrences (m : Manager) (w : Ptr) (h : m.occurrences w ≠ 0) :
    ∃ b, m.registeredIn w b := by
  by_contra hno
  apply h
  have h0 : ∀ q, q < WORKERMANAGER_PRIORITY_NUM → 0 = (m.bucket q).count w := by
    intro q hq
    exact (List.count_eq_zero.mpr (fun hmem => hno ⟨q, hq, hmem⟩)).symm
  rw [Manager.occurrences, sum_map_range_congr _ (fun _ => 0) _ h0]
  simp

/-- C4, as stated, fails: worker 7 is registered in exactly one bucket (bucket 0), there by
two nodes; `workerManager_removeWorker(7)` unlinks one node and a scan of the buckets
still finds worker 7 in bucket 0. -/
theorem C4_counterexample_two_nodes_in_one_bucket :
    (∃! b, twiceRegistered.registeredIn 7 b)
      ∧ ∃ m1, (workerManager_removeWorker 7 twiceRegistered).result = some m1
          ∧ m1.totalNodes + 1 = twiceRegistered.totalNodes
          ∧ ¬ m1.scanFindsNone 7 := by
  refine ⟨⟨0, ⟨by decide, by decide⟩, ?_⟩, ?_⟩
  · rintro b ⟨_, hb2⟩
    by_contra hne
    simp [Manager.bucket, twiceRegistered, emptyManager, Function.update, hne,
      NodePtr.items] at hb2
  · refine ⟨{ twiceRegistered with
        _workersList := Function.update twiceRegistered._workersList 0 (.node 7 .null) },
      rfl, by decide, ?_⟩
    intro hscan
    exact hscan 0 (by decide) (by decide)

/-- C4, amended: when worker `w` is held by exactly one node over all buckets,
`workerManager_removeWorker(w)` returns, the number of nodes over all buckets has decreased
by one, the node that went is one whose item is `w` (the bucket it was in keeps the items
before and after it, every other bucket is unchanged), and a scan of all buckets then finds
no node whose item is `w`. -/
theorem C4_removeWorker_single_registration (m : Manager) (w : Ptr)
    (h : m.occurrences w = 1) :
    ∃ m1, (workerManager_removeWorker w m).result = some m1
      ∧ m1.totalNodes + 1 = m.totalNodes
      ∧ (∃ b pre post, b < WORKERMANAGER_PRIORITY_NUM
          ∧ m.bucket b = pre ++ w :: post ∧ m1.bucket b = pre ++ post
          ∧ ∀ q, q ≠ b → m1._workersList q = m._workersList q)
      ∧ m1.scanFindsNone w := by
  obtain ⟨b, hb, hmin⟩ :=
    exists_lowest_bucket m w (exists_registeredIn_of_occurrences m w (by omega))
  obtain ⟨m1, pre, post, hres, h1, h2, h3, h4⟩ := removeWorker_at_lowest m w b hb hmin
  have hother : ∀ q, q ≠ b → m1.bucket q = m.bucket q := by
    intro q hq
    simp [Manager.bucket, h4 q hq]
  have htotal : m.totalNodes = m1.totalNodes + 1 := by
    apply sum_map_range_one_less _ _ _ b hb.1
    · simp [h1, h3]; omega
    · intro q hq
      simp [hother q hq]
  have hocc : m.occurrences w = m1.occurrences w + 1 := by
    apply sum_map_range_one_less _ _ _ b hb.1
    · simp [h1, h3]; omega
    · intro q hq
      simp [hother q hq]
  refine ⟨m1, hres, htotal.symm, ⟨b, pre, post, hb.1, h1, h3, h4⟩, ?_⟩
  intro q hq
  have hzero : m1.occurrences w = 0 := by omega
  exact List.count_eq_zero.mp (sum_map_range_eq_zero _ _ hzero q hq)

/-- C4, amended, at a concrete input: worker 7 registered once, in bucket 3. -/
theorem C4_removeWorker_single_registration_witness :
    onceRegistered.occurrences 7 = 1
      ∧ ∃ m1, (workerManager_removeWorker 7 onceRegistered).result = some m1
        ∧ m1.totalNodes + 1 = onceRegistered.totalNodes
        ∧ (∃ b pre post, b < WORKERMANAGER_PRIORITY_NUM
            ∧ onceRegistered.bucket b = pre ++ 7 :: post ∧ m1.bucket b = pre ++ post
            ∧ ∀ q, q ≠ b → m1._workersList q = onceRegistered._workersList q)
        ∧ m1.scanFindsNone 7 :=
  ⟨by decide, C4_removeWorker_single_registration onceRegistered 7 (by decide)⟩

/-- C5: when worker `w` occurs in at least one bucket, `workerManager_removeWorker(w)`
returns having removed only the first occurrence of `w` in the lowest-numbered bucket `b`
that contains `w`: the items before and after that occurrence stay in order (the bucket is
its former self with the first `w` erased, so later duplicates of `w` remain), and every
other bucket, also one that contains `w`, is unchanged. -/
theorem C5_removeWorker_first_occurrence_only (m : Manager) (w : Ptr)
    (h : ∃ b, m.registeredIn w b) :
    ∃ b, m.registeredIn w b ∧ (∀ q, q < b → w ∉ m.bucket q)
      ∧ ∃ m1 pre post, (workerManager_removeWorker w m).result = some m1
        ∧ m.bucket b = pre ++ w :: post ∧ w ∉ pre ∧ m1.bucket b = pre ++ post
        ∧ m1.bucket b = (m.bucket b).erase w
        ∧ (m1.bucket b).count w + 1 = (m.bucket b).count w
        ∧ ∀ q, q ≠ b → m1._workersList q = m._workersList q := by
  obtain ⟨b, hb, hmin⟩ := exists_lowest_bucket m w h
  obtain ⟨m1, pre, post, hres, h1, h2, h3, h4⟩ := removeWorker_at_lowest m w b hb hmin
  refine ⟨b, hb, hmin, m1, pre, post, hres, h1, h2, h3, ?_, ?_, h4⟩
  · rw [h1, h3, List.erase_append_right _ h2, List.erase_cons_head]
  · rw [h1, h3]
    simp [List.count_append]
    omega

/-- C5, at a concrete input: worker 7 held twice by bucket 2 (after worker 5) and once by
bucket 4. -/
theorem C5_removeWorker_first_occurrence_only_witness :
    (∃ b, severalRegistered.registeredIn 7 b)
      ∧ ∃ b, severalRegistered.registeredIn 7 b ∧ (∀ q, q < b → 7 ∉ severalRegistered.bucket q)
        ∧ ∃ m1 pre post, (workerManager_removeWorker 7 severalRegistered).result = some m1
          ∧ severalRegistered.bucket b = pre ++ 7 :: post ∧ 7 ∉ pre ∧ m1.bucket b = pre ++ post
          ∧ m1.bucket b = (severalRegistered.bucket b).erase 7
          ∧ (m1.bucket b).count 7 + 1 = (severalRegistered.bucket b).count 7
          ∧ ∀ q, q ≠ b → m1._workersList q = severalRegistered._workersList q :=
  ⟨⟨2, by decide, by decide⟩,
    C5_removeWorker_first_occurrence_only severalRegistered 7 ⟨2, by decide, by decide⟩⟩

/-! ### Facts about the worker entity -/

/-- C8: for every worker reference and each of the phases init, run and end,
`worker_handleInit` / `worker_handleRun` / `worker_handleEnd` makes exactly one call, of that
phase's handler with that phase's stored argument, when the reference is non-null and that
phase's handler is present, and makes no call at all otherwise; so it makes one call if and
only if both are present, and never a call through the slot of another phase. -/
theorem C8_handlers_dispatch_own_slot (mem : WorkerMem) (worker : Ptr) :
    (worker_handleInit mem worker
        = if worker ≠ NULL ∧ (mem worker).init.handler ≠ NULL then
            [Event.call .init (mem worker).init.handler (mem worker).init.args]
          else [])
      ∧ (worker_handleRun mem worker
        = if worker ≠ NULL ∧ (mem worker).run.handler ≠ NULL then
            [Event.call .run (mem worker).run.handler (mem worker).run.args]
          else [])
      ∧ (worker_handleEnd mem worker
        = if worker ≠ NULL ∧ (mem worker).end_.handler ≠ NULL then
            [Event.call .end_ (mem worker).end_.handler (mem worker).end_.args]
          else [])
      ∧ ((worker_handleInit mem worker).length = 1
          ↔ worker ≠ NULL ∧ (mem worker).init.handler ≠ NULL)
      ∧ ((worker_handleRun mem worker).length = 1
          ↔ worker ≠ NULL ∧ (mem worker).run.handler ≠ NULL)
      ∧ ((worker_handleEnd mem worker).length = 1
          ↔ worker ≠ NULL ∧ (mem worker).end_.handler ≠ NULL) := by
  refine ⟨?_, ?_, ?_, ?_, ?_, ?_⟩
  · by_cases h1 : worker = NULL <;> by_cases h2 : (mem worker).init.handler = NULL <;>
      simp [worker_handleInit, h1, h2]
  · by_cases h1 : worker = NULL <;> by_cases h2 : (mem worker).run.handler = NULL <;>
      simp [worker_handleRun, h1, h2]
  · by_cases h1 : worker = NULL <;> by_cases h2 : (mem worker).end_.handler = NULL <;>
      simp [worker_handleEnd, h1, h2]
  · by_cases h1 : worker = NULL <;> by_cases h2 : (mem worker).init.handler = NULL <;>
      simp [worker_handleInit, h1, h2]
  · by_cases h1 : worker = NULL <;> by_cases h2 : (mem worker).run.handler = NULL <;>
      simp [worker_handleRun, h1, h2]
  · by_cases h1 : worker = NULL <;> by_cases h2 : (mem worker).end_.handler = NULL <;>
      simp [worker_handleEnd, h1, h2]

/-! ### Facts about runs -/

theorem Run.mem_andThen_events {α β : Type} (r : Run α) (k : α → Run β) (e : Event)
    (h : e ∈ (Run.andThen r k).events) :
    e ∈ r.events ∨ ∃ a, r.result = some a ∧ e ∈ (k a).events := by
  unfold Run.andThen at h
  cases hr : r.result with
  | none =>
    rw [hr] at h
    exact Or.inl h
  | some a =>
    rw [hr] at h
    rcases List.mem_append.mp h with h1 | h1
    · exact Or.inl h1
    · exact Or.inr ⟨a, rfl, h1⟩

theorem Run.andThen_result_eq_some {α β : Type} (r : Run α) (k : α → Run β) (b : β)
    (h : (Run.andThen r k).result = some b) :
    ∃ a, r.result = some a ∧ (k a).result = some b := by
  unfold Run.andThen at h
  cases hr : r.result with
  | none =>
    rw [hr] at h
    exact Option.noConfusion h
  | some a =>
    rw [hr] at h
    exact ⟨a, rfl, h⟩

/-! ### The manager operations make no handler call -/

theorem addWorker_no_call (alloc : Bool) (w : Ptr) (p : Nat) (m : Manager) (e : Event)
    (h : e ∈ (workerManager_addWorker alloc w p m).events) : e.isCall = false := by
  unfold workerManager_addWorker at h
  by_cases hp : p ≥ WORKERMANAGER_PRIORITY_NUM
  · simp only [hp, if_true, Run.ok, List.mem_singleton] at h
    subst h; rfl
  · cases alloc
    · simp only [hp, if_false, Run.fault, List.mem_cons, List.mem_singleton,
        Bool.false_eq_true, List.not_mem_nil, or_false] at h
      rcases h with h | h <;> subst h <;> rfl
    · simp only [hp, if_false, if_true, Run.ok, List.mem_cons, List.mem_singleton,
        List.not_mem_nil, or_false] at h
      rcases h with h | h | h | h | h <;> subst h <;> rfl

theorem removeWorker_buckets_no_call (w : Ptr) (ps : List Nat) (m : Manager) (e : Event)
    (h : e ∈ (workerManager_removeWorker.buckets w ps m).events) : e.isCall = false := by
  induction ps with
  | nil => simp [workerManager_removeWorker.buckets, Run.ok] at h
  | cons p ps ih =>
    unfold workerManager_removeWorker.buckets at h
    cases hs : workerManager_removeWorker.scan w (m._workersList p) with
    | some l =>
      simp only [hs, Run.ok, List.mem_cons, List.not_mem_nil, or_false] at h
      rcases h with h | h | h | h <;> subst h <;> rfl
    | none =>
      simp only [hs] at h
      rcases Run.mem_andThen_events _ _ e h with h1 | ⟨_, _, h1⟩
      · simp only [Run.ok, List.mem_cons, List.not_mem_nil, or_false] at h1
        rcases h1 with h1 | h1 <;> subst h1 <;> rfl
      · exact ih h1

theorem removeWorker_no_call (w : Ptr) (m : Manager) (e : Event)
    (h : e ∈ (workerManager_removeWorker w m).events) : e.isCall = false :=
  removeWorker_buckets_no_call w _ m e h

theorem setPriorityListSleepTime_no_call (p t : Nat) (m : Manager) (e : Event)
    (h : e ∈ (workerManager_setPriorityListSleepTime p t m).events) : e.isCall = false := by
  unfold workerManager_setPriorityListSleepTime at h
  by_cases hp : p ≥ WORKERMANAGER_PRIORITY_NUM
  · simp only [hp, if_true, Run.ok, List.mem_singleton] at h
    subst h; rfl
  · cases ht : m._pthreadList p with
    | none => simp [hp, ht, Run.fault] at h
    | some a => simp [hp, ht, Run.ok] at h

theorem isInitCall_of_isCall_false (e : Event) (h : e.isCall = false) : e.isInitCall = false := by
  cases e with
  | call phase handler args => simp [Event.isCall] at h
  | _ => rfl

/-! ### The passes of a bucket thread -/

theorem runLoop_no_init_call (mem : WorkerMem) (l : NodePtr) (e : Event)
    (h : e ∈ _workManagerHandler.runLoop mem l) : e.isInitCall = false := by
  induction l with
  | null => simp [_workManagerHandler.runLoop] at h
  | node item next ih =>
    simp only [_workManagerHandler.runLoop, List.mem_append] at h
    rcases h with h | h
    · unfold worker_handleRun at h
      split_ifs at h
      · simp at h
      · simp at h
      · simp only [List.mem_singleton] at h
        subst h; rfl
    · exact ih h

theorem endLoop_no_init_call (mem : WorkerMem) (l : NodePtr) (e : Event)
    (h : e ∈ _workManagerHandler.endLoop mem l) : e.isInitCall = false := by
  induction l with
  | null => simp [_workManagerHandler.endLoop] at h
  | node item next ih =>
    simp only [_workManagerHandler.endLoop, List.mem_append] at h
    rcases h with h | h
    · unfold worker_handleEnd at h
      split_ifs at h
      · simp at h
      · simp at h
      · simp only [List.mem_singleton] at h
        subst h; rfl
    · exact ih h

theorem handler_step_after_bootstrap (mem : WorkerMem) (threadArgs : threadArgs_t)
    (m : Manager) (pc : ThreadPc) (h : pc ≠ .bootstrap) :
    (_workManagerHandler.step mem threadArgs m pc).1 ≠ .bootstrap
      ∧ ∀ e ∈ (_workManagerHandler.step mem threadArgs m pc).2, e.isInitCall = false := by
  cases pc with
  | bootstrap => exact absurd rfl h
  | runLoop =>
    by_cases hr : m.workerManagerRunning ≠ 0
    · simp only [_workManagerHandler.step, if_pos hr]
      refine ⟨by simp, ?_⟩
      intro e he
      simp only [_workManagerHandler.runPass, List.mem_append, List.mem_cons,
        List.mem_singleton, List.not_mem_nil, or_false] at he
      rcases he with (he | he) | he | he
      · subst he; rfl
      · exact runLoop_no_init_call mem _ e he
      · subst he; rfl
      · subst he; rfl
    · simp only [_workManagerHandler.step, if_neg hr]
      exact ⟨by simp, by simp⟩
  | drain =>
    simp only [_workManagerHandler.step]
    refine ⟨by simp, ?_⟩
    intro e he
    simp only [_workManagerHandler.endPass, List.mem_append, List.mem_cons,
      List.mem_singleton, List.not_mem_nil, or_false] at he
    rcases he with (he | he) | he
    · subst he; rfl
    · exact endLoop_no_init_call mem _ e he
    · subst he; rfl
  | done =>
    simp only [_workManagerHandler.step]
    exact ⟨by simp, by simp⟩

theorem handler_step_leaves_bootstrap (mem : WorkerMem) (threadArgs : threadArgs_t)
    (m : Manager) (pc : ThreadPc) :
    (_workManagerHandler.step mem threadArgs m pc).1 ≠ .bootstrap := by
  cases pc with
  | bootstrap => simp [_workManagerHandler.step]
  | runLoop => exact (handler_step_after_bootstrap mem threadArgs m _ (by decide)).1
  | drain => exact (handler_step_after_bootstrap mem threadArgs m _ (by decide)).1
  | done => exact (handler_step_after_bootstrap mem threadArgs m _ (by decide)).1

/-! ### The transition system after bootstrap -/

theorem Sys.step_after_bootstrap (mem : WorkerMem) (bucket : Nat) (s : Sys) (st : Step)
    (h : s.pc ≠ .bootstrap) :
    (∀ e ∈ (Sys.step mem bucket s st).events, e.isInitCall = false)
      ∧ ∀ s1, (Sys.step mem bucket s st).result = some s1 → s1.pc ≠ .bootstrap := by
  cases st with
  | thread =>
    unfold Sys.step
    cases ht : s.m._pthreadList bucket with
    | none => simp [Run.fault]
    | some threadArgs =>
      have hs := handler_step_after_bootstrap mem threadArgs s.m s.pc h
      refine ⟨fun e he => hs.2 e he, ?_⟩
      intro s1 hs1
      simp only [Run.ok, Option.some.injEq] at hs1
      rw [← hs1]
      exact hs.1
  | addWorker alloc worker prio =>
    unfold Sys.step
    refine ⟨?_, ?_⟩
    · intro e he
      rcases Run.mem_andThen_events _ _ e he with h1 | ⟨_, _, h1⟩
      · exact isInitCall_of_isCall_false e (addWorker_no_call _ _ _ _ e h1)
      · simp [Run.ok] at h1
    · intro s1 hs1
      obtain ⟨m1, _, h2⟩ := Run.andThen_result_eq_some _ _ s1 hs1
      simp only [Run.ok, Option.some.injEq] at h2
      rw [← h2]
      exact h
  | removeWorker worker =>
    unfold Sys.step
    refine ⟨?_, ?_⟩
    · intro e he
      rcases Run.mem_andThen_events _ _ e he with h1 | ⟨_, _, h1⟩
      · exact isInitCall_of_isCall_false e (removeWorker_no_call _ _ e h1)
      · simp [Run.ok] at h1
    · intro s1 hs1
      obtain ⟨m1, _, h2⟩ := Run.andThen_result_eq_some _ _ s1 hs1
      simp only [Run.ok, Option.some.injEq] at h2
      rw [← h2]
      exact h
  | setSleepTime prio sleepTime =>
    unfold Sys.step
    refine ⟨?_, ?_⟩
    · intro e he
      rcases Run.mem_andThen_events _ _ e he with h1 | ⟨_, _, h1⟩
      · exact isInitCall_of_isCall_false e (setPriorityListSleepTime_no_call _ _ _ e h1)
      · simp [Run.ok] at h1
    · intro s1 hs1
      obtain ⟨m1, _, h2⟩ := Run.andThen_result_eq_some _ _ s1 hs1
      simp only [Run.ok, Option.some.injEq] at h2
      rw [← h2]
      exact h
  | stop =>
    unfold Sys.step
    refine ⟨by simp [Run.ok], ?_⟩
    intro s1 hs1
    simp only [Run.ok, Option.some.injEq] at hs1
    rw [← hs1]
    exact h

theorem Sys.run_after_bootstrap (mem : WorkerMem) (bucket : Nat) (s : Sys) (steps : List Step)
    (h : s.pc ≠ .bootstrap) :
    (∀ e ∈ (Sys.run mem bucket s steps).events, e.isInitCall = false)
      ∧ ∀ s1, (Sys.run mem bucket s steps).result = some s1 → s1.pc ≠ .bootstrap := by
  induction steps generalizing s with
  | nil =>
    refine ⟨by simp [Sys.run, Run.ok], ?_⟩
    intro s1 hs1
    simp only [Sys.run, Run.ok, Option.some.injEq] at hs1
    rw [← hs1]
    exact h
  | cons st rest ih =>
    have hstep := Sys.step_after_bootstrap mem bucket s st h
    unfold Sys.run
    refine ⟨?_, ?_⟩
    · intro e he
      rcases Run.mem_andThen_events _ _ e he with h1 | ⟨s1, hs1, h1⟩
      · exact hstep.1 e h1
      · exact (ih s1 (hstep.2 s1 hs1)).1 e h1
    · intro s2 hs2
      obtain ⟨s1, hs1, h2⟩ := Run.andThen_result_eq_some _ _ s2 hs2
      exact (ih s1 (hstep.2 s1 hs1)).2 s2 h2

/-- C7, as stated, fails: after `workerManager_init()` the manager is running and the thread
of bucket 0 is at its bootstrap point; worker 7, which has an init handler, is added to
bucket 0 and the manager is stopped before the thread makes its first step. The thread then
runs to its end and makes no init pass at all: its only pass is the drain, which calls the
end handler of worker 7. -/
theorem C7_counterexample_stopped_before_first_step :
    ∃ m, (workerManager_init (fun _ => true) emptyManager).result = some m
      ∧ m.workerManagerRunning = 1
      ∧ ∃ s, (Sys.run oneWorkerMem 0 { m := m, pc := .bootstrap } stoppedEarly).result = some s
        ∧ s.pc = .done
        ∧ s.m.bucket 0 = [7]
        ∧ (oneWorkerMem 7).init.handler = 101
        ∧ (Sys.run oneWorkerMem 0 { m := m, pc := .bootstrap } stoppedEarly).events
            = [.lock 0, .listWrite 0, .listWrite 0, .listWrite 0, .unlock 0,
               .lock 0, .call .end_ 103 203, .unlock 0] :=
  ⟨_, rfl, rfl, _, rfl, rfl, rfl, rfl, rfl⟩

/-- C7, amended: in the system made of the steps of a bucket's thread (bootstrap, run loop,
drain), add-worker, remove-worker, set-sleep-time and stop, the init pass is made at most
once, by the first step of the thread, and only when the running flag is set at that step.
Once the thread has left the bootstrap point no sequence of steps produces a call through an
init slot, and the thread never comes back to the bootstrap point; so a worker added to the
bucket after that moment never gets an init call. -/
theorem C7_no_init_call_after_bootstrap (mem : WorkerMem) (bucket : Nat) (s : Sys)
    (steps : List Step) (h : s.pc ≠ .bootstrap) :
    (∀ e ∈ (Sys.run mem bucket s steps).events, e.isInitCall = false)
      ∧ (∀ s1, (Sys.run mem bucket s steps).result = some s1 → s1.pc ≠ .bootstrap)
      ∧ (∀ s0 s1, (Sys.step mem bucket s0 .thread).result = some s1 → s1.pc ≠ .bootstrap)
      ∧ (∀ s0 threadArgs, s0.pc = .bootstrap → s0.m._pthreadList bucket = some threadArgs →
          Sys.step mem bucket s0 .thread
            = Run.ok
                (if s0.m.workerManagerRunning ≠ 0 then
                  _workManagerHandler.initPass mem threadArgs s0.m
                 else [])
                { s0 with pc := .runLoop }) := by
  refine ⟨(Sys.run_after_bootstrap mem bucket s steps h).1,
    (Sys.run_after_bootstrap mem bucket s steps h).2, ?_, ?_⟩
  · intro s0 s1 hs1
    unfold Sys.step at hs1
    cases ht : s0.m._pthreadList bucket with
    | none => simp [ht, Run.fault] at hs1
    | some threadArgs =>
      simp only [ht, Run.ok, Option.some.injEq] at hs1
      rw [← hs1]
      exact handler_step_leaves_bootstrap mem threadArgs s0.m s0.pc
  · intro s0 threadArgs hpc ht
    simp [Sys.step, ht, hpc, _workManagerHandler.step]

/-- C7, amended, at a concrete input: worker 7, which has an init handler, is added to bucket 0 after
the thread of bucket 0 has reached its run loop. -/
theorem C7_no_init_call_after_bootstrap_witness :
    afterBootstrap.pc ≠ .bootstrap
      ∧ (∀ e ∈ (Sys.run oneWorkerMem 0 afterBootstrap lateRegistration).events,
          e.isInitCall = false)
      ∧ (∀ s1, (Sys.run oneWorkerMem 0 afterBootstrap lateRegistration).result = some s1 →
          s1.pc ≠ .bootstrap)
      ∧ (∀ s0 s1, (Sys.step oneWorkerMem 0 s0 .thread).result = some s1 → s1.pc ≠ .bootstrap)
      ∧ (∀ s0 threadArgs, s0.pc = .bootstrap → s0.m._pthreadList 0 = some threadArgs →
          Sys.step oneWorkerMem 0 s0 .thread
            = Run.ok
                (if s0.m.workerManagerRunning ≠ 0 then
                  _workManagerHandler.initPass oneWorkerMem threadArgs s0.m
                 else [])
                { s0 with pc := .runLoop }) :=
  ⟨by decide, C7_no_init_call_after_bootstrap oneWorkerMem 0 afterBootstrap lateRegistration
    (by decide)⟩

/-! ### Shutdown: the drain passes and the final walk -/

theorem handleEnd_filter_isCall (mem : WorkerMem) (item : Ptr) :
    (worker_handleEnd mem item).filter Event.isCall = worker_handleEnd mem item := by
  unfold worker_handleEnd
  split_ifs <;> simp [Event.isCall]

theorem endLoop_eq (mem : WorkerMem) (l : NodePtr) :
    _workManagerHandler.endLoop mem l = (l.items.map fun item => worker_handleEnd mem item).flatten := by
  induction l with
  | null => simp [_workManagerHandler.endLoop, NodePtr.items]
  | node item next ih => simp [_workManagerHandler.endLoop, NodePtr.items, ih]

theorem flatten_handleEnd_filter_isCall (mem : WorkerMem) (xs : List Ptr) :
    ((xs.map fun item => worker_handleEnd mem item).flatten).filter Event.isCall
      = (xs.map fun item => worker_handleEnd mem item).flatten := by
  induction xs with
  | nil => simp
  | cons x xs ih => simp [List.filter_append, handleEnd_filter_isCall, ih]

theorem endPass_filter_isCall (mem : WorkerMem) (threadArgs : threadArgs_t) (m : Manager) :
    (_workManagerHandler.endPass mem threadArgs m).filter Event.isCall
      = ((m.bucket threadArgs.workerList).map fun item => worker_handleEnd mem item).flatten := by
  simp only [_workManagerHandler.endPass, List.filter_append, endLoop_eq,
    flatten_handleEnd_filter_isCall, Manager.bucket]
  simp [Event.isCall]

theorem drainPasses_filter_isCall_aux (mem : WorkerMem) (m : Manager) (ps : List Nat)
    (h : ∀ i ∈ ps, ∃ sleepTime,
      m._pthreadList i = some { workerList := i, sleepTime := sleepTime, mutex := i }) :
    ((ps.map fun i =>
        match m._pthreadList i with
        | none => []
        | some threadArgs => _workManagerHandler.endPass mem threadArgs m).flatten).filter
          Event.isCall
      = (ps.map fun b =>
          ((m.bucket b).map fun item => worker_handleEnd mem item).flatten).flatten := by
  induction ps with
  | nil => simp
  | cons p ps ih =>
    obtain ⟨t, ht⟩ := h p (List.mem_cons_self _ _)
    have h1 := ih (fun i hi => h i (List.mem_cons_of_mem _ hi))
    simp only [List.map_cons, List.flatten_cons, List.filter_append, h1, ht,
      endPass_filter_isCall]

theorem walk_of_no_null (mem : WorkerMem) (l : NodePtr) (h : NULL ∉ l.items) :
    workerManager_end.walk mem l
      = Run.ok ((l.items.map fun item => worker_handleEnd mem item).flatten) () := by
  induction l with
  | null => simp [workerManager_end.walk, NodePtr.items]
  | node item next ih =>
    simp only [NodePtr.items, List.mem_cons, not_or] at h
    have hne : ¬ item = NULL := fun e => h.1 e.symm
    rw [workerManager_end.walk, if_neg hne, ih h.2]
    by_cases hh : (mem item).end_.handler = NULL <;>
      simp [Run.andThen, Run.ok, NodePtr.items, worker_handleEnd, hne, hh]

theorem end_buckets_of_no_null (mem : WorkerMem) (m : Manager) (ps : List Nat)
    (h : ∀ i ∈ ps, ∃ sleepTime,
      m._pthreadList i = some { workerList := i, sleepTime := sleepTime, mutex := i })
    (hn : ∀ i ∈ ps, NULL ∉ m.bucket i) :
    (workerManager_end.buckets mem m ps).result = some ()
      ∧ (workerManager_end.buckets mem m ps).events.filter Event.isCall
        = (ps.map fun b =>
            ((m.bucket b).map fun item => worker_handleEnd mem item).flatten).flatten := by
  induction ps with
  | nil => simp [workerManager_end.buckets, Run.ok]
  | cons p ps ih =>
    obtain ⟨t, ht⟩ := h p (List.mem_cons_self _ _)
    obtain ⟨h1, h2⟩ := ih (fun i hi => h i (List.mem_cons_of_mem _ hi))
      (fun i hi => hn i (List.mem_cons_of_mem _ hi))
    have hw := walk_of_no_null mem (m._workersList p) (hn p (List.mem_cons_self _ _))
    rw [workerManager_end.buckets]
    simp only [ht, hw, Run.andThen, Run.ok, h1, true_and]
    simp only [List.filter_append, h2, List.map_cons, List.flatten_cons,
      flatten_handleEnd_filter_isCall, Manager.bucket]
    simp [Event.isCall]

theorem shutdown_of_no_null (mem : WorkerMem) (m : Manager) (hs : m.started)
    (hn : m.noNullWorker) :
    (shutdown mem m).result = some ()
      ∧ (shutdown mem m).events.filter Event.isCall = m.endCalls mem ++ m.endCalls mem
      ∧ ∀ e, e.isCall = true →
          (shutdown mem m).events.count e = 2 * (m.endCalls mem).count e := by
  have hs1 : ∀ i ∈ List.range WORKERMANAGER_PRIORITY_NUM, ∃ sleepTime,
      m._pthreadList i = some { workerList := i, sleepTime := sleepTime, mutex := i } :=
    fun i hi => hs i (List.mem_range.mp hi)
  have hn1 : ∀ i ∈ List.range WORKERMANAGER_PRIORITY_NUM, NULL ∉ m.bucket i :=
    fun i hi => hn i (List.mem_range.mp hi)
  have hd := drainPasses_filter_isCall_aux mem m _ hs1
  obtain ⟨he1, he2⟩ := end_buckets_of_no_null mem { m with workerManagerRunning := 0 } _ hs1 hn1
  have hres : (shutdown mem m).result = some () := by
    simp [shutdown, Run.andThen, Run.ok, workerManager_end, he1]
  have hev : (shutdown mem m).events.filter Event.isCall = m.endCalls mem ++ m.endCalls mem := by
    have : (shutdown mem m).events = drainPasses mem m ++ (workerManager_end mem m).events := by
      simp [shutdown, Run.andThen, Run.ok]
    rw [this, List.filter_append]
    unfold drainPasses workerManager_end
    rw [hd, he2]
    rfl
  refine ⟨hres, hev, ?_⟩
  intro e he
  rw [← List.count_filter he, hev, List.count_append]
  omega

theorem walk_faults_of_null (mem : WorkerMem) (l : NodePtr) (h : NULL ∈ l.items) :
    (workerManager_end.walk mem l).result = none := by
  induction l with
  | null => simp [NodePtr.items] at h
  | node item next ih =>
    rw [workerManager_end.walk]
    by_cases hi : item = NULL
    · simp [hi, Run.fault]
    · simp only [NodePtr.items, List.mem_cons] at h
      rcases h with h | h
      · exact absurd h.symm hi
      · simp [hi, Run.andThen, Run.ok, ih h]

theorem end_buckets_faults_of_null (mem : WorkerMem) (m : Manager) (ps : List Nat) (b : Nat)
    (hb : b ∈ ps) (h : NULL ∈ m.bucket b) :
    (workerManager_end.buckets mem m ps).result = none := by
  induction ps with
  | nil => simp at hb
  | cons p ps ih =>
    rw [workerManager_end.buckets]
    cases ht : m._pthreadList p with
    | none => simp [Run.fault]
    | some t =>
      cases hw : (workerManager_end.walk mem (m._workersList p)).result with
      | none => simp [Run.andThen, Run.ok, hw]
      | some u =>
        have hpb : p ≠ b := by
          intro e
          subst e
          rw [walk_faults_of_null mem _ h] at hw
          exact Option.noConfusion hw
        have hb1 : b ∈ ps := by
          rcases List.mem_cons.mp hb with e | e
          · exact absurd e.symm hpb
          · exact e
        simp [Run.andThen, Run.ok, hw, ih hb1]

theorem end_faults_of_null_worker (mem : WorkerMem) (m : Manager) (b : Nat)
    (hb : b < WORKERMANAGER_PRIORITY_NUM) (h : NULL ∈ m.bucket b) :
    (workerManager_end mem m).result = none :=
  end_buckets_faults_of_null mem { m with workerManagerRunning := 0 } _ b
    (List.mem_range.mpr hb) h

/-- C6, at the failing input `workerManager_init(); workerManager_addWorker(NULL, 0);
workerManager_addWorker(w, 0);` followed by shutdown, with `w` the worker at address 7 whose
end handler is the function at 103 with argument 203: bucket 0 holds the null reference and
then `w`; the drain pass of the thread calls the end handler of `w` once, the walk of
`workerManager_end` faults at the null entry before it reaches `w`, so over the whole
shutdown the end handler of `w` is called once, not twice. -/
theorem C6_null_entry_cuts_second_end_call :
    ∃ m, nullThenWorker.result = some m
      ∧ m.bucket 0 = [NULL, 7]
      ∧ (drainPasses oneWorkerMem m).count (Event.call .end_ 103 203) = 1
      ∧ (workerManager_end oneWorkerMem m).events.count (Event.call .end_ 103 203) = 0
      ∧ (shutdown oneWorkerMem m).events.count (Event.call .end_ 103 203) = 1
      ∧ (shutdown oneWorkerMem m).result = none :=
  ⟨_, rfl, by decide, by decide, by decide, by decide, by decide⟩

/-- C9, at the failing input `workerManager_init(); workerManager_addWorker(NULL, 0);`
followed by the passes of the thread of bucket 0 and by `workerManager_end()`: bucket 0
holds the null reference; the bootstrap, run and drain passes complete and make no call, but
`workerManager_end` faults on that entry, right after joining the thread and destroying the
mutex of bucket 0, whatever the worker memory holds. -/
theorem C9_end_walk_faults_on_null_entry (mem : WorkerMem) :
    ∃ m, nullRegistered.result = some m
      ∧ m.bucket 0 = [NULL]
      ∧ m._pthreadList 0 = some { workerList := 0, sleepTime := 100000, mutex := 0 }
      ∧ _workManagerHandler.initPass mem { workerList := 0, sleepTime := 100000, mutex := 0 } m
          = [.lock 0, .unlock 0]
      ∧ _workManagerHandler.runPass mem { workerList := 0, sleepTime := 100000, mutex := 0 } m
          = [.lock 0, .unlock 0, .usleep 100000]
      ∧ _workManagerHandler.endPass mem { workerList := 0, sleepTime := 100000, mutex := 0 } m
          = [.lock 0, .unlock 0]
      ∧ (workerManager_end mem m).result = none
      ∧ (workerManager_end mem m).events = [.threadJoin 0, .mutexDestroy 0] :=
  ⟨_, rfl, rfl, rfl, rfl, rfl, rfl, rfl, rfl⟩

/-! ### Lock discipline of the manager operations -/

theorem update_lock_unlock (p : Nat) :
    Function.update (Function.update noneHeld p true) p false = noneHeld := by
  funext q
  by_cases h : q = p <;> simp [Function.update, noneHeld, h]

theorem addWorker_mutationsUnderLock (alloc : Bool) (w : Ptr) (p : Nat) (m : Manager) :
    mutationsUnderLock noneHeld (workerManager_addWorker alloc w p m).events = true := by
  unfold workerManager_addWorker
  by_cases hp : p ≥ WORKERMANAGER_PRIORITY_NUM
  · simp [hp, Run.ok, mutationsUnderLock]
  · cases alloc <;> simp [hp, Run.ok, Run.fault, mutationsUnderLock]

theorem removeWorker_buckets_mutationsUnderLock (w : Ptr) (ps : List Nat) (m : Manager) :
    mutationsUnderLock noneHeld (workerManager_removeWorker.buckets w ps m).events = true := by
  induction ps with
  | nil => simp [workerManager_removeWorker.buckets, Run.ok, mutationsUnderLock]
  | cons p ps ih =>
    unfold workerManager_removeWorker.buckets
    cases hs : workerManager_removeWorker.scan w (m._workersList p) with
    | some l => simp [Run.ok, mutationsUnderLock]
    | none =>
      simp only [Run.andThen, Run.ok, List.cons_append, List.nil_append, mutationsUnderLock,
        update_lock_unlock]
      exact ih

theorem init_buckets_no_lock (alloc : Nat → Bool) (ps : List Nat) (m : Manager) (e : Event)
    (h : e ∈ (workerManager_init.buckets alloc ps m).events) : e.isLock = false := by
  induction ps generalizing m with
  | nil => simp [workerManager_init.buckets, Run.ok] at h
  | cons p ps ih =>
    unfold workerManager_init.buckets at h
    by_cases ha : alloc p = true
    · simp only [ha, if_true] at h
      rcases Run.mem_andThen_events _ _ e h with h1 | ⟨_, _, h1⟩
      · simp only [Run.ok, List.mem_cons, List.not_mem_nil, or_false] at h1
        rcases h1 with h1 | h1 | h1 <;> subst h1 <;> rfl
      · exact ih _ h1
    · simp only [ha, if_false, Run.fault, List.mem_cons, List.mem_singleton, List.not_mem_nil,
        or_false, Bool.false_eq_true] at h
      rcases h with h | h <;> subst h <;> rfl

theorem end_walk_no_lock (mem : WorkerMem) (l : NodePtr) (e : Event)
    (h : e ∈ (workerManager_end.walk mem l).events) : e.isLock = false := by
  induction l with
  | null => simp [workerManager_end.walk, Run.ok] at h
  | node item next ih =>
    unfold workerManager_end.walk at h
    by_cases hi : item = NULL
    · simp [hi, Run.fault] at h
    · simp only [hi, if_false] at h
      rcases Run.mem_andThen_events _ _ e h with h1 | ⟨_, _, h1⟩
      · simp only [Run.ok] at h1
        split_ifs at h1
        · simp at h1
        · simp only [List.mem_singleton] at h1
          subst h1; rfl
      · exact ih h1

theorem end_buckets_no_lock (mem : WorkerMem) (m : Manager) (ps : List Nat) (e : Event)
    (h : e ∈ (workerManager_end.buckets mem m ps).events) : e.isLock = false := by
  induction ps with
  | nil => simp [workerManager_end.buckets, Run.ok] at h
  | cons p ps ih =>
    unfold workerManager_end.buckets at h
    cases ht : m._pthreadList p with
    | none => simp [ht, Run.fault] at h
    | some t =>
      simp only [ht] at h
      rcases Run.mem_andThen_events _ _ e h with h1 | ⟨_, _, h1⟩
      · simp only [Run.ok, List.mem_cons, List.not_mem_nil, or_false] at h1
        rcases h1 with h1 | h1 <;> subst h1 <;> rfl
      · rcases Run.mem_andThen_events _ _ e h1 with h2 | ⟨_, _, h2⟩
        · exact end_walk_no_lock mem _ e h2
        · rcases Run.mem_andThen_events _ _ e h2 with h3 | ⟨_, _, h3⟩
          · simp only [Run.ok] at h3
            rw [List.eq_of_mem_replicate h3]
            rfl
          · exact ih h3

/-- C10, as stated, fails for `workerManager_init` and `workerManager_end`: called on a
manager whose bucket 3 holds a worker, `workerManager_init` empties that bucket with no
mutex held; after `workerManager_init(); workerManager_addWorker(w, 0);`,
`workerManager_end` frees the node of bucket 0 with no mutex held. -/
theorem C10_counterexample_init_and_end_hold_no_mutex :
    (mutationsUnderLock noneHeld (workerManager_init (fun _ => true) onceRegistered).events
        = false
      ∧ onceRegistered.bucket 3 = [7]
      ∧ ∃ m1, (workerManager_init (fun _ => true) onceRegistered).result = some m1
          ∧ m1.bucket 3 = [])
      ∧ ∃ m, workerRegistered.result = some m
          ∧ m.bucket 0 = [7]
          ∧ (workerManager_end oneWorkerMem m).events.count (Event.listFree 0) = 1
          ∧ mutationsUnderLock noneHeld (workerManager_end oneWorkerMem m).events = false :=
  ⟨⟨by decide, by decide, _, rfl, by decide⟩, _, rfl, by decide, by decide, by decide⟩

/-- C10, amended: replayed over a lock state in which the operation holds no mutex at its
start, `workerManager_addWorker` and `workerManager_removeWorker` make every store into a
bucket's list, and every release of one of its nodes, while they hold that bucket's mutex;
`workerManager_init` (which resets every list) and `workerManager_end` (which destroys every
list) acquire no mutex at all. -/
theorem C10_add_and_remove_mutate_under_lock (alloc : Bool) (allocs : Nat → Bool)
    (mem : WorkerMem) (m : Manager) (w : Ptr) (p : Nat) :
    mutationsUnderLock noneHeld (workerManager_addWorker alloc w p m).events = true
      ∧ mutationsUnderLock noneHeld (workerManager_removeWorker w m).events = true
      ∧ (∀ e ∈ (workerManager_init allocs m).events, e.isLock = false)
      ∧ (∀ e ∈ (workerManager_end mem m).events, e.isLock = false) :=
  ⟨addWorker_mutationsUnderLock alloc w p m,
    removeWorker_buckets_mutationsUnderLock w _ m,
    fun e he => init_buckets_no_lock allocs _ _ e he,
    fun e he => end_buckets_no_lock mem _ _ e he⟩

/-! ### Facts about `linkedListDynamic_removeNode` -/

theorem removeNode_walk_items (k : Nat) (c : Int) (l : NodePtr) :
    (linkedListDynamic_removeNode.walk (c + 1 + k) c l).items = l.items.eraseIdx (k + 1) := by
  induction l generalizing k c with
  | null => simp [linkedListDynamic_removeNode.walk, NodePtr.items]
  | node item next ih =>
    cases k with
    | zero =>
      cases next with
      | null => simp [linkedListDynamic_removeNode.walk, NodePtr.items]
      | node x nn => simp [linkedListDynamic_removeNode.walk, NodePtr.items]
    | succ j =>
      have h : c < c + 1 + ((j + 1 : Nat) : Int) - 1 := by push_cast; omega
      have e : c + 1 + ((j + 1 : Nat) : Int) = (c + 1) + 1 + (j : Int) := by push_cast; ring
      have hi := ih j (c + 1)
      rw [← e] at hi
      simp only [linkedListDynamic_removeNode.walk, if_pos h, NodePtr.items, hi,
        List.eraseIdx_cons_succ]

theorem removeNode_items (head : NodePtr) (i : Nat) :
    (linkedListDynamic_removeNode head (i : Int)).items = head.items.eraseIdx i := by
  cases head with
  | null => simp [linkedListDynamic_removeNode, NodePtr.items]
  | node item next =>
    cases i with
    | zero => simp [linkedListDynamic_removeNode, NodePtr.items]
    | succ j =>
      have h1 : ¬ (((j + 1 : Nat) : Int) < 0) := by omega
      have h2 : ¬ (((j + 1 : Nat) : Int) = 0) := by omega
      have e : ((j + 1 : Nat) : Int) = 0 + 1 + (j : Int) := by push_cast; ring
      rw [linkedListDynamic_removeNode, if_neg h1, if_neg h2, e, removeNode_walk_items]

theorem items_injective (l1 l2 : NodePtr) (h : l1.items = l2.items) : l1 = l2 := by
  rw [← NodePtr.ofItems_items l1, ← NodePtr.ofItems_items l2, h]

/-- C11: on a non-empty list and for an index `i` with `0 <= i < length`,
`linkedListDynamic_removeNode(&head, i)` leaves the list that is the original with exactly
the element at position `i` erased: the items before it and after it stay in order, the
length goes down by one, and for `i = 0` the head becomes the former second node. -/
theorem C11_removeNode_erases_position (head : NodePtr) (i : Nat)
    (hi : i < head.items.length) :
    (linkedListDynamic_removeNode head (i : Int)).items = head.items.eraseIdx i
      ∧ (linkedListDynamic_removeNode head (i : Int)).items
          = head.items.take i ++ head.items.drop (i + 1)
      ∧ (linkedListDynamic_removeNode head (i : Int)).items.length + 1 = head.items.length
      ∧ (∀ item next, head = .node item next → linkedListDynamic_removeNode head 0 = next) := by
  have h := removeNode_items head i
  refine ⟨h, ?_, ?_, ?_⟩
  · rw [h, List.eraseIdx_eq_take_drop_succ]
  · rw [h, List.length_eraseIdx, if_pos hi]
    omega
  · intro item next e
    subst e
    simp [linkedListDynamic_removeNode]

/-- C11, at a concrete input: removing position 1 of a list of three items. -/
theorem C11_removeNode_erases_position_witness :
    1 < (NodePtr.ofItems [5, 6, 7]).items.length
      ∧ (linkedListDynamic_removeNode (NodePtr.ofItems [5, 6, 7]) ((1 : Nat) : Int)).items
          = (NodePtr.ofItems [5, 6, 7]).items.eraseIdx 1
      ∧ (linkedListDynamic_removeNode (NodePtr.ofItems [5, 6, 7]) ((1 : Nat) : Int)).items
          = (NodePtr.ofItems [5, 6, 7]).items.take 1 ++ (NodePtr.ofItems [5, 6, 7]).items.drop (1 + 1)
      ∧ (linkedListDynamic_removeNode (NodePtr.ofItems [5, 6, 7]) ((1 : Nat) : Int)).items.length
          + 1 = (NodePtr.ofItems [5, 6, 7]).items.length
      ∧ (∀ item next, NodePtr.ofItems [5, 6, 7] = .node item next →
          linkedListDynamic_removeNode (NodePtr.ofItems [5, 6, 7]) 0 = next) :=
  ⟨by decide, C11_removeNode_erases_position (NodePtr.ofItems [5, 6, 7]) 1 (by decide)⟩

/-- C12: for an index `i` that is negative or at least the length of the list (every index,
on the empty list), `linkedListDynamic_removeNode(&head, i)` returns and leaves the list as
it was. -/
theorem C12_removeNode_invalid_index_noop (head : NodePtr) (i : Int)
    (hi : i < 0 ∨ (head.items.length : Int) ≤ i) :
    linkedListDynamic_removeNode head i = head := by
  rcases hi with hi | hi
  · cases head with
    | null => rfl
    | node item next => simp [linkedListDynamic_removeNode, hi]
  · have h0 : 0 ≤ i := le_trans (Int.ofNat_nonneg _) hi
    obtain ⟨n, rfl⟩ := Int.eq_ofNat_of_zero_le h0
    apply items_injective
    rw [removeNode_items, List.eraseIdx_of_length_le]
    exact_mod_cast hi

/-- C12, at concrete inputs: index 3 on a list of three items. -/
theorem C12_removeNode_invalid_index_noop_witness :
    ((3 : Int) < 0 ∨ ((NodePtr.ofItems [5, 6, 7]).items.length : Int) ≤ 3)
      ∧ linkedListDynamic_removeNode (NodePtr.ofItems [5, 6, 7]) 3 = NodePtr.ofItems [5, 6, 7] :=
  ⟨by decide, C12_removeNode_invalid_index_noop (NodePtr.ofItems [5, 6, 7]) 3 (by decide)⟩

/-! ### Facts about `worker_makeWorker` -/

theorem cstring_no_NUL (bytes : List Char) (c : Char) (h : c ∈ cstring bytes) :
    (c != NUL) = true := by
  unfold cstring at h
  exact List.mem_takeWhile_imp (p := fun c => c != NUL) h

theorem cstring_append_NULs (xs : List Char) (k : Nat) (h : ∀ c ∈ xs, (c != NUL) = true) :
    cstring (xs ++ List.replicate (k + 1) NUL) = xs := by
  unfold cstring
  rw [List.takeWhile_append_of_pos h]
  simp [List.replicate_succ]

theorem strncpy_length (src : List Char) (n : Nat) : (strncpy src n).length = n := by
  simp only [strncpy, List.length_append, List.length_take, List.length_replicate]
  omega

theorem set_last_same (xs : List Char) (n : Nat) (c : Char) (h : xs.length = n) :
    (xs ++ [c]).set n c = xs ++ [c] := by
  rw [List.set_append_right _ _ (Nat.le_of_eq h), h]
  simp

theorem makeWorker_name (src : List Char) :
    (strncpy src (WORKER_NAME_MAX_LEN - 1)
        ++ worker_t.zero.name.drop (WORKER_NAME_MAX_LEN - 1)).set (WORKER_NAME_MAX_LEN - 1) NUL
      = (cstring src).take 63 ++ List.replicate (64 - min (cstring src).length 63) NUL := by
  have hd : worker_t.zero.name.drop (WORKER_NAME_MAX_LEN - 1) = [NUL] := by
    simp [worker_t.zero, WORKER_NAME_MAX_LEN]
  rw [hd, set_last_same _ _ _ (strncpy_length src _)]
  have hk : 64 - min (cstring src).length 63 = (63 - (cstring src).length) + 1 := by omega
  rw [hk, List.replicate_succ']
  simp [strncpy, WORKER_NAME_MAX_LEN]

/-- C14: with a name and an output slot present and the allocation succeeding,
`worker_makeWorker` stores the new worker's address in the slot; the worker's name array has
64 characters, which are the first `min(length, 63)` characters of the name followed by null
characters only, so the stored string is the name cut to its first 63 characters (the name
itself when it has at most 63) with a null terminator right after it; the status is 0 and
the init, run and end handlers and arguments are all null. -/
theorem C14_makeWorker_name_and_zero_fields (malloc : Ptr) (src : List Char) (old : Ptr)
    (hm : malloc ≠ NULL) :
    ∃ w, worker_makeWorker malloc (some src) (some old) = { slot := some malloc, made := some w }
      ∧ w.name.length = WORKER_NAME_MAX_LEN
      ∧ w.name = (cstring src).take (min (cstring src).length 63)
                  ++ List.replicate (64 - min (cstring src).length 63) NUL
      ∧ w.name[min (cstring src).length 63]? = some NUL
      ∧ cstring w.name = (cstring src).take 63
      ∧ ((cstring src).length ≤ 63 → cstring w.name = cstring src)
      ∧ w.status = 0
      ∧ w.init = ⟨NULL, NULL⟩ ∧ w.run = ⟨NULL, NULL⟩ ∧ w.end_ = ⟨NULL, NULL⟩ := by
  have hname := makeWorker_name src
  have htake : (cstring src).take (min (cstring src).length 63) = (cstring src).take 63 := by
    rcases Nat.le_total (cstring src).length 63 with h | h
    · rw [Nat.min_eq_left h, List.take_of_length_le (le_refl _), List.take_of_length_le h]
    · rw [Nat.min_eq_right h]
  have hlen : ((cstring src).take 63).length = min (cstring src).length 63 := by
    rw [List.length_take, Nat.min_comm]
  have hk : 64 - min (cstring src).length 63 = (63 - min (cstring src).length 63) + 1 := by
    omega
  have hstr : cstring ((cstring src).take 63
      ++ List.replicate (64 - min (cstring src).length 63) NUL) = (cstring src).take 63 := by
    rw [hk]
    exact cstring_append_NULs _ _ (fun c hc => cstring_no_NUL src c (List.mem_of_mem_take hc))
  refine ⟨{ worker_t.zero with
      name :=
        (strncpy src (WORKER_NAME_MAX_LEN - 1)
          ++ worker_t.zero.name.drop (WORKER_NAME_MAX_LEN - 1)).set
            (WORKER_NAME_MAX_LEN - 1) NUL }, ?_, ?_, ?_, ?_, ?_, ?_, rfl, rfl, rfl, rfl⟩
  · simp only [worker_makeWorker, if_neg hm]
  · simp only [hname]
    simp only [List.length_append, List.length_replicate, hlen, WORKER_NAME_MAX_LEN]
    omega
  · simp only [hname, htake]
  · simp only [hname]
    rw [List.getElem?_append_right (by rw [hlen]), hlen, Nat.sub_self,
      List.getElem?_replicate_of_lt (by omega)]
  · simp only [hname]
    exact hstr
  · intro hle
    simp only [hname]
    rw [hstr, List.take_of_length_le hle]

/-- C14, at a concrete input: the name `abc`, an output slot holding 0 and the allocation
returning address 9. -/
theorem C14_makeWorker_name_and_zero_fields_witness :
    (9 : Ptr) ≠ NULL
      ∧ ∃ w, worker_makeWorker 9 (some [Char.ofNat 97, Char.ofNat 98, Char.ofNat 99]) (some 0)
            = { slot := some 9, made := some w }
        ∧ w.name.length = WORKER_NAME_MAX_LEN
        ∧ w.name
            = (cstring [Char.ofNat 97, Char.ofNat 98, Char.ofNat 99]).take
                (min (cstring [Char.ofNat 97, Char.ofNat 98, Char.ofNat 99]).length 63)
              ++ List.replicate
                (64 - min (cstring [Char.ofNat 97, Char.ofNat 98, Char.ofNat 99]).length 63) NUL
        ∧ w.name[min (cstring [Char.ofNat 97, Char.ofNat 98, Char.ofNat 99]).length 63]?
            = some NUL
        ∧ cstring w.name = (cstring [Char.ofNat 97, Char.ofNat 98, Char.ofNat 99]).take 63
        ∧ ((cstring [Char.ofNat 97, Char.ofNat 98, Char.ofNat 99]).length ≤ 63 →
            cstring w.name = cstring [Char.ofNat 97, Char.ofNat 98, Char.ofNat 99])
        ∧ w.status = 0
        ∧ w.init = ⟨NULL, NULL⟩ ∧ w.run = ⟨NULL, NULL⟩ ∧ w.end_ = ⟨NULL, NULL⟩ :=
  ⟨by decide,
    C14_makeWorker_name_and_zero_fields 9 [Char.ofNat 97, Char.ofNat 98, Char.ofNat 99] 0
      (by decide)⟩

/-- C15: `worker_makeWorker` fails silently. With the name absent the output slot keeps the
value it had; with the output slot absent nothing is written; when the allocation fails the
output slot is set to null. In none of the three cases is a worker built, and the function
has no result through which an error could be reported. -/
theorem C15_makeWorker_fails_silently :
    (∀ malloc worker, worker_makeWorker malloc none worker = { slot := worker, made := none })
      ∧ (∀ malloc name, worker_makeWorker malloc name none = { slot := none, made := none })
      ∧ (∀ src old,
          worker_makeWorker NULL (some src) (some old) = { slot := some NULL, made := none }) := by
  refine ⟨fun _ _ => rfl, ?_, fun _ _ => rfl⟩
  intro malloc name
  cases name <;> rfl

/-! ### The run pass -/

theorem runLoop_eq (mem : WorkerMem) (l : NodePtr) :
    _workManagerHandler.runLoop mem l
      = (l.items.map fun item => worker_handleRun mem item).flatten := by
  induction l with
  | null => simp [_workManagerHandler.runLoop, NodePtr.items]
  | node item next ih => simp [_workManagerHandler.runLoop, NodePtr.items, ih]

theorem handleRun_filter_isCall (mem : WorkerMem) (item : Ptr) :
    (worker_handleRun mem item).filter Event.isCall = worker_handleRun mem item := by
  unfold worker_handleRun
  split_ifs <;> simp [Event.isCall]

theorem flatten_handleRun_filter_isCall (mem : WorkerMem) (xs : List Ptr) :
    ((xs.map fun item => worker_handleRun mem item).flatten).filter Event.isCall
      = (xs.map fun item => worker_handleRun mem item).flatten := by
  induction xs with
  | nil => simp
  | cons x xs ih => simp [List.filter_append, handleRun_filter_isCall, ih]

theorem flatten_handleRun_of_present (mem : WorkerMem) (xs : List Ptr)
    (h : ∀ w ∈ xs, w ≠ NULL ∧ (mem w).run.handler ≠ NULL) :
    (xs.map fun item => worker_handleRun mem item).flatten
      = xs.map fun w => Event.call .run (mem w).run.handler (mem w).run.args := by
  induction xs with
  | nil => simp
  | cons x xs ih =>
    have hx := h x (List.mem_cons_self _ _)
    have hone : worker_handleRun mem x
        = [Event.call .run (mem x).run.handler (mem x).run.args] := by
      simp [worker_handleRun, hx.1, hx.2]
    simp only [List.map_cons, List.flatten_cons, hone,
      ih (fun w hw => h w (List.mem_cons_of_mem _ hw)), List.singleton_append]

theorem addWorkers_bucket (ws : List Ptr) (p : Nat) (m : Manager)
    (hp : p < WORKERMANAGER_PRIORITY_NUM) :
    ∃ m1, (addWorkers ws p m).result = some m1
      ∧ m1.bucket p = m.bucket p ++ ws
      ∧ (∀ q, q ≠ p → m1._workersList q = m._workersList q)
      ∧ m1._pthreadList = m._pthreadList := by
  induction ws generalizing m with
  | nil => exact ⟨m, rfl, by simp, fun _ _ => rfl, rfl⟩
  | cons w ws ih =>
    have hp1 : ¬ p ≥ WORKERMANAGER_PRIORITY_NUM := Nat.not_le.mpr hp
    obtain ⟨m1, h1, h2, h3, h4⟩ := ih
      { m with
        _workersList :=
          Function.update m._workersList p
            (workerManager_addWorker.walk w (m._workersList p)) }
    refine ⟨m1, ?_, ?_, ?_, ?_⟩
    · simp only [addWorkers, workerManager_addWorker, hp1, if_false, if_true, Run.ok,
        Run.andThen]
      exact h1
    · rw [h2]
      simp [Manager.bucket, addWorker_walk_items]
    · intro q hq
      rw [h3 q hq]
      simp [Function.update, hq]
    · rw [h4]

/-- C13: one run pass of the thread of bucket `p` locks the bucket, makes the effect of
`worker_handleRun` on every node of the bucket's current list, once per node and in list
order, unlocks and sleeps. So after workers `ws` were registered in that order with
add-worker at priority `p` (none removed), the bucket holds its former workers followed by
`ws`, and the run pass calls the run handlers in that order: when the bucket was empty and
every worker of `ws` is present and has a run handler, the calls of the pass are exactly
those of `ws`, one each, in the order of registration. -/
theorem C13_run_pass_in_registration_order (mem : WorkerMem) (m : Manager) (p sleepTime : Nat)
    (ws : List Ptr) (hp : p < WORKERMANAGER_PRIORITY_NUM) :
    (∀ m0 : Manager,
        _workManagerHandler.runPass mem { workerList := p, sleepTime := sleepTime, mutex := p } m0
          = [Event.lock p] ++ ((m0.bucket p).map fun w => worker_handleRun mem w).flatten
              ++ [Event.unlock p, Event.usleep sleepTime])
      ∧ ∃ m1, (addWorkers ws p m).result = some m1
          ∧ m1.bucket p = m.bucket p ++ ws
          ∧ (_workManagerHandler.runPass mem
                { workerList := p, sleepTime := sleepTime, mutex := p } m1).filter Event.isCall
              = ((m.bucket p).map fun w => worker_handleRun mem w).flatten
                  ++ (ws.map fun w => worker_handleRun mem w).flatten
          ∧ (m.bucket p = [] → (∀ w ∈ ws, w ≠ NULL ∧ (mem w).run.handler ≠ NULL) →
              (_workManagerHandler.runPass mem
                  { workerList := p, sleepTime := sleepTime, mutex := p } m1).filter Event.isCall
                = ws.map fun w => Event.call .run (mem w).run.handler (mem w).run.args) := by
  have hpass : ∀ m0 : Manager,
      _workManagerHandler.runPass mem { workerList := p, sleepTime := sleepTime, mutex := p } m0
        = [Event.lock p] ++ ((m0.bucket p).map fun w => worker_handleRun mem w).flatten
            ++ [Event.unlock p, Event.usleep sleepTime] := by
    intro m0
    simp [_workManagerHandler.runPass, runLoop_eq, Manager.bucket]
  obtain ⟨m1, h1, h2, _, _⟩ := addWorkers_bucket ws p m hp
  have hcalls : (_workManagerHandler.runPass mem
        { workerList := p, sleepTime := sleepTime, mutex := p } m1).filter Event.isCall
      = ((m.bucket p).map fun w => worker_handleRun mem w).flatten
          ++ (ws.map fun w => worker_handleRun mem w).flatten := by
    rw [hpass m1, h2]
    simp only [List.filter_append, flatten_handleRun_filter_isCall, List.map_append,
      List.flatten_append]
    simp [Event.isCall]
  refine ⟨hpass, m1, h1, h2, hcalls, ?_⟩
  intro hempty hall
  rw [hcalls, hempty, flatten_handleRun_of_present mem ws hall]
  simp

/-- C13, at a concrete input: worker 7 registered twice at priority 2 of the manager at
program start. -/
theorem C13_run_pass_in_registration_order_witness :
    2 < WORKERMANAGER_PRIORITY_NUM
      ∧ (∀ m0 : Manager,
          _workManagerHandler.runPass oneWorkerMem
              { workerList := 2, sleepTime := 100000, mutex := 2 } m0
            = [Event.lock 2]
                ++ ((m0.bucket 2).map fun w => worker_handleRun oneWorkerMem w).flatten
                ++ [Event.unlock 2, Event.usleep 100000])
      ∧ ∃ m1, (addWorkers [7, 7] 2 emptyManager).result = some m1
          ∧ m1.bucket 2 = emptyManager.bucket 2 ++ [7, 7]
          ∧ (_workManagerHandler.runPass oneWorkerMem
                { workerList := 2, sleepTime := 100000, mutex := 2 } m1).filter Event.isCall
              = ((emptyManager.bucket 2).map fun w => worker_handleRun oneWorkerMem w).flatten
                  ++ (([7, 7] : List Ptr).map fun w =>
                        worker_handleRun oneWorkerMem w).flatten
          ∧ (emptyManager.bucket 2 = [] →
              (∀ w ∈ ([7, 7] : List Ptr),
                w ≠ NULL ∧ (oneWorkerMem w).run.handler ≠ NULL) →
              (_workManagerHandler.runPass oneWorkerMem
                  { workerList := 2, sleepTime := 100000, mutex := 2 } m1).filter Event.isCall
                = ([7, 7] : List Ptr).map fun w =>
                    Event.call .run (oneWorkerMem w).run.handler (oneWorkerMem w).run.args) :=
  ⟨by decide,
    C13_run_pass_in_registration_order oneWorkerMem emptyManager 2 100000 [7, 7]
      (by decide)⟩

/-! ### Facts about `workerManager_setPriorityListSleepTime` -/

theorem startedManager_started : startedManager.started := by
  intro i hi
  exact ⟨100000, by simp [startedManager, hi]⟩

/-- C16: with a priority `p` at or above the bucket count,
`workerManager_setPriorityListSleepTime(p, t)` returns (it does not fault, whether or not the
manager was initialised) with the manager state unchanged, so every bucket keeps its stored
sleep interval; it only prints a diagnostic. -/
theorem C16_setSleepTime_out_of_range_noop (m : Manager) (p t : Nat)
    (hp : WORKERMANAGER_PRIORITY_NUM ≤ p) :
    (workerManager_setPriorityListSleepTime p t m).result = some m
      ∧ (workerManager_setPriorityListSleepTime p t m).events = [Event.printf]
      ∧ ∀ m1, (workerManager_setPriorityListSleepTime p t m).result = some m1 →
          ∀ q, m1._pthreadList q = m._pthreadList q := by
  have h : workerManager_setPriorityListSleepTime p t m = Run.ok [Event.printf] m := by
    simp only [workerManager_setPriorityListSleepTime, ge_iff_le, hp, if_true]
  rw [h]
  refine ⟨rfl, rfl, ?_⟩
  intro m1 hm1 q
  simp only [Run.ok, Option.some.injEq] at hm1
  rw [← hm1]

/-- C16, at a concrete input: priority 10 on the manager as `workerManager_init` leaves it. -/
theorem C16_setSleepTime_out_of_range_noop_witness :
    WORKERMANAGER_PRIORITY_NUM ≤ 10
      ∧ (workerManager_setPriorityListSleepTime 10 5 startedManager).result = some startedManager
      ∧ (workerManager_setPriorityListSleepTime 10 5 startedManager).events = [Event.printf]
      ∧ ∀ m1, (workerManager_setPriorityListSleepTime 10 5 startedManager).result = some m1 →
          ∀ q, m1._pthreadList q = startedManager._pthreadList q :=
  ⟨by decide, C16_setSleepTime_out_of_range_noop startedManager 10 5 (by decide)⟩

/-- C17: on an initialised manager and with a valid priority `p`,
`workerManager_setPriorityListSleepTime(p, t)` returns, without a diagnostic, having set the
stored sleep interval of bucket `p` to exactly `t`; the thread records of all other buckets,
the worker lists of all buckets and the running flag are unchanged; and the next run pass of
the thread of bucket `p` ends with `usleep(t)`. -/
theorem C17_setSleepTime_sets_only_that_interval (mem : WorkerMem) (m : Manager) (p t : Nat)
    (hs : m.started) (hp : p < WORKERMANAGER_PRIORITY_NUM) :
    ∃ m1, workerManager_setPriorityListSleepTime p t m = Run.ok [] m1
      ∧ m1._pthreadList p = some { workerList := p, sleepTime := t, mutex := p }
      ∧ (∀ q, q ≠ p → m1._pthreadList q = m._pthreadList q)
      ∧ m1._workersList = m._workersList
      ∧ m1.workerManagerRunning = m.workerManagerRunning
      ∧ (_workManagerHandler.runPass mem
            { workerList := p, sleepTime := t, mutex := p } m1).getLast?
          = some (Event.usleep t)
      ∧ (m1.workerManagerRunning ≠ 0 →
          (Sys.step mem p { m := m1, pc := .runLoop } .thread).events.getLast?
            = some (Event.usleep t)) := by
  obtain ⟨st, hst⟩ := hs p hp
  have hp1 : ¬ p ≥ WORKERMANAGER_PRIORITY_NUM := Nat.not_le.mpr hp
  have hpass : ∀ m0 : Manager, (_workManagerHandler.runPass mem
      { workerList := p, sleepTime := t, mutex := p } m0).getLast? = some (Event.usleep t) := by
    intro m0
    have e : _workManagerHandler.runPass mem { workerList := p, sleepTime := t, mutex := p } m0
        = ([Event.lock p] ++ _workManagerHandler.runLoop mem (m0._workersList p)
            ++ [Event.unlock p]) ++ [Event.usleep t] := by
      simp [_workManagerHandler.runPass]
    rw [e, List.getLast?_concat]
  refine ⟨{ m with
      _pthreadList :=
        Function.update m._pthreadList p
          (some { workerList := p, sleepTime := t, mutex := p }) }, ?_, ?_, ?_, rfl, rfl,
    hpass _, ?_⟩
  · simp only [workerManager_setPriorityListSleepTime, hp1, if_false, hst]
  · simp
  · intro q hq
    simp [Function.update, hq]
  · intro hrun
    simp only [Sys.step, Function.update_same, _workManagerHandler.step]
    rw [if_pos hrun]
    exact hpass _

/-- C17, at a concrete input: interval 250 for priority 3 on the manager as
`workerManager_init` leaves it. -/
theorem C17_setSleepTime_sets_only_that_interval_witness :
    startedManager.started ∧ 3 < WORKERMANAGER_PRIORITY_NUM
      ∧ ∃ m1, workerManager_setPriorityListSleepTime 3 250 startedManager = Run.ok [] m1
        ∧ m1._pthreadList 3 = some { workerList := 3, sleepTime := 250, mutex := 3 }
        ∧ (∀ q, q ≠ 3 → m1._pthreadList q = startedManager._pthreadList q)
        ∧ m1._workersList = startedManager._workersList
        ∧ m1.workerManagerRunning = startedManager.workerManagerRunning
        ∧ (_workManagerHandler.runPass oneWorkerMem
              { workerList := 3, sleepTime := 250, mutex := 3 } m1).getLast?
            = some (Event.usleep 250)
        ∧ (m1.workerManagerRunning ≠ 0 →
            (Sys.step oneWorkerMem 3 { m := m1, pc := .runLoop } .thread).events.getLast?
              = some (Event.usleep 250)) :=
  ⟨startedManager_started, by decide,
    C17_setSleepTime_sets_only_that_interval oneWorkerMem startedManager 3 250
      startedManager_started (by decide)⟩

/-- C18: `workerManager_removeWorker(w)` makes no handler call, of an end handler or of any
other, on any manager state and whether or not `w` is found: its trace holds no call. -/
theorem C18_removeWorker_calls_no_handler (m : Manager) (w : Ptr) :
    (workerManager_removeWorker w m).events.filter Event.isCall = []
      ∧ ∀ phase handler args,
          Event.call phase handler args ∉ (workerManager_removeWorker w m).events := by
  refine ⟨?_, ?_⟩
  · rw [List.filter_eq_nil_iff]
    intro e he
    simp [removeWorker_no_call w m e he]
  · intro phase handler args hmem
    have := removeWorker_no_call w m _ hmem
    simp [Event.isCall] at this

/-! ### Facts about `workerManager_init` -/

theorem init_buckets_spec (alloc : Nat → Bool) (ps : List Nat) (m : Manager)
    (h : ∀ i ∈ ps, alloc i = true) :
    ∃ m1, workerManager_init.buckets alloc ps m
        = Run.ok ((ps.map fun i =>
            [Event.listWrite i, Event.mutexInit i, Event.threadCreate i]).flatten) m1
      ∧ m1.workerManagerRunning = m.workerManagerRunning
      ∧ (∀ i ∈ ps, m1._workersList i = .null
          ∧ m1._pthreadList i = some { workerList := i, sleepTime := 100000, mutex := i })
      ∧ (∀ i, i ∉ ps → m1._workersList i = m._workersList i
          ∧ m1._pthreadList i = m._pthreadList i) := by
  induction ps generalizing m with
  | nil => exact ⟨m, rfl, rfl, by simp, fun _ _ => ⟨rfl, rfl⟩⟩
  | cons p ps ih =>
    have hp : alloc p = true := h p (List.mem_cons_self _ _)
    obtain ⟨m1, h1, h2, h3, h4⟩ := ih
      { m with
        _workersList := Function.update m._workersList p .null,
        _pthreadList :=
          Function.update m._pthreadList p
            (some { workerList := p, sleepTime := 100000, mutex := p }) }
      (fun i hi => h i (List.mem_cons_of_mem _ hi))
    refine ⟨m1, ?_, h2, ?_, ?_⟩
    · simp only [workerManager_init.buckets, hp, if_true, Run.andThen, Run.ok, h1,
        List.map_cons, List.flatten_cons]
    · intro i hi
      by_cases hips : i ∈ ps
      · exact h3 i hips
      · have hip : i = p := by
          rcases List.mem_cons.mp hi with e | e
          · exact e
          · exact absurd e hips
        subst hip
        obtain ⟨e1, e2⟩ := h4 i hips
        rw [e1, e2]
        simp
    · intro i hi
      have hip : i ≠ p := fun e => hi (by rw [e]; exact List.mem_cons_self _ _)
      have hips : i ∉ ps := fun e => hi (List.mem_cons_of_mem _ e)
      obtain ⟨e1, e2⟩ := h4 i hips
      rw [e1, e2]
      simp [Function.update, hip]

theorem startedManager_reached :
    (workerManager_init (fun _ => true) emptyManager).result = some startedManager := by
  obtain ⟨m1, h1, h2, h3, h4⟩ := init_buckets_spec (fun _ => true)
    (List.range WORKERMANAGER_PRIORITY_NUM) { emptyManager with workerManagerRunning := 1 }
    (fun _ _ => rfl)
  have hm : m1 = startedManager := by
    cases m1 with
    | mk r wl pl =>
      simp only [startedManager, Manager.mk.injEq]
      refine ⟨h2, funext fun i => ?_, funext fun i => ?_⟩
      · by_cases hi : i < WORKERMANAGER_PRIORITY_NUM
        · exact (h3 i (List.mem_range.mpr hi)).1
        · exact (h4 i (fun e => hi (List.mem_range.mp e))).1
      · by_cases hi : i < WORKERMANAGER_PRIORITY_NUM
        · rw [if_pos hi]
          exact (h3 i (List.mem_range.mpr hi)).2
        · rw [if_neg hi]
          exact (h4 i (fun e => hi (List.mem_range.mp e))).2
  rw [workerManager_init, h1, hm]
  rfl

theorem init_buckets_fault (alloc : Nat → Bool) (ps : List Nat) (k : Nat) (rest : List Nat)
    (m : Manager) (h : ∀ i ∈ ps, alloc i = true) (hk : alloc k = false) :
    workerManager_init.buckets alloc (ps ++ k :: rest) m
      = Run.fault ((ps.map fun i =>
            [Event.listWrite i, Event.mutexInit i, Event.threadCreate i]).flatten
          ++ [Event.listWrite k, Event.mutexInit k]) := by
  induction ps generalizing m with
  | nil => simp [workerManager_init.buckets, hk]
  | cons p ps ih =>
    have hp : alloc p = true := h p (List.mem_cons_self _ _)
    have h1 := ih
      { m with
        _workersList := Function.update m._workersList p .null,
        _pthreadList :=
          Function.update m._pthreadList p
            (some { workerList := p, sleepTime := 100000, mutex := p }) }
      (fun i hi => h i (List.mem_cons_of_mem _ hi))
    rw [List.cons_append]
    simp only [workerManager_init.buckets, hp, if_true, Run.andThen, Run.ok]
    rw [h1]
    simp [Run.fault]

theorem range_split (n k : Nat) (hk : k < n) :
    List.range n = List.range k ++ k :: List.range' (k + 1) (n - k - 1) := by
  have h1 : n = ((n - k - 1) + 1) + k := by omega
  have h2 : List.range n = List.range' 0 (((n - k - 1) + 1) + k) := by
    rw [← h1, List.range_eq_range']
  rw [h2, ← List.range'_append_1, List.range_eq_range', List.range'_succ]
  simp

/-- C20: what `workerManager_init` does depends on its allocations, none of whose results
the code tests. When every allocation succeeds, whatever the bucket lists held before,
`workerManager_init` returns with the running flag set, every one of the 10 worker lists
empty and every bucket's sleep interval at 100000 microseconds; this holds already when the
thread of bucket `i` is created (the store into the list comes before the creation of the
thread), so a bootstrap pass made before any add-worker walks an empty list: it locks,
unlocks and makes no call. When the allocations of bucket `k` are the first to fail, the
call stops at the null dereference in the iteration of bucket `k`, after the reset of list
`k` and the initialisation of mutex `k`: it does not return, the interval of bucket `k` is
not set and its thread is not created, and no later bucket is touched, its list holding
what it held before. -/
theorem C20_init_resets_unless_malloc_fails (alloc : Nat → Bool) (mem : WorkerMem)
    (m : Manager) :
    ((∀ i, i < WORKERMANAGER_PRIORITY_NUM → alloc i = true) →
      (∃ m1, workerManager_init alloc m
            = Run.ok (((List.range WORKERMANAGER_PRIORITY_NUM).map fun i =>
                [Event.listWrite i, Event.mutexInit i, Event.threadCreate i]).flatten) m1
          ∧ m1.workerManagerRunning = 1
          ∧ (∀ i, i < WORKERMANAGER_PRIORITY_NUM → m1._workersList i = .null
              ∧ m1._pthreadList i = some { workerList := i, sleepTime := 100000, mutex := i })
          ∧ (∀ i, i < WORKERMANAGER_PRIORITY_NUM →
              _workManagerHandler.initPass mem
                  { workerList := i, sleepTime := 100000, mutex := i } m1
                = [Event.lock i, Event.unlock i])
          ∧ (∀ i, i < WORKERMANAGER_PRIORITY_NUM →
              Sys.step mem i { m := m1, pc := .bootstrap } .thread
                = Run.ok [Event.lock i, Event.unlock i] { m := m1, pc := .runLoop }))
        ∧ (∀ i, i < WORKERMANAGER_PRIORITY_NUM →
            ∃ mi, workerManager_init.buckets alloc (List.range (i + 1))
                  { m with workerManagerRunning := 1 }
                = Run.ok (((List.range i).map fun j =>
                      [Event.listWrite j, Event.mutexInit j, Event.threadCreate j]).flatten
                    ++ [Event.listWrite i, Event.mutexInit i, Event.threadCreate i]) mi
              ∧ mi._workersList i = .null
              ∧ mi._pthreadList i = some { workerList := i, sleepTime := 100000, mutex := i }
              ∧ _workManagerHandler.initPass mem
                  { workerList := i, sleepTime := 100000, mutex := i } mi
                = [Event.lock i, Event.unlock i]))
      ∧ (∀ k, k < WORKERMANAGER_PRIORITY_NUM → (∀ j, j < k → alloc j = true) →
          alloc k = false →
          workerManager_init alloc m
              = Run.fault (((List.range k).map fun j =>
                    [Event.listWrite j, Event.mutexInit j, Event.threadCreate j]).flatten
                  ++ [Event.listWrite k, Event.mutexInit k])
            ∧ (∃ mk, workerManager_init.buckets alloc (List.range k)
                    { m with workerManagerRunning := 1 }
                  = Run.ok (((List.range k).map fun j =>
                      [Event.listWrite j, Event.mutexInit j, Event.threadCreate j]).flatten) mk
                ∧ ∀ j, k ≤ j → mk._workersList j = m._workersList j
                    ∧ mk._pthreadList j = m._pthreadList j)
            ∧ (∀ j, k < j → Event.listWrite j ∉ (workerManager_init alloc m).events)
            ∧ Event.threadCreate k ∉ (workerManager_init alloc m).events) := by
  refine ⟨fun halloc => ⟨?_, ?_⟩, ?_⟩
  · obtain ⟨m1, h1, h2, h3, _⟩ := init_buckets_spec alloc
      (List.range WORKERMANAGER_PRIORITY_NUM) { m with workerManagerRunning := 1 }
      (fun i hi => halloc i (List.mem_range.mp hi))
    have hlist : ∀ i, i < WORKERMANAGER_PRIORITY_NUM → m1._workersList i = .null
        ∧ m1._pthreadList i = some { workerList := i, sleepTime := 100000, mutex := i } :=
      fun i hi => h3 i (List.mem_range.mpr hi)
    refine ⟨m1, h1, h2, hlist, ?_, ?_⟩
    · intro i hi
      simp [_workManagerHandler.initPass, (hlist i hi).1, _workManagerHandler.initLoop]
    · intro i hi
      have hrun : m1.workerManagerRunning ≠ 0 := by rw [h2]; exact Nat.one_ne_zero
      simp [Sys.step, (hlist i hi).2, _workManagerHandler.step, hrun,
        _workManagerHandler.initPass, (hlist i hi).1, _workManagerHandler.initLoop]
  · intro i hi
    obtain ⟨mi, h1, _, h3, _⟩ := init_buckets_spec alloc
      (List.range (i + 1)) { m with workerManagerRunning := 1 }
      (fun j hj => halloc j (lt_of_lt_of_le (List.mem_range.mp hj) hi))
    have hmem : i ∈ List.range (i + 1) := List.mem_range.mpr (Nat.lt_succ_self i)
    refine ⟨mi, ?_, (h3 i hmem).1, (h3 i hmem).2, ?_⟩
    · rw [h1]
      simp [List.range_succ]
    · simp [_workManagerHandler.initPass, (h3 i hmem).1, _workManagerHandler.initLoop]
  · intro k hk hbefore hfail
    have hrun : workerManager_init alloc m
        = Run.fault (((List.range k).map fun j =>
              [Event.listWrite j, Event.mutexInit j, Event.threadCreate j]).flatten
            ++ [Event.listWrite k, Event.mutexInit k]) := by
      rw [workerManager_init, range_split WORKERMANAGER_PRIORITY_NUM k hk]
      exact init_buckets_fault alloc (List.range k) k _ _
        (fun i hi => hbefore i (List.mem_range.mp hi)) hfail
    obtain ⟨mk, h1, _, _, h4⟩ := init_buckets_spec alloc (List.range k)
      { m with workerManagerRunning := 1 } (fun i hi => hbefore i (List.mem_range.mp hi))
    refine ⟨hrun, ⟨mk, h1, fun j hj => h4 j (fun e => ?_)⟩, ?_, ?_⟩
    · have := List.mem_range.mp e
      omega
    · intro j hj hmem
      rw [hrun] at hmem
      simp only [Run.fault, List.mem_append, List.mem_flatten, List.mem_map, List.mem_range,
        List.mem_cons, List.mem_singleton, List.not_mem_nil, or_false] at hmem
      rcases hmem with ⟨l, ⟨i, hi, rfl⟩, hl⟩ | hl | hl
      · simp only [List.mem_cons, List.mem_singleton, Event.listWrite.injEq,
          List.not_mem_nil, or_false] at hl
        rcases hl with hl | hl | hl
        · omega
        · exact Event.noConfusion hl
        · exact Event.noConfusion hl
      · have := Event.listWrite.inj hl
        omega
      · exact Event.noConfusion hl
    · intro hmem
      rw [hrun] at hmem
      simp only [Run.fault, List.mem_append, List.mem_flatten, List.mem_map, List.mem_range,
        List.mem_cons, List.mem_singleton, List.not_mem_nil, or_false] at hmem
      rcases hmem with ⟨l, ⟨i, hi, rfl⟩, hl⟩ | hl | hl
      · simp only [List.mem_cons, List.mem_singleton, Event.threadCreate.injEq,
          List.not_mem_nil, or_false] at hl
        rcases hl with hl | hl | hl
        · exact Event.noConfusion hl
        · exact Event.noConfusion hl
        · omega
      · exact Event.noConfusion hl
      · exact Event.noConfusion hl

/-- C20, at a concrete input: `workerManager_init` on a manager whose bucket 3 holds
worker 7. With the allocations of bucket 2 failing the call stops in the iteration of
bucket 2 and list 3 is never reset; with every allocation succeeding list 3 is empty and
interval 3 is 100000 afterwards. -/
theorem C20_init_resets_unless_malloc_fails_witness :
    onceRegistered.bucket 3 = [7]
      ∧ workerManager_init (fun i => decide (i ≠ 2)) onceRegistered
          = Run.fault [.listWrite 0, .mutexInit 0, .threadCreate 0,
              .listWrite 1, .mutexInit 1, .threadCreate 1, .listWrite 2, .mutexInit 2]
      ∧ Event.listWrite 3 ∉ (workerManager_init (fun i => decide (i ≠ 2)) onceRegistered).events
      ∧ (∃ mk, workerManager_init.buckets (fun i => decide (i ≠ 2)) (List.range 2)
              { onceRegistered with workerManagerRunning := 1 }
            = Run.ok (((List.range 2).map fun j =>
                [Event.listWrite j, Event.mutexInit j, Event.threadCreate j]).flatten) mk
          ∧ ∀ j, 2 ≤ j → mk._workersList j = onceRegistered._workersList j
              ∧ mk._pthreadList j = onceRegistered._pthreadList j)
      ∧ (workerManager_init (fun _ => true) onceRegistered).result.map
            (fun m1 => (m1.bucket 3, m1._pthreadList 3))
          = some ([], some { workerList := 3, sleepTime := 100000, mutex := 3 }) :=
  ⟨by decide, rfl,
    ((C20_init_resets_unless_malloc_fails (fun i => decide (i ≠ 2)) oneWorkerMem
      onceRegistered).2 2 (by decide) (by decide) (by decide)).2.2.1 3 (by decide),
    ((C20_init_resets_unless_malloc_fails (fun i => decide (i ≠ 2)) oneWorkerMem
      onceRegistered).2 2 (by decide) (by decide) (by decide)).2.1,
    by decide⟩

/-! ### Lists in the heap -/

theorem Seg_append (h : Heap) (xs ys : List Ptr) (s stop : Ptr) :
    Seg h s (xs ++ ys) stop ↔ ∃ mid, Seg h s xs mid ∧ Seg h mid ys stop := by
  induction xs generalizing s with
  | nil =>
    constructor
    · intro hs
      exact ⟨s, rfl, hs⟩
    · rintro ⟨mid, h1, h2⟩
      have e : s = mid := h1
      rw [e]
      exact h2
  | cons a xs ih =>
    constructor
    · rintro ⟨h1, h2, n, h3, h4⟩
      obtain ⟨mid, h5, h6⟩ := (ih n.next).mp h4
      exact ⟨mid, ⟨h1, h2, n, h3, h5⟩, h6⟩
    · rintro ⟨mid, ⟨h1, h2, n, h3, h5⟩, h6⟩
      exact ⟨h1, h2, n, h3, (ih n.next).mpr ⟨mid, h5, h6⟩⟩

theorem Seg_update (h : Heap) (b : Ptr) (v : Option Node_t) (xs : List Ptr) (s stop : Ptr)
    (hb : b ∉ xs) : Seg (Function.update h b v) s xs stop ↔ Seg h s xs stop := by
  induction xs generalizing s with
  | nil => exact Iff.rfl
  | cons a xs ih =>
    have hab : a ≠ b := fun e => hb (by rw [e]; exact List.mem_cons_self _ _)
    have hbx : b ∉ xs := fun e => hb (List.mem_cons_of_mem _ e)
    simp only [Seg, Function.update_noteq hab, ih _ hbx]

theorem Seg_mem (h : Heap) (xs : List Ptr) (s stop a : Ptr) (hs : Seg h s xs stop)
    (ha : a ∈ xs) : a ≠ NULL ∧ ∃ n, h a = some n := by
  induction xs generalizing s with
  | nil => simp at ha
  | cons x xs ih =>
    obtain ⟨_, h2, n, h3, h4⟩ := hs
    rcases List.mem_cons.mp ha with e | e
    · rw [e]
      exact ⟨h2, n, h3⟩
    · exact ih n.next h4 e

theorem Seg_null_start (h : Heap) (xs : List Ptr) (hs : Seg h NULL xs NULL) : xs = [] := by
  cases xs with
  | nil => rfl
  | cons a xs =>
    obtain ⟨h1, h2, _⟩ := hs
    exact absurd h1.symm h2

theorem Seg_functional (h : Heap) (xs ys : List Ptr) (s : Ptr) (hx : Seg h s xs NULL)
    (hy : Seg h s ys NULL) : xs = ys := by
  induction xs generalizing s ys with
  | nil =>
    have e : s = NULL := hx
    rw [e] at hy
    exact (Seg_null_start h ys hy).symm
  | cons a xs ih =>
    obtain ⟨h1, h2, n, h3, h4⟩ := hx
    cases ys with
    | nil =>
      have e : s = NULL := hy
      exact absurd (h1.symm.trans e) h2
    | cons b ys =>
      obtain ⟨k1, _, m, k3, k4⟩ := hy
      have hab : a = b := h1.symm.trans k1
      subst hab
      rw [h3] at k3
      have hnm : n = m := Option.some.inj k3
      subst hnm
      rw [ih ys n.next h4 k4]

theorem Seg_nodup (h : Heap) (xs : List Ptr) (s : Ptr) (hs : Seg h s xs NULL) : xs.Nodup := by
  induction xs generalizing s with
  | nil => exact List.nodup_nil
  | cons a xs ih =>
    obtain ⟨_, _, n, h3, h4⟩ := hs
    refine List.nodup_cons.mpr ⟨?_, ih n.next h4⟩
    intro ha
    obtain ⟨p, q, e⟩ := List.append_of_mem ha
    rw [e] at h4
    obtain ⟨mid, _, k2⟩ := (Seg_append h p (a :: q) n.next NULL).mp h4
    obtain ⟨_, _, m, k3, k4⟩ := k2
    rw [h3] at k3
    have hnm : n = m := Option.some.inj k3
    subst hnm
    have hq := Seg_functional h _ _ n.next h4 k4
    have hlen := congrArg List.length hq
    simp at hlen
    omega

theorem SlotAt.read {h : Heap} {head : Ptr} {slot : Slot} {pre : List Ptr} {v : Ptr}
    (hs : SlotAt h head slot pre v) : readSlot h head slot = some v := by
  rcases hs with ⟨e1, _, e3⟩ | ⟨pre0, p, n, e1, _, _, e3, e4, _, _⟩
  · rw [e1, ← e3]
    rfl
  · rw [e1]
    simp [readSlot, e3, e4]

theorem SlotAt.seg {h : Heap} {head : Ptr} {slot : Slot} {pre : List Ptr} {v : Ptr}
    (hs : SlotAt h head slot pre v) : Seg h head pre v := by
  rcases hs with ⟨_, e2, e3⟩ | ⟨pre0, p, n, _, e2, e0, e3, e4, e5, _⟩
  · rw [e2]
    exact e3
  · rw [e2]
    exact (Seg_append h pre0 [p] head v).mpr ⟨p, e5, rfl, e0, n, e3, e4⟩

theorem SlotAt.valid {h : Heap} {head : Ptr} {slot : Slot} {pre : List Ptr} {v : Ptr}
    (hs : SlotAt h head slot pre v) : slot.valid pre := by
  rcases hs with ⟨e1, _, _⟩ | ⟨pre0, p, n, e1, e2, _⟩
  · rw [e1]
    trivial
  · rw [e1, e2]
    simp [Slot.valid]

theorem Slot.valid_append {slot : Slot} {pre : List Ptr} (post : List Ptr)
    (hs : slot.valid pre) : slot.valid (pre ++ post) := by
  cases slot with
  | head => trivial
  | next a => exact List.mem_append_left _ hs

theorem slotAt_of_valid (h : Heap) (head : Ptr) (addrs : List Ptr) (slot : Slot)
    (hc : Chain h head addrs) (hv : slot.valid addrs) :
    ∃ pre post v, addrs = pre ++ post ∧ SlotAt h head slot pre v ∧ Seg h v post NULL := by
  cases slot with
  | head => exact ⟨[], addrs, head, rfl, Or.inl ⟨rfl, rfl, rfl⟩, hc⟩
  | next p =>
    obtain ⟨pre0, post, e⟩ := List.append_of_mem hv
    have hnd : (pre0 ++ p :: post).Nodup := e ▸ Seg_nodup h addrs head hc
    have hp : p ∉ pre0 := by
      intro hmem
      have := List.disjoint_of_nodup_append hnd hmem (List.mem_cons_self _ _)
      exact this
    rw [e] at hc
    obtain ⟨mid, h1, h2⟩ := (Seg_append h pre0 (p :: post) head NULL).mp hc
    obtain ⟨k1, k2, n, k3, k4⟩ := h2
    rw [k1] at h1
    refine ⟨pre0 ++ [p], post, n.next, ?_, Or.inr ⟨pre0, p, n, rfl, rfl, k2, k3, rfl, h1, hp⟩, k4⟩
    rw [e]
    simp

theorem SlotAt_update {h : Heap} {head : Ptr} {slot : Slot} {pre : List Ptr} {v : Ptr}
    (b : Ptr) (x : Option Node_t) (hb : b ∉ pre) (hs : SlotAt h head slot pre v) :
    SlotAt (Function.update h b x) head slot pre v := by
  rcases hs with ⟨e1, e2, e3⟩ | ⟨pre0, p, n, e1, e2, e0, e3, e4, e5, e6⟩
  · exact Or.inl ⟨e1, e2, e3⟩
  · have hpb : p ≠ b := fun e => hb (by rw [e2, e]; simp)
    have hb0 : b ∉ pre0 := fun e => hb (by rw [e2]; exact List.mem_append_left _ e)
    refine Or.inr ⟨pre0, p, n, e1, e2, e0, ?_, e4, (Seg_update h b x pre0 head p hb0).mpr e5, e6⟩
    rw [Function.update_noteq hpb]
    exact e3

theorem write_slotAt (sh : Shared) (slot : Slot) (pre : List Ptr) (v w : Ptr)
    (hs : SlotAt sh.heap sh.head slot pre v) :
    ∃ sh1, sh.write w slot = some sh1
      ∧ sh1.owner = sh.owner ∧ sh1.brk = sh.brk ∧ sh1.health = sh.health
      ∧ SlotAt sh1.heap sh1.head slot pre w
      ∧ (∀ a, a ∉ pre → sh1.heap a = sh.heap a)
      ∧ (∀ a, sh1.heap a ≠ none ↔ sh.heap a ≠ none)
      ∧ (∀ xs s stop, (∀ x ∈ xs, x ∉ pre) →
          (Seg sh1.heap s xs stop ↔ Seg sh.heap s xs stop)) := by
  rcases hs with ⟨e1, e2, _⟩ | ⟨pre0, p, n, e1, e2, e0, e3, _, e5, e6⟩
  · subst e1
    exact ⟨{ sh with head := w }, rfl, rfl, rfl, rfl, Or.inl ⟨rfl, e2, rfl⟩,
      fun _ _ => rfl, fun _ => Iff.rfl, fun _ _ _ _ => Iff.rfl⟩
  · subst e1
    refine ⟨{ sh with heap := Function.update sh.heap p (some { n with next := w }) },
      by simp [Shared.write, e3], rfl, rfl, rfl, ?_, ?_, ?_, ?_⟩
    · refine Or.inr ⟨pre0, p, { n with next := w }, rfl, e2, e0, by simp, rfl,
        (Seg_update sh.heap p _ pre0 sh.head p e6).mpr e5, e6⟩
    · intro a ha
      have hap : a ≠ p := fun e => ha (by rw [e2, e]; simp)
      simp [Function.update_noteq hap]
    · intro a
      by_cases hap : a = p
      · subst hap
        simp [e3]
      · simp [Function.update_noteq hap]
    · intro xs s stop hx
      have hp : p ∉ xs := fun e => hx p e (by rw [e2]; simp)
      exact Seg_update sh.heap p _ xs s stop hp

theorem Seg_start_of_ne_null (h : Heap) (v : Ptr) (post : List Ptr) (hs : Seg h v post NULL)
    (hv : v ≠ NULL) :
    ∃ rest n, post = v :: rest ∧ h v = some n ∧ Seg h n.next rest NULL := by
  cases post with
  | nil => exact absurd hs hv
  | cons a rest =>
    obtain ⟨h1, _, n, h3, h4⟩ := hs
    subst h1
    exact ⟨rest, n, rfl, h3, h4⟩

theorem Slot.valid_of_follows {addrs : List Ptr} {slot : Slot} {prev : Ptr}
    (hf : slot.follows addrs prev) : slot.valid addrs := by
  rcases hf with ⟨e, _⟩ | ⟨e, hp⟩
  · rw [e]
    trivial
  · rw [e]
    exact hp

theorem readSlot_update (h : Heap) (head : Ptr) (slot : Slot) (pre : List Ptr) (b : Ptr)
    (x : Option Node_t) (hv : slot.valid pre) (hb : b ∉ pre) :
    readSlot (Function.update h b x) head slot = readSlot h head slot := by
  cases slot with
  | head => rfl
  | next p =>
    have hpb : p ≠ b := fun e => hb (e ▸ hv)
    simp [readSlot, Function.update_noteq hpb]

theorem Prog.sound_of_not_inCS (prog : Prog) (h : Heap) (head : Ptr) (addrs : List Ptr)
    (hn : prog.inCS = false) : prog.sound h head addrs := by
  cases prog with
  | adder w pc => cases pc <;> trivial
  | remover w pc => cases pc <;> trivial
  | bucketThread pc => cases pc <;> trivial

theorem Prog.step_outside (t : Nat) (malloc : Option Node_t) (sh : Shared) (prog : Prog)
    (hn : prog.inCS = false) :
    ((prog.step t malloc sh).1 = sh ∧ (prog.step t malloc sh).2.inCS = false
        ∧ (prog.step t malloc sh).2.added = prog.added
        ∧ (prog.step t malloc sh).2.removed = prog.removed)
      ∨ (sh.owner = none ∧ (prog.step t malloc sh).1 = { sh with owner := some t }
          ∧ (prog.step t malloc sh).2.inCS = true
          ∧ (prog.step t malloc sh).2.added = prog.added
          ∧ (prog.step t malloc sh).2.removed = prog.removed
          ∧ ∀ addrs, Chain sh.heap sh.head addrs →
              (prog.step t malloc sh).2.sound sh.heap sh.head addrs) := by
  cases prog with
  | adder w pc =>
    cases pc with
    | lock =>
      cases ho : sh.owner with
      | none =>
        refine Or.inr ⟨rfl, ?_, ?_, ?_, ?_, ?_⟩ <;>
          simp [Prog.step, AddPc.step, ho, Prog.inCS, Prog.added, Prog.removed, Prog.sound,
            Slot.valid]
      | some o =>
        refine Or.inl ⟨?_, ?_, ?_, ?_⟩ <;>
          simp [Prog.step, AddPc.step, ho, Prog.inCS, Prog.added, Prog.removed]
    | done =>
      refine Or.inl ⟨?_, ?_, ?_, ?_⟩ <;>
        simp [Prog.step, AddPc.step, Prog.inCS, Prog.added, Prog.removed]
    | test slot => simp [Prog.inCS] at hn
    | alloc slot => simp [Prog.inCS] at hn
    | setItem slot => simp [Prog.inCS] at hn
    | setNext slot => simp [Prog.inCS] at hn
    | unlock => simp [Prog.inCS] at hn
  | remover w pc =>
    cases pc with
    | lock =>
      cases ho : sh.owner with
      | none =>
        refine Or.inr ⟨rfl, ?_, ?_, ?_, ?_, ?_⟩ <;>
          simp [Prog.step, RemovePc.step, ho, Prog.inCS, Prog.added, Prog.removed, Prog.sound,
            Slot.follows]
      | some o =>
        refine Or.inl ⟨?_, ?_, ?_, ?_⟩ <;>
          simp [Prog.step, RemovePc.step, ho, Prog.inCS, Prog.added, Prog.removed]
    | done found =>
      refine Or.inl ⟨?_, ?_, ?_, ?_⟩ <;>
        simp [Prog.step, RemovePc.step, Prog.inCS, Prog.added, Prog.removed]
    | test slot prev => simp [Prog.inCS] at hn
    | cmp slot prev => simp [Prog.inCS] at hn
    | unlink slot prev => simp [Prog.inCS] at hn
    | free d => simp [Prog.inCS] at hn
    | unlock found => simp [Prog.inCS] at hn
  | bucketThread pc =>
    cases pc with
    | check phase =>
      cases phase <;> by_cases hr : sh.workerManagerRunning ≠ 0 <;>
        (refine Or.inl ⟨?_, ?_, ?_, ?_⟩ <;>
          simp [Prog.step, PassPc.step, hr, Prog.inCS, Prog.added, Prog.removed])
    | lock phase =>
      cases ho : sh.owner with
      | none =>
        refine Or.inr ⟨rfl, ?_, ?_, ?_, ?_, ?_⟩ <;>
          simp [Prog.step, PassPc.step, ho, Prog.inCS, Prog.added, Prog.removed, Prog.sound,
            Slot.valid]
      | some o =>
        refine Or.inl ⟨?_, ?_, ?_, ?_⟩ <;>
          simp [Prog.step, PassPc.step, ho, Prog.inCS, Prog.added, Prog.removed]
    | sleep =>
      refine Or.inl ⟨?_, ?_, ?_, ?_⟩ <;>
        simp [Prog.step, PassPc.step, Prog.inCS, Prog.added, Prog.removed]
    | done =>
      refine Or.inl ⟨?_, ?_, ?_, ?_⟩ <;>
        simp [Prog.step, PassPc.step, Prog.inCS, Prog.added, Prog.removed]
    | walk phase slot => simp [Prog.inCS] at hn
    | unlock phase => simp [Prog.inCS] at hn

theorem Inside_same (t : Nat) (addrs : List Ptr) (prog prog1 : Prog) (sh : Shared)
    (hok : sh.health = .ok) (hbrk : sh.brk ≠ NULL)
    (hbound : ∀ a, sh.heap a ≠ none → a < sh.brk) (how : sh.owner = some t)
    (hin1 : prog1.inCS = true) (hs1 : prog1.sound sh.heap sh.head addrs)
    (hadd : prog1.added = prog.added) (hrem : prog1.removed = prog.removed) :
    Inside t addrs prog sh prog1 := by
  refine ⟨by rw [hok]; decide, hbrk, hbound, addrs, Or.inl ⟨how, hin1, hs1⟩, ?_⟩
  rw [hadd, hrem]

theorem Inside_release (t : Nat) (addrs : List Ptr) (prog prog1 : Prog) (sh : Shared)
    (hok : sh.health = .ok) (hbrk : sh.brk ≠ NULL)
    (hbound : ∀ a, sh.heap a ≠ none → a < sh.brk)
    (hc : Chain sh.heap sh.head addrs) (hin1 : prog1.inCS = false)
    (hadd : prog1.added = prog.added) (hrem : prog1.removed = prog.removed) :
    Inside t addrs prog { sh with owner := none } prog1 := by
  refine ⟨?_, hbrk, hbound, addrs, Or.inr ⟨rfl, hin1, hc⟩, ?_⟩
  · show sh.health ≠ .corrupted
    rw [hok]
    decide
  · rw [hadd, hrem]

theorem adder_step_inside (t : Nat) (malloc : Option Node_t) (sh : Shared)
    (addrs : List Ptr) (w : Ptr) (pc : AddPc) (hok : sh.health = .ok) (hbrk : sh.brk ≠ NULL)
    (hbound : ∀ a, sh.heap a ≠ none → a < sh.brk) (how : sh.owner = some t)
    (hin : (Prog.adder w pc).inCS = true)
    (hs : (Prog.adder w pc).sound sh.heap sh.head addrs) :
    Inside t addrs (.adder w pc) ((Prog.adder w pc).step t malloc sh).1
      ((Prog.adder w pc).step t malloc sh).2 := by
  cases pc with
  | lock => simp [Prog.inCS] at hin
  | done => simp [Prog.inCS] at hin
  | test slot =>
    obtain ⟨hc, hv⟩ := hs
    obtain ⟨pre, post, v, e, hsl, hpost⟩ := slotAt_of_valid sh.heap sh.head addrs slot hc hv
    have hread : sh.read slot = some v := hsl.read
    by_cases hv0 : v ≠ NULL
    · obtain ⟨rest, n, e2, _, _⟩ := Seg_start_of_ne_null sh.heap v post hpost hv0
      have hmem : v ∈ addrs := by rw [e, e2]; simp
      simp only [Prog.step, AddPc.step, hread, if_pos hv0]
      exact Inside_same t addrs _ _ sh hok hbrk hbound how rfl ⟨hc, hmem⟩ rfl rfl
    · have hv1 : v = NULL := not_not.mp hv0
      simp only [Prog.step, AddPc.step, hread, if_neg hv0]
      refine Inside_same t addrs _ _ sh hok hbrk hbound how rfl ⟨hc, hv, ?_⟩ rfl rfl
      rw [← hv1]
      exact hsl.read
  | alloc slot =>
    obtain ⟨hc, hv, hnull⟩ := hs
    cases malloc with
    | none =>
      simp only [Prog.step, AddPc.step]
      exact ⟨by show Health.crashed ≠ Health.corrupted; decide, hbrk, hbound, addrs,
        Or.inl ⟨how, rfl, hc, hv, hnull⟩, rfl⟩
    | some block =>
      obtain ⟨pre, post, v, e, hsl, hpost⟩ := slotAt_of_valid sh.heap sh.head addrs slot hc hv
      have hv0 : v = NULL := Option.some.inj (hsl.read.symm.trans hnull)
      rw [hv0] at hpost hsl
      have hpost0 : post = [] := Seg_null_start sh.heap post hpost
      have hpre : addrs = pre := by rw [e, hpost0]; simp
      have hfresh : sh.brk ∉ pre := by
        intro hmem
        obtain ⟨_, n, hn⟩ := Seg_mem sh.heap pre sh.head NULL sh.brk hsl.seg hmem
        exact Nat.lt_irrefl _ (hbound sh.brk (by rw [hn]; simp))
      obtain ⟨sh1, hw, ho1, hb1, hh1, hsl1, _, halloc1, _⟩ := write_slotAt
        { sh with heap := Function.update sh.heap sh.brk (some block), brk := sh.brk + 1 }
        slot pre NULL sh.brk (SlotAt_update sh.brk (some block) hfresh hsl)
      simp only [Prog.step, AddPc.step, hw]
      refine ⟨by rw [hh1]; show sh.health ≠ .corrupted; rw [hok]; decide,
        by rw [hb1]; exact Nat.succ_ne_zero _, ?_, pre ++ [sh.brk],
        Or.inl ⟨ho1.trans how, rfl, pre, sh.brk, rfl, hsl1.seg, hfresh, hbrk, ?_, hsl1.valid,
          hsl1.read⟩, ?_⟩
      · intro a ha
        rw [hb1]
        have ha1 := (halloc1 a).mp ha
        by_cases hab : a = sh.brk
        · rw [hab]
          exact Nat.lt_succ_self _
        · have : sh.heap a ≠ none := by
            simpa [Function.update_noteq hab] using ha1
          exact Nat.lt_succ_of_lt (hbound a this)
      · rw [halloc1]
        simp
      · rw [hpre]
        simp [Prog.added, Prog.removed]
  | setItem slot =>
    obtain ⟨pre, a, e, hseg, hap, ha0, hal, hv, hread⟩ := hs
    have hread1 : sh.read slot = some a := hread
    cases hn : sh.heap a with
    | none => exact absurd hn hal
    | some n =>
      simp only [Prog.step, AddPc.step, hread1, hn]
      refine ⟨by show sh.health ≠ .corrupted; rw [hok]; decide, hbrk, ?_, addrs,
        Or.inl ⟨how, rfl, pre, a, e, (Seg_update sh.heap a _ pre sh.head a hap).mpr hseg, hap,
          ha0, by simp, hv, ?_⟩, rfl⟩
      · intro b hb
        by_cases hba : b = a
        · rw [hba]
          exact hbound a hal
        · exact hbound b (by simpa [Function.update_noteq hba] using hb)
      · show readSlot (Function.update sh.heap a _) sh.head slot = some a
        rw [readSlot_update sh.heap sh.head slot pre a _ hv hap]
        exact hread
  | setNext slot =>
    obtain ⟨pre, a, e, hseg, hap, ha0, hal, hv, hread⟩ := hs
    have hread1 : sh.read slot = some a := hread
    cases hn : sh.heap a with
    | none => exact absurd hn hal
    | some n =>
      simp only [Prog.step, AddPc.step, hread1, hn]
      refine ⟨by show sh.health ≠ .corrupted; rw [hok]; decide, hbrk, ?_, addrs,
        Or.inl ⟨how, rfl, ?_⟩, rfl⟩
      · intro b hb
        by_cases hba : b = a
        · rw [hba]
          exact hbound a hal
        · exact hbound b (by simpa [Function.update_noteq hba] using hb)
      · show Chain (Function.update sh.heap a _) sh.head addrs
        rw [e]
        exact (Seg_append _ pre [a] sh.head NULL).mpr
          ⟨a, (Seg_update sh.heap a _ pre sh.head a hap).mpr hseg, rfl, ha0,
            { n with next := NULL }, by simp, rfl⟩
  | unlock =>
    simp only [Prog.step, AddPc.step]
    exact Inside_release t addrs _ _ sh hok hbrk hbound hs rfl rfl rfl

theorem remover_step_inside (t : Nat) (malloc : Option Node_t) (sh : Shared)
    (addrs : List Ptr) (w : Ptr) (pc : RemovePc) (hok : sh.health = .ok)
    (hbrk : sh.brk ≠ NULL) (hbound : ∀ a, sh.heap a ≠ none → a < sh.brk)
    (how : sh.owner = some t) (hin : (Prog.remover w pc).inCS = true)
    (hs : (Prog.remover w pc).sound sh.heap sh.head addrs) :
    Inside t addrs (.remover w pc) ((Prog.remover w pc).step t malloc sh).1
      ((Prog.remover w pc).step t malloc sh).2 := by
  cases pc with
  | lock => simp [Prog.inCS] at hin
  | done found => simp [Prog.inCS] at hin
  | test slot prev =>
    obtain ⟨hc, hf⟩ := hs
    obtain ⟨pre, post, v, e, hsl, hpost⟩ :=
      slotAt_of_valid sh.heap sh.head addrs slot hc (Slot.valid_of_follows hf)
    have hread : sh.read slot = some v := hsl.read
    by_cases hv0 : v ≠ NULL
    · simp only [Prog.step, RemovePc.step, hread, if_pos hv0]
      exact Inside_same t addrs _ _ sh hok hbrk hbound how rfl ⟨hc, hf, v, hsl.read, hv0⟩
        rfl rfl
    · simp only [Prog.step, RemovePc.step, hread, if_neg hv0]
      exact Inside_same t addrs _ _ sh hok hbrk hbound how rfl hc rfl rfl
  | cmp slot prev =>
    obtain ⟨hc, hf, v0, hr0, hv0⟩ := hs
    obtain ⟨pre, post, v, e, hsl, hpost⟩ :=
      slotAt_of_valid sh.heap sh.head addrs slot hc (Slot.valid_of_follows hf)
    have hvv : v = v0 := Option.some.inj (hsl.read.symm.trans hr0)
    subst hvv
    have hread : sh.read slot = some v := hsl.read
    obtain ⟨rest, n, e2, hn, _⟩ := Seg_start_of_ne_null sh.heap v post hpost hv0
    have hmem : v ∈ addrs := by rw [e, e2]; simp
    by_cases hit : n.item = w
    · simp only [Prog.step, RemovePc.step, hread, hn, if_pos hit]
      exact Inside_same t addrs _ _ sh hok hbrk hbound how rfl ⟨hc, hf, v, hsl.read, hv0⟩
        rfl rfl
    · simp only [Prog.step, RemovePc.step, hread, hn, if_neg hit]
      exact Inside_same t addrs _ _ sh hok hbrk hbound how rfl ⟨hc, Or.inr ⟨rfl, hmem⟩⟩
        rfl rfl
  | unlink slot prev =>
    obtain ⟨hc, hf, v0, hr0, hv0⟩ := hs
    obtain ⟨pre, post, d, e, hsl, hpost⟩ :=
      slotAt_of_valid sh.heap sh.head addrs slot hc (Slot.valid_of_follows hf)
    have hvv : d = v0 := Option.some.inj (hsl.read.symm.trans hr0)
    subst hvv
    have hread : sh.read slot = some d := hsl.read
    obtain ⟨rest, n, e2, hn, hrest⟩ := Seg_start_of_ne_null sh.heap d post hpost hv0
    have htarget : (if prev ≠ NULL then Slot.next prev else Slot.head) = slot := by
      rcases hf with ⟨e3, e4⟩ | ⟨e3, e4⟩
      · rw [e3, e4]
        simp
      · have hp0 : prev ≠ NULL := (Seg_mem sh.heap addrs sh.head NULL prev hc e4).1
        rw [e3, if_pos hp0]
    have hnd : (pre ++ d :: rest).Nodup := by
      have := Seg_nodup sh.heap addrs sh.head hc
      rw [e, e2] at this
      exact this
    have hdis : ∀ x ∈ rest, x ∉ pre := by
      intro x hx hxp
      exact List.disjoint_of_nodup_append hnd hxp (List.mem_cons_of_mem _ hx)
    have hdpre : d ∉ pre := fun hx =>
      List.disjoint_of_nodup_append hnd hx (List.mem_cons_self _ _)
    have hdrest : d ∉ rest := (List.nodup_cons.mp (List.Nodup.of_append_right hnd)).1
    obtain ⟨sh1, hw, ho1, hb1, hh1, hsl1, hsame, halloc1, hframe⟩ :=
      write_slotAt sh slot pre d n.next hsl
    simp only [Prog.step, RemovePc.step, hread, hn, htarget, hw]
    refine ⟨by rw [hh1, hok]; decide, by rw [hb1]; exact hbrk, ?_, pre ++ rest,
      Or.inl ⟨ho1.trans how, rfl, ?_, ?_, ?_⟩, ?_⟩
    · intro a ha
      rw [hb1]
      exact hbound a ((halloc1 a).mp ha)
    · exact (Seg_append sh1.heap pre rest sh1.head NULL).mpr
        ⟨n.next, hsl1.seg, (hframe rest n.next NULL hdis).mpr hrest⟩
    · intro hmem
      rcases List.mem_append.mp hmem with h1 | h1
      · exact hdpre h1
      · exact hdrest h1
    · rw [halloc1, hn]
      simp
    · rw [e, e2]
      simp [Prog.added, Prog.removed]
      omega
  | free d =>
    obtain ⟨hc, hd, hal⟩ := hs
    cases hn : sh.heap d with
    | none => exact absurd hn hal
    | some n =>
      simp only [Prog.step, RemovePc.step, hn]
      refine ⟨by show sh.health ≠ .corrupted; rw [hok]; decide, hbrk, ?_, addrs,
        Or.inl ⟨how, rfl, (Seg_update sh.heap d none addrs sh.head NULL hd).mpr hc⟩, rfl⟩
      intro b hb
      by_cases hbd : b = d
      · rw [hbd] at hb
        simp at hb
      · exact hbound b (by simpa [Function.update_noteq hbd] using hb)
  | unlock found =>
    simp only [Prog.step, RemovePc.step]
    refine Inside_release t addrs _ _ sh hok hbrk hbound hs rfl rfl ?_
    cases found <;> rfl

theorem bucketThread_step_inside (t : Nat) (malloc : Option Node_t) (sh : Shared)
    (addrs : List Ptr) (pc : PassPc) (hok : sh.health = .ok) (hbrk : sh.brk ≠ NULL)
    (hbound : ∀ a, sh.heap a ≠ none → a < sh.brk) (how : sh.owner = some t)
    (hin : (Prog.bucketThread pc).inCS = true)
    (hs : (Prog.bucketThread pc).sound sh.heap sh.head addrs) :
    Inside t addrs (.bucketThread pc) ((Prog.bucketThread pc).step t malloc sh).1
      ((Prog.bucketThread pc).step t malloc sh).2 := by
  cases pc with
  | check phase => simp [Prog.inCS] at hin
  | lock phase => simp [Prog.inCS] at hin
  | sleep => simp [Prog.inCS] at hin
  | done => simp [Prog.inCS] at hin
  | walk phase slot =>
    obtain ⟨hc, hv⟩ := hs
    obtain ⟨pre, post, v, e, hsl, hpost⟩ := slotAt_of_valid sh.heap sh.head addrs slot hc hv
    have hread : sh.read slot = some v := hsl.read
    by_cases hv0 : v ≠ NULL
    · obtain ⟨rest, n, e2, hn, _⟩ := Seg_start_of_ne_null sh.heap v post hpost hv0
      have hmem : v ∈ addrs := by rw [e, e2]; simp
      simp only [Prog.step, PassPc.step, hread, if_pos hv0, hn]
      exact Inside_same t addrs _ _ sh hok hbrk hbound how rfl ⟨hc, hmem⟩ rfl rfl
    · simp only [Prog.step, PassPc.step, hread, if_neg hv0]
      exact Inside_same t addrs _ _ sh hok hbrk hbound how rfl hc rfl rfl
  | unlock phase =>
    cases phase <;> simp only [Prog.step, PassPc.step] <;>
      exact Inside_release t addrs _ _ sh hok hbrk hbound hs rfl rfl rfl

theorem Prog.step_inside (t : Nat) (malloc : Option Node_t) (sh : Shared) (addrs : List Ptr)
    (prog : Prog) (hok : sh.health = .ok) (hbrk : sh.brk ≠ NULL)
    (hbound : ∀ a, sh.heap a ≠ none → a < sh.brk) (how : sh.owner = some t)
    (hin : prog.inCS = true) (hs : prog.sound sh.heap sh.head addrs) :
    Inside t addrs prog (prog.step t malloc sh).1 (prog.step t malloc sh).2 := by
  cases prog with
  | adder w pc => exact adder_step_inside t malloc sh addrs w pc hok hbrk hbound how hin hs
  | remover w pc => exact remover_step_inside t malloc sh addrs w pc hok hbrk hbound how hin hs
  | bucketThread pc =>
    exact bucketThread_step_inside t malloc sh addrs pc hok hbrk hbound how hin hs

/-! ### The invariant of the concurrent system -/

theorem getElem?_set_cases (threads : List Prog) (t t2 : Nat) (prog p1 q : Prog)
    (ht : threads[t]? = some prog) (hq : (threads.set t p1)[t2]? = some q) :
    (t2 = t ∧ q = p1) ∨ (t2 ≠ t ∧ threads[t2]? = some q) := by
  by_cases e : t = t2
  · subst e
    have hlt : t < threads.length := (List.getElem?_eq_some_iff.mp ht).1
    rw [List.getElem?_set_self hlt] at hq
    exact Or.inl ⟨rfl, (Option.some.inj hq).symm⟩
  · rw [List.getElem?_set_ne e] at hq
    exact Or.inr ⟨fun e2 => e e2.symm, hq⟩

theorem getElem?_set_same (threads : List Prog) (t : Nat) (prog p1 : Prog)
    (ht : threads[t]? = some prog) : (threads.set t p1)[t]? = some p1 :=
  List.getElem?_set_self (List.getElem?_eq_some_iff.mp ht).1

theorem sum_map_set (f : Prog → Nat) (threads : List Prog) (t : Nat) (prog p1 : Prog)
    (ht : threads[t]? = some prog) :
    ((threads.set t p1).map f).sum + f prog = (threads.map f).sum + f p1 := by
  induction threads generalizing t with
  | nil => simp at ht
  | cons x xs ih =>
    cases t with
    | zero =>
      simp only [List.getElem?_cons_zero, Option.some.injEq] at ht
      subst ht
      simp only [List.set_cons_zero, List.map_cons, List.sum_cons]
      omega
    | succ k =>
      simp only [List.getElem?_cons_succ] at ht
      have := ih k ht
      simp only [List.set_cons_succ, List.map_cons, List.sum_cons]
      omega

theorem Conc.step_dead (c : Conc) (pick : Pick) (h : c.sh.health ≠ .ok) : c.step pick = c := by
  cases pick <;> simp [Conc.step, h]

theorem Conc.step_stop (c : Conc) (h : c.sh.health = .ok) :
    c.step .stop = { c with sh := { c.sh with workerManagerRunning := 0 } } := by
  simp [Conc.step, h]

theorem Conc.step_thread_none (c : Conc) (t : Nat) (malloc : Option Node_t)
    (ht : c.threads[t]? = none) : c.step (.thread t malloc) = c := by
  simp [Conc.step, ht]

theorem Conc.step_thread_some (c : Conc) (t : Nat) (malloc : Option Node_t) (prog : Prog)
    (h : c.sh.health = .ok) (ht : c.threads[t]? = some prog) :
    c.step (.thread t malloc)
      = { sh := (prog.step t malloc c.sh).1,
          threads := c.threads.set t (prog.step t malloc c.sh).2 } := by
  simp [Conc.step, h, ht]

theorem Conc.step_inv (c : Conc) (n : Nat) (pick : Pick) (h : c.Inv n) :
    (c.step pick).Inv n := by
  by_cases hok : c.sh.health = .ok
  swap
  · rw [Conc.step_dead c pick hok]
    exact h
  obtain ⟨hh, hbrk, hbound, addrs, hfree, hown, hthr, hacc⟩ := h
  cases pick with
  | stop =>
    rw [Conc.step_stop c hok]
    exact ⟨hh, hbrk, hbound, addrs, hfree, hown, hthr, hacc⟩
  | thread t malloc =>
    cases ht : c.threads[t]? with
    | none =>
      rw [Conc.step_thread_none c t malloc ht]
      exact ⟨hh, hbrk, hbound, addrs, hfree, hown, hthr, hacc⟩
    | some prog =>
      rw [Conc.step_thread_some c t malloc prog hok ht]
      obtain ⟨hcs, hsound⟩ := hthr t prog ht
      have hadds := sum_map_set Prog.added c.threads t prog (prog.step t malloc c.sh).2 ht
      have hrems := sum_map_set Prog.removed c.threads t prog (prog.step t malloc c.sh).2 ht
      by_cases hin : prog.inCS = true
      · have how := hcs hin
        have hothers : ∀ (t2 : Nat) (q : Prog), t2 ≠ t → c.threads[t2]? = some q →
            q.inCS = false := by
          intro t2 q hne hq
          by_contra hq1
          have hq2 : q.inCS = true := by simpa using hq1
          have := ((hthr t2 q hq).1 hq2).symm.trans how
          exact hne (Option.some.inj this)
        obtain ⟨h1, h2, h3, addrs1, hcase, hacc1⟩ :=
          Prog.step_inside t malloc c.sh addrs prog hok hbrk hbound how hin hsound
        refine ⟨h1, h2, h3, addrs1, ?_, ?_, ?_, ?_⟩
        · intro ho
          rcases hcase with ⟨ho1, _, _⟩ | ⟨_, _, hc⟩
          · rw [ho1] at ho
            exact Option.noConfusion ho
          · exact hc
        · intro t3 ho
          rcases hcase with ⟨ho1, hin1, _⟩ | ⟨ho1, _, _⟩
          · have e : t = t3 := Option.some.inj (ho1.symm.trans ho)
            subst e
            exact ⟨_, getElem?_set_same c.threads t prog _ ht, hin1⟩
          · rw [ho1] at ho
            exact Option.noConfusion ho
        · intro t2 q hq
          rcases getElem?_set_cases c.threads t t2 prog _ q ht hq with ⟨e1, e2⟩ | ⟨e1, e2⟩
          · subst e1 e2
            rcases hcase with ⟨ho1, _, hs1⟩ | ⟨_, hin1, _⟩
            · exact ⟨fun _ => ho1, hs1⟩
            · refine ⟨fun hq1 => ?_, Prog.sound_of_not_inCS _ _ _ _ hin1⟩
              rw [hin1] at hq1
              exact Bool.noConfusion hq1
          · have hq0 := hothers t2 q e1 e2
            refine ⟨fun hq1 => ?_, Prog.sound_of_not_inCS _ _ _ _ hq0⟩
            rw [hq0] at hq1
            exact Bool.noConfusion hq1
        · show addrs1.length
              + ((c.threads.set t (prog.step t malloc c.sh).2).map Prog.removed).sum
            = n + ((c.threads.set t (prog.step t malloc c.sh).2).map Prog.added).sum
          unfold Conc.removals Conc.adds at hacc
          omega
      · have hin0 : prog.inCS = false := by simpa using hin
        rcases Prog.step_outside t malloc c.sh prog hin0 with
          ⟨e1, e2, e3, e4⟩ | ⟨ho, e1, e2, e3, e4, e5⟩
        · rw [e1]
          refine ⟨hh, hbrk, hbound, addrs, hfree, ?_, ?_, ?_⟩
          · intro t3 ho3
            obtain ⟨q, hq, hq1⟩ := hown t3 ho3
            have hne : t ≠ t3 := by
              intro e
              subst e
              rw [ht] at hq
              rw [← Option.some.inj hq] at hq1
              rw [hin0] at hq1
              exact Bool.noConfusion hq1
            exact ⟨q, by rw [List.getElem?_set_ne hne]; exact hq, hq1⟩
          · intro t2 q hq
            rcases getElem?_set_cases c.threads t t2 prog _ q ht hq with ⟨k1, k2⟩ | ⟨k1, k2⟩
            · subst k1 k2
              refine ⟨fun hq1 => ?_, Prog.sound_of_not_inCS _ _ _ _ e2⟩
              rw [e2] at hq1
              exact Bool.noConfusion hq1
            · exact hthr t2 q k2
          · show addrs.length
                + ((c.threads.set t (prog.step t malloc c.sh).2).map Prog.removed).sum
              = n + ((c.threads.set t (prog.step t malloc c.sh).2).map Prog.added).sum
            unfold Conc.removals Conc.adds at hacc
            omega
        · rw [e1]
          have hc := hfree ho
          have hothers : ∀ (t2 : Nat) (q : Prog), c.threads[t2]? = some q → q.inCS = false := by
            intro t2 q hq
            by_contra hq1
            have hq2 : q.inCS = true := by simpa using hq1
            have := (hthr t2 q hq).1 hq2
            rw [ho] at this
            exact Option.noConfusion this
          refine ⟨hh, hbrk, hbound, addrs, ?_, ?_, ?_, ?_⟩
          · intro ho1
            exact Option.noConfusion ho1
          · intro t3 ho3
            have e : t = t3 := Option.some.inj ho3
            subst e
            exact ⟨_, getElem?_set_same c.threads t prog _ ht, e2⟩
          · intro t2 q hq
            rcases getElem?_set_cases c.threads t t2 prog _ q ht hq with ⟨k1, k2⟩ | ⟨k1, k2⟩
            · subst k1 k2
              exact ⟨fun _ => rfl, e5 addrs hc⟩
            · have hq0 := hothers t2 q k2
              refine ⟨fun hq1 => ?_, Prog.sound_of_not_inCS _ _ _ _ hq0⟩
              rw [hq0] at hq1
              exact Bool.noConfusion hq1
          · show addrs.length
                + ((c.threads.set t (prog.step t malloc c.sh).2).map Prog.removed).sum
              = n + ((c.threads.set t (prog.step t malloc c.sh).2).map Prog.added).sum
            unfold Conc.removals Conc.adds at hacc
            omega

theorem Conc.run_inv (c : Conc) (n : Nat) (sched : List Pick) (h : c.Inv n) :
    (c.run sched).Inv n := by
  induction sched generalizing c with
  | nil => exact h
  | cons pick rest ih => exact ih (c.step pick) (Conc.step_inv c n pick h)

theorem Prog.not_inCS_of_atStart (prog : Prog) (h : prog.atStart = true) :
    prog.inCS = false ∧ prog.added = 0 ∧ prog.removed = 0 := by
  cases prog with
  | adder w pc => cases pc <;> first | exact ⟨rfl, rfl, rfl⟩ | simp [Prog.atStart] at h
  | remover w pc => cases pc <;> first | exact ⟨rfl, rfl, rfl⟩ | simp [Prog.atStart] at h
  | bucketThread pc =>
    cases pc with
    | check phase => cases phase <;> exact ⟨rfl, rfl, rfl⟩
    | lock phase => simp [Prog.atStart] at h
    | walk phase slot => simp [Prog.atStart] at h
    | unlock phase => simp [Prog.atStart] at h
    | sleep => simp [Prog.atStart] at h
    | done => simp [Prog.atStart] at h

theorem sum_map_eq_zero (f : Prog → Nat) (l : List Prog) (h : ∀ p ∈ l, f p = 0) :
    (l.map f).sum = 0 := by
  induction l with
  | nil => rfl
  | cons x xs ih =>
    simp only [List.map_cons, List.sum_cons, h x (List.mem_cons_self _ _),
      ih (fun p hp => h p (List.mem_cons_of_mem _ hp))]

theorem Conc.inv_of_initial (c : Conc) (n : Nat) (h : c.initial n) : c.Inv n := by
  obtain ⟨hok, hown, hbrk, hbound, ⟨addrs, hc, hlen⟩, hstart⟩ := h
  refine ⟨by rw [hok]; decide, hbrk, hbound, addrs, fun _ => hc, ?_, ?_, ?_⟩
  · intro t ht
    rw [hown] at ht
    exact Option.noConfusion ht
  · intro t prog ht
    have hmem : prog ∈ c.threads := List.getElem?_mem ht
    have h0 := (Prog.not_inCS_of_atStart prog (hstart prog hmem)).1
    refine ⟨fun h1 => ?_, Prog.sound_of_not_inCS _ _ _ _ h0⟩
    rw [h0] at h1
    exact Bool.noConfusion h1
  · have ha : c.adds = 0 :=
      sum_map_eq_zero _ _ (fun p hp => (Prog.not_inCS_of_atStart p (hstart p hp)).2.1)
    have hr : c.removals = 0 :=
      sum_map_eq_zero _ _ (fun p hp => (Prog.not_inCS_of_atStart p (hstart p hp)).2.2)
    rw [ha, hr, hlen]

theorem Conc.step_changes_only_inside (c : Conc) (pick : Pick)
    (h : (c.step pick).sh.heap ≠ c.sh.heap ∨ (c.step pick).sh.head ≠ c.sh.head) :
    ∃ t malloc prog, pick = .thread t malloc ∧ c.threads[t]? = some prog
      ∧ prog.inCS = true := by
  by_cases hok : c.sh.health = .ok
  swap
  · rw [Conc.step_dead c pick hok] at h
    rcases h with h | h <;> exact absurd rfl h
  cases pick with
  | stop =>
    rw [Conc.step_stop c hok] at h
    rcases h with h | h <;> exact absurd rfl h
  | thread t malloc =>
    cases ht : c.threads[t]? with
    | none =>
      rw [Conc.step_thread_none c t malloc ht] at h
      rcases h with h | h <;> exact absurd rfl h
    | some prog =>
      refine ⟨t, malloc, prog, rfl, ht, ?_⟩
      by_contra hin
      have hin0 : prog.inCS = false := by simpa using hin
      rw [Conc.step_thread_some c t malloc prog hok ht] at h
      rcases Prog.step_outside t malloc c.sh prog hin0 with ⟨e1, _⟩ | ⟨_, e1, _⟩
      · simp only [e1] at h
        rcases h with h | h <;> exact absurd rfl h
      · simp only [e1] at h
        rcases h with h | h <;> exact absurd rfl h

theorem Prog.step_keeps_kind (t : Nat) (malloc : Option Node_t) (sh : Shared) (prog : Prog) :
    (prog.step t malloc sh).2.isAdder = prog.isAdder := by
  cases prog <;> rfl

theorem map_set_same (f : Prog → Bool) (threads : List Prog) (t : Nat) (prog p1 : Prog)
    (ht : threads[t]? = some prog) (hf : f p1 = f prog) :
    (threads.set t p1).map f = threads.map f := by
  induction threads generalizing t with
  | nil => simp at ht
  | cons x xs ih =>
    cases t with
    | zero =>
      simp only [List.getElem?_cons_zero, Option.some.injEq] at ht
      subst ht
      simp [hf]
    | succ k =>
      simp only [List.getElem?_cons_succ] at ht
      simp [ih k ht]

theorem Conc.step_isAdder (c : Conc) (pick : Pick) :
    (c.step pick).threads.map Prog.isAdder = c.threads.map Prog.isAdder := by
  by_cases hok : c.sh.health = .ok
  swap
  · rw [Conc.step_dead c pick hok]
  cases pick with
  | stop => rw [Conc.step_stop c hok]
  | thread t malloc =>
    cases ht : c.threads[t]? with
    | none => rw [Conc.step_thread_none c t malloc ht]
    | some prog =>
      rw [Conc.step_thread_some c t malloc prog hok ht]
      exact map_set_same _ _ t prog _ ht (Prog.step_keeps_kind t malloc c.sh prog)

theorem Conc.run_isAdder (c : Conc) (sched : List Pick) :
    (c.run sched).threads.map Prog.isAdder = c.threads.map Prog.isAdder := by
  induction sched generalizing c with
  | nil => rfl
  | cons pick rest ih => exact (ih (c.step pick)).trans (Conc.step_isAdder c pick)

theorem countP_isAdder_of_map (l1 l2 : List Prog)
    (h : l1.map Prog.isAdder = l2.map Prog.isAdder) :
    l1.countP Prog.isAdder = l2.countP Prog.isAdder := by
  have e : ∀ l : List Prog, l.countP Prog.isAdder = (l.map Prog.isAdder).countP id := by
    intro l
    rw [List.countP_map]
    rfl
  rw [e l1, e l2, h]

theorem adds_of_adders_done (l : List Prog)
    (h : ∀ w pc, Prog.adder w pc ∈ l → pc = .done) :
    (l.map Prog.added).sum = l.countP Prog.isAdder := by
  induction l with
  | nil => rfl
  | cons x xs ih =>
    have ih1 := ih (fun w pc hm => h w pc (List.mem_cons_of_mem _ hm))
    cases x with
    | adder w pc =>
      have hpc := h w pc (List.mem_cons_self _ _)
      subst hpc
      simp only [List.map_cons, List.sum_cons, ih1, Prog.added]
      rw [List.countP_cons_of_pos _ _ (by rfl)]
      omega
    | remover w pc =>
      simp only [List.map_cons, List.sum_cons, ih1, Prog.added]
      rw [List.countP_cons_of_neg _ _ (by simp [Prog.isAdder])]
      omega
    | bucketThread pc =>
      simp only [List.map_cons, List.sum_cons, ih1, Prog.added]
      rw [List.countP_cons_of_neg _ _ (by simp [Prog.isAdder])]
      omega

/-- C19: from a start with a sound list of `n` nodes, the mutex free and every thread before
its first lock, after any schedule of statements of any number of callers of add-worker and
remove-worker and of the bucket's thread, with any allocation outcomes: no two threads are
between lock and unlock at once; only a statement of the thread that holds the mutex changes
a node or the head; no statement has touched a node that is not allocated; a pass that is
under way walks a list whose links lead to null without repetition; whenever the mutex is
free the list is such a chain and its length is `n` plus the adds less the removals; and
once every caller of add-worker has returned, the adds are as many as those callers. -/
theorem C19_list_sound_under_any_interleaving (c : Conc) (n : Nat) (sched : List Pick)
    (h : c.initial n) :
    (∀ (t1 t2 : Nat) (p1 p2 : Prog), (c.run sched).threads[t1]? = some p1 →
        (c.run sched).threads[t2]? = some p2 → p1.inCS = true → p2.inCS = true → t1 = t2)
      ∧ (∀ pick, (((c.run sched).step pick).sh.heap ≠ (c.run sched).sh.heap
            ∨ ((c.run sched).step pick).sh.head ≠ (c.run sched).sh.head) →
          ∃ t malloc prog, pick = .thread t malloc ∧ (c.run sched).threads[t]? = some prog
            ∧ prog.inCS = true ∧ (c.run sched).sh.owner = some t)
      ∧ (c.run sched).sh.health ≠ .corrupted
      ∧ (∀ (t : Nat) (phase : Phase) (slot : Slot),
          (c.run sched).threads[t]? = some (.bucketThread (.walk phase slot)) →
          ∃ addrs, Chain (c.run sched).sh.heap (c.run sched).sh.head addrs ∧ slot.valid addrs
            ∧ addrs.length + (c.run sched).removals = n + (c.run sched).adds)
      ∧ ((c.run sched).sh.owner = none → (c.run sched).listSound n)
      ∧ ((∀ (t : Nat) (w : Ptr) (pc : AddPc),
            (c.run sched).threads[t]? = some (.adder w pc) → pc = .done) →
          (c.run sched).adds = c.threads.countP Prog.isAdder) := by
  obtain ⟨hh, _, _, addrs, hfree, _, hthr, hacc⟩ :=
    Conc.run_inv c n sched (Conc.inv_of_initial c n h)
  refine ⟨?_, ?_, hh, ?_, ?_, ?_⟩
  · intro t1 t2 p1 p2 h1 h2 i1 i2
    exact Option.some.inj (((hthr t1 p1 h1).1 i1).symm.trans ((hthr t2 p2 h2).1 i2))
  · intro pick hch
    obtain ⟨t, malloc, prog, e, ht, hin⟩ := Conc.step_changes_only_inside _ pick hch
    exact ⟨t, malloc, prog, e, ht, hin, (hthr t prog ht).1 hin⟩
  · intro t phase slot ht
    have hs := (hthr t _ ht).2
    exact ⟨addrs, hs.1, hs.2, hacc⟩
  · intro ho
    exact ⟨addrs, hfree ho, hacc⟩
  · intro hdone
    have e : (c.run sched).adds = (c.run sched).threads.countP Prog.isAdder := by
      unfold Conc.adds
      refine adds_of_adders_done _ (fun w pc hm => ?_)
      obtain ⟨t, ht⟩ := List.mem_iff_getElem?.1 hm
      exact hdone t w pc ht
    rw [e]
    exact countP_isAdder_of_map _ _ (Conc.run_isAdder c sched)

set_option maxRecDepth 100000 in
/-- C19 at `fourThreads` under `takingTurns`: the start is as required, the schedule ends
with the mutex free, two adds and one removal done, and the list sound with
`1 + 2 - 1` nodes. -/
theorem C19_list_sound_under_any_interleaving_witness :
    fourThreads.initial 1
      ∧ (fourThreads.run takingTurns).sh.owner = none
      ∧ (fourThreads.run takingTurns).adds = 2
      ∧ (fourThreads.run takingTurns).removals = 1
      ∧ (fourThreads.run takingTurns).listSound 1 := by
  have hinit : fourThreads.initial 1 := by
    refine ⟨rfl, rfl, by decide, ?_, ⟨[1], ⟨rfl, by decide, ⟨_, rfl, rfl⟩⟩, rfl⟩, by decide⟩
    intro a ha
    by_cases e : a = 1
    · subst e
      decide
    · exact absurd (if_neg e) ha
  have hfree : (fourThreads.run takingTurns).sh.owner = none := by decide
  exact ⟨hinit, hfree, by decide, by decide,
    (C19_list_sound_under_any_interleaving fourThreads 1 takingTurns hinit).2.2.2.2.1 hfree⟩

/-! ### The mutexes held by add-worker and remove-worker -/

theorem Run.andThen_of_some {α β : Type} (r : Run α) (k : α → Run β) (a : α)
    (h : r.result = some a) :
    Run.andThen r k = { events := r.events ++ (k a).events, result := (k a).result } := by
  simp [Run.andThen, h]

theorem Run.andThen_of_none {α β : Type} (r : Run α) (k : α → Run β) (h : r.result = none) :
    Run.andThen r k = { events := r.events, result := none } := by
  simp [Run.andThen, h]

theorem Sys.step_caller (mem : WorkerMem) (bucket : Nat) (s : Sys) (st : Step)
    (h : st ≠ .thread) :
    Sys.step mem bucket s st
      = Run.andThen (callerOp st s.m) fun m1 => Run.ok [] { s with m := m1 } := by
  cases st with
  | thread => exact absurd rfl h
  | addWorker alloc worker prio => rfl
  | removeWorker worker => rfl
  | setSleepTime prio sleepTime => rfl
  | stop => rfl

theorem Sys.step_caller_events (mem : WorkerMem) (bucket : Nat) (s : Sys) (st : Step)
    (h : st ≠ .thread) : (Sys.step mem bucket s st).events = (callerOp st s.m).events := by
  rw [Sys.step_caller mem bucket s st h]
  cases hr : (callerOp st s.m).result with
  | none => rw [Run.andThen_of_none _ _ hr]
  | some m1 => rw [Run.andThen_of_some _ _ m1 hr]; simp [Run.ok]

theorem Sys.step_caller_result (mem : WorkerMem) (bucket : Nat) (s : Sys) (st : Step)
    (h : st ≠ .thread) :
    (Sys.step mem bucket s st).result
      = (callerOp st s.m).result.map fun m1 => { s with m := m1 } := by
  rw [Sys.step_caller mem bucket s st h]
  cases hr : (callerOp st s.m).result with
  | none => rw [Run.andThen_of_none _ _ hr]; rfl
  | some m1 => rw [Run.andThen_of_some _ _ m1 hr]; rfl

theorem callerOp_no_call (st : Step) (m : Manager) (e : Event)
    (h : e ∈ (callerOp st m).events) : e.isCall = false := by
  cases st with
  | thread => simp [callerOp, Run.ok] at h
  | addWorker alloc worker prio => exact addWorker_no_call _ _ _ _ e h
  | removeWorker worker => exact removeWorker_no_call _ _ e h
  | setSleepTime prio sleepTime => exact setPriorityListSleepTime_no_call _ _ _ e h
  | stop => simp [callerOp, Run.ok] at h

theorem addWorker_keeps_flag (alloc : Bool) (w : Ptr) (p : Nat) (m m1 : Manager)
    (h : (workerManager_addWorker alloc w p m).result = some m1) :
    m1.workerManagerRunning = m.workerManagerRunning := by
  unfold workerManager_addWorker at h
  by_cases hp : p ≥ WORKERMANAGER_PRIORITY_NUM
  · simp only [hp, if_true, Run.ok, Option.some.injEq] at h
    rw [← h]
  · cases alloc
    · simp [hp, Run.fault] at h
    · simp only [hp, if_false, if_true, Run.ok, Option.some.injEq] at h
      rw [← h]

theorem removeWorker_buckets_keeps_flag (w : Ptr) (ps : List Nat) (m m1 : Manager)
    (h : (workerManager_removeWorker.buckets w ps m).result = some m1) :
    m1.workerManagerRunning = m.workerManagerRunning := by
  induction ps with
  | nil =>
    simp only [workerManager_removeWorker.buckets, Run.ok, Option.some.injEq] at h
    rw [← h]
  | cons p ps ih =>
    unfold workerManager_removeWorker.buckets at h
    cases hs : workerManager_removeWorker.scan w (m._workersList p) with
    | some l =>
      simp only [hs, Run.ok, Option.some.injEq] at h
      rw [← h]
    | none =>
      simp only [hs] at h
      obtain ⟨_, _, h2⟩ := Run.andThen_result_eq_some _ _ m1 h
      exact ih h2

theorem setPriorityListSleepTime_keeps_flag (p t : Nat) (m m1 : Manager)
    (h : (workerManager_setPriorityListSleepTime p t m).result = some m1) :
    m1.workerManagerRunning = m.workerManagerRunning := by
  unfold workerManager_setPriorityListSleepTime at h
  by_cases hp : p ≥ WORKERMANAGER_PRIORITY_NUM
  · simp only [hp, if_true, Run.ok, Option.some.injEq] at h
    rw [← h]
  · cases ht : m._pthreadList p with
    | none => simp [hp, ht, Run.fault] at h
    | some a =>
      simp only [hp, ht, if_false, Run.ok, Option.some.injEq] at h
      rw [← h]

theorem callerOp_flag (st : Step) (m m1 : Manager) (h : (callerOp st m).result = some m1)
    (h0 : m.workerManagerRunning = 0 ∨ st = .stop) : m1.workerManagerRunning = 0 := by
  cases st with
  | thread =>
    simp only [callerOp, Run.ok, Option.some.injEq] at h
    rcases h0 with h0 | h0
    · rw [← h]; exact h0
    · exact Step.noConfusion h0
  | addWorker alloc worker prio =>
    rcases h0 with h0 | h0
    · rw [addWorker_keeps_flag _ _ _ _ _ h]; exact h0
    · exact Step.noConfusion h0
  | removeWorker worker =>
    rcases h0 with h0 | h0
    · rw [removeWorker_buckets_keeps_flag _ _ _ _ h]; exact h0
    · exact Step.noConfusion h0
  | setSleepTime prio sleepTime =>
    rcases h0 with h0 | h0
    · rw [setPriorityListSleepTime_keeps_flag _ _ _ _ h]; exact h0
    · exact Step.noConfusion h0
  | stop =>
    simp only [callerOp, Run.ok, Option.some.injEq] at h
    rw [← h]

theorem Run.andThen_assoc {α β γ : Type} (r : Run α) (k : α → Run β) (k2 : β → Run γ) :
    Run.andThen (Run.andThen r k) k2 = Run.andThen r fun a => Run.andThen (k a) k2 := by
  cases hr : r.result with
  | none => simp [Run.andThen, hr]
  | some a =>
    cases hk : (k a).result with
    | none => simp [Run.andThen, hr, hk]
    | some b => simp [Run.andThen, hr, hk]

theorem Sys.run_cons (mem : WorkerMem) (bucket : Nat) (s : Sys) (st : Step) (rest : List Step) :
    Sys.run mem bucket s (st :: rest)
      = Run.andThen (Sys.step mem bucket s st) fun s1 => Sys.run mem bucket s1 rest := rfl

theorem Sys.run_append (mem : WorkerMem) (bucket : Nat) (s : Sys) (xs ys : List Step) :
    Sys.run mem bucket s (xs ++ ys)
      = Run.andThen (Sys.run mem bucket s xs) fun s1 => Sys.run mem bucket s1 ys := by
  induction xs generalizing s with
  | nil => simp [Sys.run, Run.andThen, Run.ok]
  | cons st rest ih =>
    rw [List.cons_append, Sys.run_cons, Sys.run_cons, Run.andThen_assoc]
    congr 1
    funext s1
    exact ih s1

theorem Sys.run_append_of_some (mem : WorkerMem) (bucket : Nat) (s s1 : Sys)
    (xs ys : List Step) (h : (Sys.run mem bucket s xs).result = some s1) :
    (Sys.run mem bucket s (xs ++ ys)).events
        = (Sys.run mem bucket s xs).events ++ (Sys.run mem bucket s1 ys).events
      ∧ (Sys.run mem bucket s (xs ++ ys)).result = (Sys.run mem bucket s1 ys).result := by
  rw [Sys.run_append, Run.andThen_of_some _ _ s1 h]
  exact ⟨rfl, rfl⟩

theorem Sys.run_append_of_none (mem : WorkerMem) (bucket : Nat) (s : Sys)
    (xs ys : List Step) (h : (Sys.run mem bucket s xs).result = none) :
    (Sys.run mem bucket s (xs ++ ys)).result = none := by
  rw [Sys.run_append, Run.andThen_of_none _ _ h]

theorem Sys.run_callers (mem : WorkerMem) (bucket : Nat) (s : Sys) (q : List Step)
    (hq : Step.thread ∉ q) :
    (∀ e ∈ (Sys.run mem bucket s q).events, e.isCall = false)
      ∧ ∀ s1, (Sys.run mem bucket s q).result = some s1 →
          s1.pc = s.pc
            ∧ (s.m.workerManagerRunning = 0 ∨ Step.stop ∈ q → s1.m.workerManagerRunning = 0) := by
  induction q generalizing s with
  | nil =>
    refine ⟨by simp [Sys.run, Run.ok], ?_⟩
    intro s1 hs1
    simp only [Sys.run, Run.ok, Option.some.injEq] at hs1
    subst hs1
    refine ⟨rfl, ?_⟩
    intro h0
    rcases h0 with h0 | h0
    · exact h0
    · simp at h0
  | cons st rest ih =>
    have hst : st ≠ .thread := fun e => hq (e ▸ List.mem_cons_self _ _)
    have hrest : Step.thread ∉ rest := fun hm => hq (List.mem_cons_of_mem _ hm)
    have hev := Sys.step_caller_events mem bucket s st hst
    have hres := Sys.step_caller_result mem bucket s st hst
    rw [Sys.run_cons]
    cases hr : (callerOp st s.m).result with
    | none =>
      rw [hr] at hres
      rw [Run.andThen_of_none _ _ hres]
      refine ⟨?_, ?_⟩
      · intro e he
        rw [hev] at he
        exact callerOp_no_call st s.m e he
      · intro s1 hs1
        exact Option.noConfusion hs1
    | some m1 =>
      rw [hr] at hres
      rw [Run.andThen_of_some _ _ _ hres]
      obtain ⟨ih1, ih2⟩ := ih { s with m := m1 } hrest
      refine ⟨?_, ?_⟩
      · intro e he
        rcases List.mem_append.mp he with he | he
        · rw [hev] at he
          exact callerOp_no_call st s.m e he
        · exact ih1 e he
      · intro s1 hs1
        obtain ⟨h1, h2⟩ := ih2 s1 hs1
        refine ⟨h1, ?_⟩
        intro h0
        apply h2
        rcases h0 with h0 | h0
        · exact Or.inl (callerOp_flag st s.m m1 hr (Or.inl h0))
        · rcases List.mem_cons.mp h0 with h0 | h0
          · exact Or.inl (callerOp_flag st s.m m1 hr (Or.inr h0.symm))
          · exact Or.inr h0

theorem Sys.run_callers_same (mem : WorkerMem) (bucket : Nat) (a b : Sys) (q : List Step)
    (hm : a.m = b.m) (hq : Step.thread ∉ q) :
    (Sys.run mem bucket a q).events = (Sys.run mem bucket b q).events
      ∧ ∀ a1, (Sys.run mem bucket a q).result = some a1 →
          ∃ b1, (Sys.run mem bucket b q).result = some b1 ∧ b1.m = a1.m := by
  induction q generalizing a b with
  | nil =>
    refine ⟨rfl, ?_⟩
    intro a1 ha1
    simp only [Sys.run, Run.ok, Option.some.injEq] at ha1
    subst ha1
    exact ⟨b, rfl, hm.symm⟩
  | cons st rest ih =>
    have hst : st ≠ .thread := fun e => hq (e ▸ List.mem_cons_self _ _)
    have hrest : Step.thread ∉ rest := fun hx => hq (List.mem_cons_of_mem _ hx)
    have heva := Sys.step_caller_events mem bucket a st hst
    have hresa := Sys.step_caller_result mem bucket a st hst
    have hevb := Sys.step_caller_events mem bucket b st hst
    have hresb := Sys.step_caller_result mem bucket b st hst
    rw [← hm] at hevb hresb
    rw [Sys.run_cons, Sys.run_cons]
    cases hr : (callerOp st a.m).result with
    | none =>
      rw [hr] at hresa hresb
      rw [Run.andThen_of_none _ _ hresa, Run.andThen_of_none _ _ hresb]
      refine ⟨by rw [heva, hevb], ?_⟩
      intro a1 ha1
      exact Option.noConfusion ha1
    | some m1 =>
      rw [hr] at hresa hresb
      rw [Run.andThen_of_some _ _ _ hresa, Run.andThen_of_some _ _ _ hresb]
      obtain ⟨ih1, ih2⟩ := ih { a with m := m1 } { b with m := m1 } rfl hrest
      refine ⟨?_, ?_⟩
      · show (Sys.step mem bucket a st).events ++ _ = (Sys.step mem bucket b st).events ++ _
        rw [heva, hevb, ih1]
      · intro a1 ha1
        exact ih2 a1 ha1

theorem Sys.run_cons_of_ok (mem : WorkerMem) (bucket : Nat) (s s1 : Sys) (st : Step)
    (evs : List Event) (rest : List Step) (h : Sys.step mem bucket s st = Run.ok evs s1) :
    (Sys.run mem bucket s (st :: rest)).events = evs ++ (Sys.run mem bucket s1 rest).events
      ∧ (Sys.run mem bucket s (st :: rest)).result = (Sys.run mem bucket s1 rest).result := by
  rw [Sys.run_cons, h]
  exact ⟨rfl, rfl⟩

theorem Sys.run_cons_of_fault (mem : WorkerMem) (bucket : Nat) (s : Sys) (st : Step)
    (evs : List Event) (rest : List Step) (h : Sys.step mem bucket s st = Run.fault evs) :
    (Sys.run mem bucket s (st :: rest)).events = evs
      ∧ (Sys.run mem bucket s (st :: rest)).result = none := by
  rw [Sys.run_cons, h]
  exact ⟨rfl, rfl⟩

theorem Sys.step_thread_no_record (mem : WorkerMem) (bucket : Nat) (s : Sys)
    (h : s.m._pthreadList bucket = none) : Sys.step mem bucket s .thread = Run.fault [] := by
  simp [Sys.step, h]

theorem Sys.step_thread_bootstrap_clear (mem : WorkerMem) (bucket : Nat) (s : Sys)
    (threadArgs : threadArgs_t) (h : s.m._pthreadList bucket = some threadArgs)
    (hflag : s.m.workerManagerRunning = 0) (hpc : s.pc = .bootstrap) :
    Sys.step mem bucket s .thread = Run.ok [] { s with pc := .runLoop } := by
  simp [Sys.step, h, hpc, hflag, _workManagerHandler.step]

theorem Sys.step_thread_runLoop_clear (mem : WorkerMem) (bucket : Nat) (s : Sys)
    (threadArgs : threadArgs_t) (h : s.m._pthreadList bucket = some threadArgs)
    (hflag : s.m.workerManagerRunning = 0) (hpc : s.pc = .runLoop) :
    Sys.step mem bucket s .thread = Run.ok [] { s with pc := .drain } := by
  simp [Sys.step, h, hpc, hflag, _workManagerHandler.step]

theorem Sys.step_thread_drain (mem : WorkerMem) (bucket : Nat) (s : Sys)
    (threadArgs : threadArgs_t) (h : s.m._pthreadList bucket = some threadArgs)
    (hpc : s.pc = .drain) :
    Sys.step mem bucket s .thread
      = Run.ok (_workManagerHandler.endPass mem threadArgs s.m) { s with pc := .done } := by
  simp [Sys.step, h, hpc, _workManagerHandler.step]

theorem Sys.step_thread_done (mem : WorkerMem) (bucket : Nat) (s : Sys)
    (threadArgs : threadArgs_t) (h : s.m._pthreadList bucket = some threadArgs)
    (hpc : s.pc = .done) :
    Sys.step mem bucket s .thread = Run.ok [] { s with pc := .done } := by
  simp [Sys.step, h, hpc, _workManagerHandler.step]

theorem Sys.run_done_no_call (mem : WorkerMem) (bucket : Nat) (s : Sys) (steps : List Step)
    (h : s.pc = .done) : ∀ e ∈ (Sys.run mem bucket s steps).events, e.isCall = false := by
  induction steps generalizing s with
  | nil => simp [Sys.run, Run.ok]
  | cons st rest ih =>
    by_cases hst : st = .thread
    · subst hst
      cases ht : s.m._pthreadList bucket with
      | none =>
        rw [(Sys.run_cons_of_fault mem bucket s .thread [] rest
          (Sys.step_thread_no_record mem bucket s ht)).1]
        simp
      | some threadArgs =>
        rw [(Sys.run_cons_of_ok mem bucket s _ .thread [] rest
          (Sys.step_thread_done mem bucket s threadArgs ht h)).1]
        intro e he
        exact ih { s with pc := .done } rfl e he
    · have hev := Sys.step_caller_events mem bucket s st hst
      have hres := Sys.step_caller_result mem bucket s st hst
      rw [Sys.run_cons]
      cases hr : (callerOp st s.m).result with
      | none =>
        rw [hr] at hres
        rw [Run.andThen_of_none _ _ hres]
        intro e he
        rw [hev] at he
        exact callerOp_no_call st s.m e he
      | some m1 =>
        rw [hr] at hres
        rw [Run.andThen_of_some _ _ _ hres]
        intro e he
        rcases List.mem_append.mp he with he | he
        · rw [hev] at he
          exact callerOp_no_call st s.m e he
        · exact ih { s with m := m1 } h e he

theorem flatten_handleEnd_of_nodes (mem : WorkerMem) (xs : List Ptr) :
    (xs.map fun item => worker_handleEnd mem item).flatten
      = (xs.filter fun w => decide (w ≠ NULL ∧ (mem w).end_.handler ≠ NULL)).map fun w =>
          Event.call .end_ (mem w).end_.handler (mem w).end_.args := by
  induction xs with
  | nil => simp
  | cons x xs ih =>
    simp only [List.map_cons, List.flatten_cons, ih, List.filter_cons]
    by_cases hx : x = NULL
    · have h1 : worker_handleEnd mem x = [] := by simp [worker_handleEnd, hx]
      have h2 : decide (x ≠ NULL ∧ (mem x).end_.handler ≠ NULL) = false := by simp [hx]
      simp only [h1, h2, List.nil_append, Bool.false_eq_true, if_false]
    · by_cases hh : (mem x).end_.handler = NULL
      · have h1 : worker_handleEnd mem x = [] := by simp [worker_handleEnd, hx, hh]
        have h2 : decide (x ≠ NULL ∧ (mem x).end_.handler ≠ NULL) = false := by simp [hh]
        simp only [h1, h2, List.nil_append, Bool.false_eq_true, if_false]
      · have h1 : worker_handleEnd mem x
            = [Event.call .end_ (mem x).end_.handler (mem x).end_.args] := by
          simp [worker_handleEnd, hx, hh]
        have h2 : decide (x ≠ NULL ∧ (mem x).end_.handler ≠ NULL) = true := by simp [hx, hh]
        simp only [h1, h2, if_true, List.map_cons, List.singleton_append]

theorem filter_isCall_eq_nil (l : List Event) (h : ∀ e ∈ l, e.isCall = false) :
    l.filter Event.isCall = [] := by
  rw [List.filter_eq_nil_iff]
  intro e he
  rw [h e he]
  exact Bool.false_ne_true

theorem Sys.run_to_drain (mem : WorkerMem) (bucket : Nat) (s s3 : Sys)
    (pre mid late : List Step) (hpc : s.pc = .bootstrap)
    (hflag : s.m.workerManagerRunning = 0 ∨ Step.stop ∈ pre)
    (hpre : Step.thread ∉ pre) (hmid : Step.thread ∉ mid) (hlate : Step.thread ∉ late)
    (hrun : (Sys.run mem bucket s (pre ++ .thread :: (mid ++ .thread :: late))).result
      = some s3) :
    s3.pc = .drain
      ∧ (Sys.run mem bucket s (pre ++ .thread :: (mid ++ .thread :: late))).events
          = (Sys.run mem bucket s (pre ++ (mid ++ late))).events := by
  cases h0 : (Sys.run mem bucket s pre).result with
  | none =>
    rw [Sys.run_append_of_none _ _ _ _ _ h0] at hrun
    exact Option.noConfusion hrun
  | some s1 =>
    obtain ⟨hs1pc, hs1flag⟩ := (Sys.run_callers mem bucket s pre hpre).2 s1 h0
    have hs1f := hs1flag hflag
    obtain ⟨hevA, hresA⟩ := Sys.run_append_of_some mem bucket s s1 pre
      (.thread :: (mid ++ .thread :: late)) h0
    obtain ⟨hevB, _⟩ := Sys.run_append_of_some mem bucket s s1 pre (mid ++ late) h0
    rw [hresA] at hrun
    cases ht1 : s1.m._pthreadList bucket with
    | none =>
      rw [(Sys.run_cons_of_fault mem bucket s1 .thread [] _
        (Sys.step_thread_no_record mem bucket s1 ht1)).2] at hrun
      exact Option.noConfusion hrun
    | some ta1 =>
      obtain ⟨hev1, hres1⟩ := Sys.run_cons_of_ok mem bucket s1 _ .thread []
        (mid ++ .thread :: late)
        (Sys.step_thread_bootstrap_clear mem bucket s1 ta1 ht1 hs1f (hs1pc.trans hpc))
      rw [hres1] at hrun
      cases h1 : (Sys.run mem bucket { s1 with pc := .runLoop } mid).result with
      | none =>
        rw [Sys.run_append_of_none _ _ _ _ _ h1] at hrun
        exact Option.noConfusion hrun
      | some s2 =>
        obtain ⟨hs2pc, hs2flag⟩ := (Sys.run_callers mem bucket _ mid hmid).2 s2 h1
        have hs2f := hs2flag (Or.inl hs1f)
        obtain ⟨hev2, hres2⟩ := Sys.run_append_of_some mem bucket _ s2 mid
          (.thread :: late) h1
        rw [hres2] at hrun
        cases ht2 : s2.m._pthreadList bucket with
        | none =>
          rw [(Sys.run_cons_of_fault mem bucket s2 .thread [] _
            (Sys.step_thread_no_record mem bucket s2 ht2)).2] at hrun
          exact Option.noConfusion hrun
        | some ta2 =>
          obtain ⟨hev3, hres3⟩ := Sys.run_cons_of_ok mem bucket s2 _ .thread [] late
            (Sys.step_thread_runLoop_clear mem bucket s2 ta2 ht2 hs2f hs2pc)
          rw [hres3] at hrun
          obtain ⟨hs3pc, _⟩ := (Sys.run_callers mem bucket _ late hlate).2 s3 hrun
          refine ⟨hs3pc, ?_⟩
          obtain ⟨hsame1, hsame1r⟩ :=
            Sys.run_callers_same mem bucket { s1 with pc := .runLoop } s1 mid rfl hmid
          obtain ⟨b1, hb1, hb1m⟩ := hsame1r s2 h1
          obtain ⟨hevC, _⟩ := Sys.run_append_of_some mem bucket s1 b1 mid late hb1
          obtain ⟨hsame2, _⟩ :=
            Sys.run_callers_same mem bucket { s2 with pc := .drain } b1 late hb1m.symm hlate
          rw [hevA, hevB, hev1, hev2, hev3, hevC, hsame1, hsame2]
          simp

/-- C21: the thread of a bucket is at its start and the running flag is cleared before its
first check (cleared from the outset, or by a stop among the callers' steps `pre`). Callers
may add and remove workers and set intervals before the thread's first step (`pre`),
between its first and second (`mid`) and between its second and third (`late`), so the
bucket's contents at the drain are arbitrary. Then the first two steps of the thread make
neither the init pass nor a run pass: they bring it to the drain and add no event, the trace
up to there being that of the callers' steps alone. Its third step is the drain: lock, the
effect of `worker_handleEnd` on each node of the list as it then is, in list order, unlock,
and the thread is done. Whatever follows (`post`), the handler calls of the whole trace are
exactly one call through the end slot for each node whose worker is present and has an end
handler, in list order: no call through an init or run slot is ever made. -/
theorem C21_flag_cleared_before_first_check_only_drain (mem : WorkerMem) (bucket : Nat)
    (s s3 : Sys) (threadArgs : threadArgs_t) (pre mid late post : List Step)
    (hpc : s.pc = .bootstrap)
    (hflag : s.m.workerManagerRunning = 0 ∨ Step.stop ∈ pre)
    (hpre : Step.thread ∉ pre) (hmid : Step.thread ∉ mid) (hlate : Step.thread ∉ late)
    (hrun : (Sys.run mem bucket s (pre ++ .thread :: (mid ++ .thread :: late))).result
      = some s3)
    (hargs : s3.m._pthreadList bucket = some threadArgs) :
    s3.pc = .drain
      ∧ (Sys.run mem bucket s (pre ++ .thread :: (mid ++ .thread :: late))).events
          = (Sys.run mem bucket s (pre ++ (mid ++ late))).events
      ∧ Sys.step mem bucket s3 .thread
          = Run.ok
              ([Event.lock threadArgs.mutex]
                ++ ((s3.m.bucket threadArgs.workerList).map fun w =>
                      worker_handleEnd mem w).flatten
                ++ [Event.unlock threadArgs.mutex])
              { s3 with pc := .done }
      ∧ (Sys.run mem bucket s
            ((pre ++ .thread :: (mid ++ .thread :: late)) ++ .thread :: post)).events.filter
              Event.isCall
          = ((s3.m.bucket threadArgs.workerList).filter fun w =>
                decide (w ≠ NULL ∧ (mem w).end_.handler ≠ NULL)).map fun w =>
              Event.call .end_ (mem w).end_.handler (mem w).end_.args := by
  obtain ⟨hs3pc, hevs⟩ :=
    Sys.run_to_drain mem bucket s s3 pre mid late hpc hflag hpre hmid hlate hrun
  have hstep := Sys.step_thread_drain mem bucket s3 threadArgs hargs hs3pc
  refine ⟨hs3pc, hevs, ?_, ?_⟩
  · rw [hstep]
    simp [_workManagerHandler.endPass, endLoop_eq, Manager.bucket]
  · have hquiet : Step.thread ∉ pre ++ (mid ++ late) := by
      simp only [List.mem_append, not_or]
      exact ⟨hpre, hmid, hlate⟩
    obtain ⟨hev1, _⟩ := Sys.run_append_of_some mem bucket s s3 _ (.thread :: post) hrun
    obtain ⟨hev2, _⟩ := Sys.run_cons_of_ok mem bucket s3 _ .thread _ post hstep
    rw [hev1, hev2, hevs, List.filter_append, List.filter_append,
      filter_isCall_eq_nil _ (Sys.run_callers mem bucket s _ hquiet).1,
      filter_isCall_eq_nil _ (Sys.run_done_no_call mem bucket _ post rfl),
      endPass_filter_isCall, flatten_handleEnd_of_nodes]
    simp

/-- C21 at the started manager with the memory `oneWorkerMem`: worker 7 (which has the
three handlers) is added to bucket 0 and the manager is stopped before the thread of bucket 0
makes its first step; worker 9 (which has no handler) is added after that step and worker 7
again after the second. The thread ends at its third step, and the only handler calls of
the trace are the two end calls for the two nodes of worker 7. -/
theorem C21_flag_cleared_before_first_check_only_drain_witness :
    ∃ s3 threadArgs,
      (Sys.run oneWorkerMem 0 { m := startedManager, pc := .bootstrap }
          ([.addWorker true 7 0, .stop]
            ++ .thread :: ([.addWorker true 9 0] ++ .thread :: [.addWorker true 7 0]))).result
        = some s3
      ∧ s3.m._pthreadList 0 = some threadArgs
      ∧ startedManager.workerManagerRunning = 1
      ∧ s3.m.bucket 0 = [7, 9, 7]
      ∧ s3.pc = .drain
      ∧ ((Sys.run oneWorkerMem 0 { m := startedManager, pc := .bootstrap }
            (([.addWorker true 7 0, .stop]
                ++ .thread :: ([.addWorker true 9 0] ++ .thread :: [.addWorker true 7 0]))
              ++ .thread :: [.removeWorker 7, .thread])).events.filter Event.isCall
          = ((s3.m.bucket threadArgs.workerList).filter fun w =>
                decide (w ≠ NULL ∧ (oneWorkerMem w).end_.handler ≠ NULL)).map fun w =>
              Event.call .end_ (oneWorkerMem w).end_.handler (oneWorkerMem w).end_.args)
      ∧ (Sys.run oneWorkerMem 0 { m := startedManager, pc := .bootstrap }
            (([.addWorker true 7 0, .stop]
                ++ .thread :: ([.addWorker true 9 0] ++ .thread :: [.addWorker true 7 0]))
              ++ .thread :: [.removeWorker 7, .thread])).events.filter Event.isCall
          = [.call .end_ 103 203, .call .end_ 103 203] :=
  ⟨_, _, rfl, rfl, rfl, rfl,
    (C21_flag_cleared_before_first_check_only_drain oneWorkerMem 0
      { m := startedManager, pc := .bootstrap } _ _
      [.addWorker true 7 0, .stop] [.addWorker true 9 0] [.addWorker true 7 0]
      [.removeWorker 7, .thread] rfl (Or.inr (by decide)) (by decide) (by decide) (by decide)
      rfl rfl).1,
    (C21_flag_cleared_before_first_check_only_drain oneWorkerMem 0
      { m := startedManager, pc := .bootstrap } _ _
      [.addWorker true 7 0, .stop] [.addWorker true 9 0] [.addWorker true 7 0]
      [.removeWorker 7, .thread] rfl (Or.inr (by decide)) (by decide) (by decide) (by decide)
      rfl rfl).2.2.2,
    by decide⟩

end Toolchest
